import Mathlib

/-!
A shallow embedding of the multilayer perceptron of
`Backpropagation/Backpropagation/MLP.cpp`.

* `std::vector<float>` is a `List α`; the scalar type `α` and its operations are
  a parameter (`Arith α`), so every theorem stated for all `A : Arith α` holds
  whatever the floating point operations compute.  Sums are formed in the order
  the loops of the source form them.
* `operator[]` outside the buffer is undefined behaviour in the source; here it
  is the error `Err.outOfRange`.  `throw -1` is `Err.thrown`.
* A `for (i = 0; i < n; i++)` loop is `forLoop n body`.
* Console output is left out.
* The classes `MLP` and `MLPLayer` are declared in `MLP.hpp`, which is not among the
  sources: their fields are those the constructors in `MLP.cpp` initialise, taken to
  be initialised in the order the initialiser lists are written in.
* Widths and buffer sizes are natural numbers.
* The calls `batchUpdate` makes are recorded in a log (`Sim.log`), one entry at each
  call statement of the source.
* The conversion of `0.8 * X.size()` to `int` is undefined behaviour when the value
  does not fit 32 bits; here it is the error `Err.castOverflow`.
* The functions above return no state when they fail.  Where the state of the object
  at a `throw` matters, the member function is also given as statements run on the
  object (`Prog`, `MLPLayer.fireRun`, `trainRun`): the state is passed from statement
  to statement, `throw -1` leaves with the state reached (`Outcome.threw`), and the
  theorems `fireRun_result` and `trainRun_result` show that the statements and the
  function give the same result.
-/

namespace MLP

/-- The ways a call can fail. -/
inductive Err where
  /-- `throw -1` -/
  | thrown
  /-- `operator[]` with an index outside the vector -/
  | outOfRange
  /-- integer `%` with a zero divisor -/
  | divByZero
  /-- a floating point value converted to an `int` that cannot hold it -/
  | castOverflow
  deriving DecidableEq, Repr

/-- The scalar operations the source uses on `float` / `double`. -/
structure Arith (α : Type) where
  /-- a literal or an integer converted to floating point -/
  ofRat : ℚ → α
  add : α → α → α
  sub : α → α → α
  mul : α → α → α
  div : α → α → α
  neg : α → α
  exp : α → α

/-- Exact rational arithmetic, with `e` standing for `exp`. -/
def ratArith (e : ℚ → ℚ) : Arith ℚ where
  ofRat := id
  add := (· + ·)
  sub := (· - ·)
  mul := (· * ·)
  div := (· / ·)
  neg := fun x => -x
  exp := e

section Defs

variable {α : Type}

/-- `xs[i]` as an rvalue. -/
def readAt {β : Type} (xs : List β) (i : Nat) : Except Err β :=
  match xs[i]? with
  | some x => .ok x
  | none => .error .outOfRange

/-- `xs[i] = v`. -/
def writeAt {β : Type} (xs : List β) (i : Nat) (v : β) : Except Err (List β) :=
  if i < xs.length then .ok (xs.set i v) else .error .outOfRange

/-- `for (i = 0; i < n; i++) body`, the loop state threaded through. -/
def forLoop {σ : Type} (n : Nat) (body : Nat → σ → Except Err σ) (s : σ) : Except Err σ :=
  (List.range n).foldlM (fun s i => body i s) s

/-- `sigmoid` (MLP.cpp:282): `1/(1 + exp(- 0.01 * x))`. -/
def sigmoid (A : Arith α) (x : α) : α :=
  A.div (A.ofRat 1) (A.add (A.ofRat 1) (A.exp (A.mul (A.neg (A.ofRat (1/100))) x)))

/-- `dsigmoid` (MLP.cpp:288). -/
def dsigmoid (A : Arith α) (x : α) : α :=
  let y := sigmoid A x
  A.mul y (A.sub (A.ofRat 1) y)

/-- The fields of `MLPLayer`. -/
structure MLPLayer (α : Type) where
  numInputs : Nat
  numOutputs : Nat
  learningRate : α
  momentum : α
  weights : List α
  outputs : List α
  deltas : List α
  dWeights : List α

/-- The initial weight made from one value `r` of `rand()` (MLP.cpp:185):
`(rand() % 101)/100.0 - 1`. -/
def initWeight (A : Arith α) (r : Nat) : α :=
  A.sub (A.div (A.ofRat ((r % 101 : Nat) : ℚ)) (A.ofRat 100)) (A.ofRat 1)

/-- `MLPLayer::MLPLayer` (MLP.cpp:169).  `rand k` is the value the `k`-th call of
`rand()` made by this constructor returns. -/
def MLPLayer.new (A : Arith α) (numInputs numOutputs : Nat) (learningRate momentum : α)
    (rand : Nat → Nat) : MLPLayer α where
  numInputs := numInputs
  numOutputs := numOutputs
  learningRate := learningRate
  momentum := momentum
  weights := (List.range (numInputs * numOutputs)).map (fun k => initWeight A (rand k))
  outputs := List.replicate numOutputs (A.ofRat 0)
  deltas := List.replicate numOutputs (A.ofRat 0)
  dWeights := List.replicate (numInputs * numOutputs) (A.ofRat 0)

/-- The inner loop of `fire` (MLP.cpp:271-275) for unit `i`: the weighted sum, with
the weight of input `j` read at flat index `i * numOutputs + j`. -/
def MLPLayer.fireSum (A : Arith α) (l : MLPLayer α) (inputs : List α) (i : Nat) :
    Except Err α :=
  forLoop inputs.length (fun j sum => do
    let w ← readAt l.weights (i * l.numOutputs + j)
    let x ← readAt inputs j
    pure (A.add sum (A.mul w x))) (A.ofRat 0)

/-- `MLPLayer::fire` (MLP.cpp:262).  The vector returned is the `outputs` of the
layer returned. -/
def MLPLayer.fire (A : Arith α) (l : MLPLayer α) (inputs : List α) :
    Except Err (MLPLayer α) :=
  if inputs.length ≠ l.numInputs then .error .thrown
  else do
    let outs ← forLoop l.numOutputs (fun i outs => do
      let sum ← l.fireSum A inputs i
      writeAt outs i (sigmoid A sum)) l.outputs
    pure { l with outputs := outs }

/-- The delta of an output unit (MLP.cpp:203), `d` the target converted to `float`
and `y` the cached output: `(d - y * y) * y * y * (1 - y * y)`. -/
def outputDelta (A : Arith α) (d y : α) : α :=
  A.mul (A.mul (A.mul (A.sub d (A.mul y y)) y) y) (A.sub (A.ofRat 1) (A.mul y y))

/-- `MLPLayer::adjustAsOutputLayer` (MLP.cpp:190).  The loop state is the pair
`(deltas, dWeights)`. -/
def MLPLayer.adjustAsOutputLayer (A : Arith α) (l : MLPLayer α) (expected : List Int)
    (inputs : List α) : Except Err (MLPLayer α) := do
  let (ds, dws) ← forLoop l.numOutputs (fun i (st : List α × List α) => do
    let y ← readAt l.outputs i
    let e ← readAt expected i
    let d := A.ofRat (e : ℚ)
    let delta := outputDelta A d y
    let ds ← writeAt st.1 i delta
    let dws ← forLoop l.numInputs (fun j dws => do
      let index := i * l.numOutputs + j
      let di ← readAt ds i
      let x ← readAt inputs j
      let old ← readAt dws index
      writeAt dws index (A.add old (A.mul (A.mul l.learningRate di) x))) st.2
    pure (ds, dws)) (l.deltas, l.dWeights)
  pure { l with deltas := ds, dWeights := dws }

/-- `MLPLayer::adjustAsHiddenLayer` (MLP.cpp:214).  The loop state is the pair
`(deltas, dWeights)`. -/
def MLPLayer.adjustAsHiddenLayer (A : Arith α) (l nextLayer : MLPLayer α)
    (inputs : List α) : Except Err (MLPLayer α) :=
  if l.numOutputs ≠ nextLayer.numInputs then .error .thrown
  else do
    let (ds, dws) ← forLoop l.outputs.length (fun i (st : List α × List α) => do
      let ds ← writeAt st.1 i (A.ofRat 0)
      let ds ← forLoop l.outputs.length (fun j ds => do
        let y ← readAt l.outputs i
        let w ← readAt nextLayer.weights j
        let nd ← readAt nextLayer.deltas j
        let dlWl := A.mul w nd
        let yy := A.mul y y
        let old ← readAt ds i
        -- deltas[i] += dlWl * y * y * (1 - y * y)
        writeAt ds i (A.add old (A.mul (A.mul (A.mul dlWl y) y) (A.sub (A.ofRat 1) yy)))) ds
      let dws ← forLoop inputs.length (fun j dws => do
        let index := i * l.numOutputs + j
        let di ← readAt ds i
        let x ← readAt inputs j
        let old ← readAt dws index
        writeAt dws index (A.add old (A.mul (A.mul l.learningRate di) x))) st.2
      pure (ds, dws)) (l.deltas, l.dWeights)
    pure { l with deltas := ds, dWeights := dws }

/-- `MLPLayer::applyMomentum` (MLP.cpp:246). -/
def MLPLayer.applyMomentum (A : Arith α) (l : MLPLayer α) : MLPLayer α :=
  { l with dWeights := l.dWeights.map (fun dw => A.mul dw l.momentum) }

/-- `MLPLayer::updateWeights` (MLP.cpp:254). -/
def MLPLayer.updateWeights (A : Arith α) (l : MLPLayer α) : Except Err (MLPLayer α) := do
  let ws ← forLoop l.dWeights.length (fun i ws => do
    let w ← readAt ws i
    let dw ← readAt l.dWeights i
    writeAt ws i (A.add w dw)) l.weights
  pure { l with weights := ws }

/-- The fields of `MLP`. -/
structure Net (α : Type) where
  numInputs : Nat
  batchSize : Int
  epochs : Int
  numOutputs : Nat
  epsilon : α
  verbose : Bool
  layers : List (MLPLayer α)

/-- `MLP::MLP` (MLP.cpp:12). -/
def Net.new (numInputs : Nat) (batchSize epochs : Int) (epsilon : α) (verbose : Bool) :
    Net α where
  numInputs := numInputs
  batchSize := batchSize
  epochs := epochs
  numOutputs := numInputs
  epsilon := epsilon
  verbose := verbose
  layers := []

/-- `MLP::addLayer` (MLP.cpp:29). -/
def Net.addLayer (A : Arith α) (net : Net α) (newNumOutputs : Nat)
    (learningRate momentum : α) (rand : Nat → Nat) : Net α :=
  { net with
    layers := net.layers ++
      [MLPLayer.new A net.numOutputs newNumOutputs learningRate momentum rand]
    numOutputs := newNumOutputs }

/-- `MLP::predict` (MLP.cpp:52) on the layer list: the loop state is the layers and
`inBetween`; the result is the layers afterwards and the vector returned. -/
def predict (A : Arith α) (layers : List (MLPLayer α)) (inputs : List α) :
    Except Err (List (MLPLayer α) × List α) :=
  forLoop layers.length (fun i (st : List (MLPLayer α) × List α) => do
    let l ← readAt st.1 i
    let l' ← l.fire A st.2
    pure (st.1.set i l', l'.outputs)) (layers, inputs)

/-- Where the `inputs` argument of a backward rule comes from. -/
inductive Src where
  /-- the training example `X[i]` -/
  | row (i : Nat)
  /-- `layers[k].getPreviousOutputs()` -/
  | outputsOf (k : Nat)
  deriving DecidableEq, Repr

/-- The calls `MLP::batchUpdate` makes, as recorded in the log. -/
inductive Call where
  /-- `layers[k].applyMomentum()` -/
  | applyMomentum (k : Nat)
  /-- `layers[k].updateWeights()` -/
  | updateWeights (k : Nat)
  /-- `predict(X[i])` -/
  | predict (i : Nat)
  /-- `layers[k].adjustAsOutputLayer(d[i], inputs)` -/
  | adjustAsOutputLayer (k : Nat) (i : Nat) (inputs : Src)
  /-- `layers[k].adjustAsHiddenLayer(layers[next], inputs)` -/
  | adjustAsHiddenLayer (k : Nat) (next : Nat) (inputs : Src)
  deriving DecidableEq, Repr

/-- The layers of the network together with the log of the calls made so far. -/
structure Sim (α : Type) where
  layers : List (MLPLayer α)
  log : List Call

/-- `for (MLPLayer& l : layers) l.f();`, each call logged as `c k`. -/
def forEachLayer (f : MLPLayer α → Except Err (MLPLayer α)) (c : Nat → Call) (s : Sim α) :
    Except Err (Sim α) :=
  forLoop s.layers.length (fun k s => do
    let l ← readAt s.layers k
    let l' ← f l
    pure { layers := s.layers.set k l', log := s.log ++ [c k] }) s

/-- `a - b` on `unsigned long`. -/
def usub (a b : Nat) : Nat := (a + 2 ^ 64 - b) % 2 ^ 64

/-- The loop `for (unsigned long j = ...; j > 0; j++)` of `batchUpdate` (MLP.cpp:116),
from the value `j` on.  The body indexes `layers[j - 1]`, `layers[j]` and
`layers[j + 1]`; `j + 1` is inside the vector when it runs on, so `j++` does not wrap. -/
def hiddenLoop (A : Arith α) (j : Nat) (s : Sim α) : Except Err (Sim α) :=
  if 0 < j then
    if h : j + 1 < s.layers.length then
      match MLPLayer.adjustAsHiddenLayer A (s.layers.get ⟨j, by omega⟩)
          (s.layers.get ⟨j + 1, h⟩) (s.layers.get ⟨j - 1, by omega⟩).outputs with
      | .error e => .error e
      | .ok l' =>
        hiddenLoop A (j + 1)
          { layers := s.layers.set j l'
            log := s.log ++ [Call.adjustAsHiddenLayer j (j + 1) (Src.outputsOf (j - 1))] }
    else .error .outOfRange
  else .ok s
termination_by s.layers.length - j
decreasing_by simp only [List.length_set]; omega

/-- The body of the `while` loop of `batchUpdate` for example `i`, up to the
backward pass of layer 0 (MLP.cpp:105-126). -/
def exampleStep (A : Arith α) (X : List (List α)) (d : List (List Int)) (i : Nat)
    (s : Sim α) : Except Err (Sim α) := do
  -- predict(X[i])
  let x ← readAt X i
  let p ← predict A s.layers x
  let expected ← readAt d i
  -- layers[layers.size() - 1].adjustAsOutputLayer(expected, layers[layers.size() - 2]...)
  let lLast ← readAt p.1 (usub p.1.length 1)
  let lBefore ← readAt p.1 (usub p.1.length 2)
  let lLast' ← lLast.adjustAsOutputLayer A expected lBefore.outputs
  -- for (unsigned long j = layers.size() - 2; j > 0; j++) ...
  let s ← hiddenLoop A (usub p.1.length 2)
    { layers := p.1.set (usub p.1.length 1) lLast'
      log := s.log ++ [Call.predict i,
        Call.adjustAsOutputLayer (usub p.1.length 1) i (Src.outputsOf (usub p.1.length 2))] }
  -- layers[0].adjustAsHiddenLayer(layers[1], X[i])
  let l0 ← readAt s.layers 0
  let l1 ← readAt s.layers 1
  let l0' ← l0.adjustAsHiddenLayer A l1 x
  pure { layers := s.layers.set 0 l0'
         log := s.log ++ [Call.adjustAsHiddenLayer 0 1 (Src.row i)] }

/-- `i % batchSize` on `int`, `i` not negative. -/
def intMod (i : Nat) (batchSize : Int) : Except Err Int :=
  if batchSize = 0 then .error .divByZero else .ok ((i : Int).tmod batchSize)

/-- `for (MLPLayer& l : layers) l.updateWeights();` -/
def updateAll (A : Arith α) (s : Sim α) : Except Err (Sim α) :=
  forEachLayer (MLPLayer.updateWeights A) Call.updateWeights s

/-- `MLP::batchUpdate` (MLP.cpp:88).  The `while` loop counts `i` from 0 up to
`lastTrainingIndex` in steps of one. -/
def batchUpdate (A : Arith α) (batchSize : Int) (X : List (List α)) (d : List (List Int))
    (lastTrainingIndex : Nat) (s : Sim α) : Except Err (Sim α) := do
  let s ← forEachLayer (fun l => pure (l.applyMomentum A)) Call.applyMomentum s
  let s ← forLoop lastTrainingIndex (fun i s => do
    let s ← exampleStep A X d i s
    let r ← intMod (i + 1) batchSize
    if r = 0 then updateAll A s else pure s) s
  let r ← intMod lastTrainingIndex batchSize
  if r ≠ 0 then updateAll A s else pure s

/-- The `double` product `0.8 * X.size()` of MLP.cpp:79 with its fraction dropped: the
floor of `0.8 * n`, that is `4 * n / 5`, for every `n` below `2684354560`, where
`lastTrainingIndex` uses it.  (The `double` nearest to `0.8` is `0.8 * (1 + 2 ^ (-54))`.
For `n` a multiple of 5 the exact product lies above the integer `4 * n / 5` by less than
half the distance to the next `double`, and is rounded to it; for any other `n` the
exact product is no nearer than `0.2` to an integer and rounding moves it by less than
`2 ^ (-22)`.) -/
def trainingSplit (n : Nat) : Nat := 4 * n / 5

/-- `(int)(0.8 * X.size())` (MLP.cpp:79), `int` being 32 bits wide.  The conversion of
a floating point value to an `int` that cannot hold its integer part is undefined
behaviour; that is so from `X.size() = 2684354560` on, where the product reaches
`2 ^ 31`.  (Compiled for x86-64 the conversion then gives `INT_MIN`, and the loop of
`batchUpdate` runs no example.) -/
def lastTrainingIndex (n : Nat) : Except Err Nat :=
  if trainingSplit n < 2 ^ 31 then .ok (trainingSplit n) else .error .castOverflow

/-- `MLP::train` (MLP.cpp:69): the layers after the last epoch and the log of all
calls made. -/
def train (A : Arith α) (net : Net α) (X : List (List α)) (d : List (List Int)) :
    Except Err (Sim α) :=
  if X.length ≠ d.length then .error .thrown
  else do
    let lastTrainingIndex ← lastTrainingIndex X.length
    forLoop net.epochs.toNat
      (fun _ s => batchUpdate A net.batchSize X d lastTrainingIndex s)
      { layers := net.layers, log := [] }

/-- The buffer sizes the constructor `MLPLayer::MLPLayer` establishes. -/
def MLPLayer.WellFormed (l : MLPLayer α) : Prop :=
  l.weights.length = l.numInputs * l.numOutputs ∧ l.outputs.length = l.numOutputs ∧
    l.deltas.length = l.numOutputs ∧ l.dWeights.length = l.numInputs * l.numOutputs

/-- The terms `weights[i * stride + j] * inputs[j]` added to `0` for
`j = 0, 1, ..., n - 1` in this order. -/
def partialSum (A : Arith α) (weights inputs : List α) (stride i n : Nat) : α :=
  (List.range n).foldl
    (fun sum j =>
      A.add sum (A.mul ((weights.get? (i * stride + j)).getD (A.ofRat 0))
        ((inputs.get? j).getD (A.ofRat 0))))
    (A.ofRat 0)

/-- The weighted sum of unit `i` over all of `inputs` when row `i` of the weight
matrix starts at flat index `i * stride`. -/
def weightedSum (A : Arith α) (weights inputs : List α) (stride i : Nat) : α :=
  partialSum A weights inputs stride i inputs.length

/-- The polynomial `1 + x + x^2/2`, standing for `exp` where a theorem evaluates the
code on concrete rational numbers. -/
def expTaylor (x : ℚ) : ℚ := 1 + x + x ^ 2 / 2

/-- The layer with three inputs and two outputs whose constructor drew from `rand()`
five values that are 100 modulo 101 and then 0: its weights are `0, 0, 0, 0, 0, -1`. -/
def layer32 : MLPLayer ℚ :=
  MLPLayer.new (ratArith expTaylor) 3 2 (1/10) (9/10) (fun k => if k = 5 then 0 else 100)

/-- The network of the end-to-end scenario: `MLP(2, 1, 50, epsilon, verbose)`, then
`addLayer(3, ..)` and `addLayer(1, ..)`. -/
def xorNet (A : Arith α) (epsilon : α) (verbose : Bool) (lr0 mom0 : α) (rand0 : Nat → Nat)
    (lr1 mom1 : α) (rand1 : Nat → Nat) : Net α :=
  ((Net.new 2 1 50 epsilon verbose).addLayer A 3 lr0 mom0 rand0).addLayer A 1 lr1 mom1 rand1

/-- The examples `[[0,0],[0,1],[1,0],[1,1]]` of the end-to-end scenario. -/
def xorX (A : Arith α) : List (List α) :=
  [[A.ofRat 0, A.ofRat 0], [A.ofRat 0, A.ofRat 1], [A.ofRat 1, A.ofRat 0],
    [A.ofRat 1, A.ofRat 1]]

/-- A layer with one input and one output, as the constructor makes it when
`rand()` returns 50: its weight is `-1/2`. -/
def layer11 : MLPLayer ℚ :=
  MLPLayer.new (ratArith expTaylor) 1 1 (1/10) (9/10) (fun _ => 50)

/-- The value `adjustAsHiddenLayer` accumulates in `deltas[i]` (MLP.cpp:228-234) over
its first `n` inner iterations: starting from `0`, for `j = 0, 1, ..., n - 1` the term
`nextWeights[j] * nextDeltas[j] * y * y * (1 - y * y)` is added, `y = outputs[i]`. -/
def hiddenDeltaUpTo (A : Arith α) (outputs nextWeights nextDeltas : List α) (i n : Nat) : α :=
  (List.range n).foldl
    (fun acc j =>
      let y := (outputs.get? i).getD (A.ofRat 0)
      let dlWl := A.mul ((nextWeights.get? j).getD (A.ofRat 0))
        ((nextDeltas.get? j).getD (A.ofRat 0))
      A.add acc (A.mul (A.mul (A.mul dlWl y) y) (A.sub (A.ofRat 1) (A.mul y y))))
    (A.ofRat 0)

/-- The value `adjustAsHiddenLayer` leaves in `deltas[i]`: `j` runs over the units of
this layer, `outputs.size()` of them. -/
def hiddenDelta (A : Arith α) (outputs nextWeights nextDeltas : List α) (i : Nat) : α :=
  hiddenDeltaUpTo A outputs nextWeights nextDeltas i outputs.length

/-- The sum the specification gives for unit `i` of a layer in front of `nextLayer`:
over all units `j` of `nextLayer`, `nextLayer.weights[j, i] * nextLayer.deltas[j]`,
the weight `[j, i]` at flat index `j * nextLayer.numInputs + i`. -/
def backpropSum (A : Arith α) (nextLayer : MLPLayer α) (i : Nat) : α :=
  (List.range nextLayer.numOutputs).foldl
    (fun acc j =>
      A.add acc (A.mul
        ((nextLayer.weights.get? (j * nextLayer.numInputs + i)).getD (A.ofRat 0))
        ((nextLayer.deltas.get? j).getD (A.ofRat 0))))
    (A.ofRat 0)

/-- A hidden layer with two inputs and two outputs whose cached outputs are
`1/2, 1/2` (the activation of a zero sum). -/
def hidden22 : MLPLayer ℚ :=
  { MLPLayer.new (ratArith expTaylor) 2 2 (1/10) (9/10) (fun _ => 100) with
    outputs := [1/2, 1/2] }

/-- A layer with two inputs and two outputs behind `hidden22`: its weights are
`0, -1, 0, 0` (so `weights[0, 1] = -1`, all others `0`) and its deltas `1, 1`. -/
def next22 : MLPLayer ℚ :=
  { MLPLayer.new (ratArith expTaylor) 2 2 (1/10) (9/10) (fun k => if k = 1 then 0 else 100) with
    deltas := [1, 1] }

/-- The calls made for one training example: `predict` and the two backward rules. -/
def Call.isExampleCall : Call → Bool
  | .predict _ => true
  | .adjustAsOutputLayer _ _ _ => true
  | .adjustAsHiddenLayer _ _ _ => true
  | _ => false

/-- The backward rules, the calls that add to a gradient accumulator. -/
def Call.isAdjust : Call → Bool
  | .adjustAsOutputLayer _ _ _ => true
  | .adjustAsHiddenLayer _ _ _ => true
  | _ => false

/-- `applyMomentum` on the layers `0, ..., L - 1` in this order. -/
def momentumCalls (L : Nat) : List Call := (List.range L).map Call.applyMomentum

/-- `updateWeights` on the layers `0, ..., L - 1` in this order. -/
def updateCalls (L : Nat) : List Call := (List.range L).map Call.updateWeights

/-- The batch procedure of the specification for the examples `0, ..., n - 1`, the
calls made for example `i` being `evs i`: after each example whose 1-based position
is a multiple of the batch size `b`, `updateWeights` on every layer. -/
def examplesLog (L b : Nat) (evs : Nat → List Call) : Nat → List Call
  | 0 => []
  | n + 1 =>
    examplesLog L b evs n ++ evs n ++ (if (n + 1) % b = 0 then updateCalls L else [])

/-- The batch procedure of the specification for one epoch over `n` examples:
`applyMomentum` on every layer, the examples with their batch boundaries, and one
more `updateWeights` on every layer if `n` is not a multiple of `b`. -/
def epochLog (L b n : Nat) (evs : Nat → List Call) : List Call :=
  momentumCalls L ++ examplesLog L b evs n ++ (if n % b ≠ 0 then updateCalls L else [])

/-- The calls `applyMomentum`. -/
def Call.isMomentum : Call → Bool
  | .applyMomentum _ => true
  | _ => false

/-- The log of the first `e` epochs of a training run, epoch `k` having made the
calls `logs k`. -/
def epochsLog (logs : Nat → List Call) : Nat → List Call
  | 0 => []
  | e + 1 => epochsLog logs e ++ logs e

/-- The specification's forward pass: every layer fired in order, each on the output
of the layer before it, the first on `x`.  The result is the list of the layers as
their `fire` left them. -/
def fireAll (A : Arith α) : List (MLPLayer α) → List α → Except Err (List (MLPLayer α))
  | [], _ => .ok []
  | l :: ls, x => do
    let l' ← l.fire A x
    let rest ← fireAll A ls l'.outputs
    pure (l' :: rest)

/-- The cached output of the last of `layers`, or `x` when there is no layer. -/
def lastOutputs (layers : List (MLPLayer α)) (x : List α) : List α :=
  match layers.getLast? with
  | some l => l.outputs
  | none => x

/-- A layer with `numInputs = I`, `numOutputs = O` and the buffer sizes of the
constructor. -/
def MLPLayer.Shape (l : MLPLayer α) (I O : Nat) : Prop :=
  l.numInputs = I ∧ l.numOutputs = O ∧ l.weights.length = I * O ∧ l.outputs.length = O ∧
    l.deltas.length = O ∧ l.dWeights.length = I * O

/-- A network of two layers, the first with `I` inputs and `O` outputs, the second
with `O` inputs and `O` outputs. -/
def Sim.TwoLayer (s : Sim α) (I O : Nat) : Prop :=
  ∃ l0 l1, s.layers = [l0, l1] ∧ l0.Shape I O ∧ l1.Shape O O

/-- A network with two inputs, a hidden layer of one unit and an output layer of one
unit, batch size 2 and 3 epochs. -/
def net211 : Net ℚ :=
  ((Net.new 2 2 3 (1/100) false).addLayer (ratArith expTaylor) 1 (1/10) (9/10) (fun k => 30 + k)
    ).addLayer (ratArith expTaylor) 1 (1/10) (9/10) (fun _ => 70)

/-- The layer its caller finds after `adjustAsHiddenLayer`, as far as the embedding
determines it.  The one `throw` is in the first statement (MLP.cpp:218-223), ahead of
every write. -/
def MLPLayer.afterAdjustAsHiddenLayer (A : Arith α) (l nextLayer : MLPLayer α)
    (inputs : List α) : Option (MLPLayer α) :=
  match l.adjustAsHiddenLayer A nextLayer inputs with
  | .ok l' => some l'
  | .error .thrown => some l
  | .error _ => none

/-- The arguments of one call of `addLayer`, with the values `rand()` returns during
it. -/
structure LayerSpec (α : Type) where
  numOutputs : Nat
  learningRate : α
  momentum : α
  rand : Nat → Nat

/-- A sequence of `addLayer` calls, in the order of `specs`. -/
def Net.addLayers (A : Arith α) (net : Net α) (specs : List (LayerSpec α)) : Net α :=
  specs.foldl
    (fun net sp => net.addLayer A sp.numOutputs sp.learningRate sp.momentum sp.rand) net

/-- The chaining invariant of the specification on a layer list: the first layer has
`first` inputs, each layer has as many outputs as the next has inputs, and the last
has `last` outputs (`first = last` for no layer). -/
def Chained : Nat → List (MLPLayer α) → Nat → Prop
  | first, [], last => first = last
  | first, l :: ls, last => l.numInputs = first ∧ Chained l.numOutputs ls last

/-- The delta of an output unit as the claim and the comment at MLP.cpp:201 have it,
the error times the derivative of the sigmoid through the output: `(d - y) * y * (1 - y)`. -/
def sigmoidDelta (A : Arith α) (d y : α) : α :=
  A.mul (A.mul (A.sub d y) y) (A.sub (A.ofRat 1) y)

/-- An output layer with one input and one unit whose cached output is `1/2`. -/
def output11 : MLPLayer ℚ :=
  { MLPLayer.new (ratArith expTaylor) 1 1 (1/10) (9/10) (fun _ => 100) with outputs := [1/2] }

/-- The flat index `fire` (MLP.cpp:274), `adjustAsOutputLayer` (MLP.cpp:207) and
`adjustAsHiddenLayer` (MLP.cpp:238) use for the pair of unit `i` and input `j`:
`i * numOutputs + j`. -/
def flatIndex (numOutputs i j : Nat) : Nat := i * numOutputs + j

/-- The flat index of every pair (unit `i < O`, input `j < I`) lies inside a buffer
of `I * O` cells. -/
def FlatInRange (I O : Nat) : Prop :=
  ∀ i j, i < O → j < I → flatIndex O i j < I * O

/-- Distinct pairs (unit, input) never share a cell. -/
def FlatInjective (I O : Nat) : Prop :=
  ∀ i j i' j', i < O → j < I → i' < O → j' < I →
    flatIndex O i j = flatIndex O i' j' → i = i' ∧ j = j'

/-- Every cell of the buffer of `I * O` cells is used by some pair (unit, input). -/
def FlatSurjective (I O : Nat) : Prop :=
  ∀ k, k < I * O → ∃ i j, i < O ∧ j < I ∧ flatIndex O i j = k

/-- The calls `exampleStep` makes for example `i` on a network of two layers. -/
def twoLayerCalls (i : Nat) : List Call :=
  [Call.predict i, Call.adjustAsOutputLayer 1 i (Src.outputsOf 0),
    Call.adjustAsHiddenLayer 0 1 (Src.row i)]

/-- The claim that momentum decay happens at the start of every batch, for layer `k`
and a log of calls: whenever two calls of `updateWeights` on the layer are successive
(`mid`, the calls between them, holds none), `applyMomentum` is called on the layer
exactly once between them. -/
def MomentumPerBatch (log : List Call) (k : Nat) : Prop :=
  ∀ pre mid post, log = pre ++ Call.updateWeights k :: (mid ++ Call.updateWeights k :: post) →
    Call.updateWeights k ∉ mid → mid.count (Call.applyMomentum k) = 1

/-- The network `net211` with batch size 1 and a single epoch. -/
def net211once : Net ℚ := { net211 with batchSize := 1, epochs := 1 }

/-- What the specification writes `activation(weights · x)`: the weights are the
`numOutputs × numInputs` matrix stored row after row, so with the row stride
`numInputs`, and unit `i` has the activation of the product of row `i` with `x`. -/
def activationOfProduct (A : Arith α) (l : MLPLayer α) (x : List α) : List α :=
  (List.range l.numOutputs).map
    (fun i => sigmoid A (weightedSum A l.weights x l.numInputs i))

/-- How a call made on an object ends, and the state it leaves the object in. -/
inductive Outcome (σ β : Type) where
  /-- the call returns `value`, the object left in `state` -/
  | returned (value : β) (state : σ)
  /-- the call leaves by `throw -1`, the object being in `state` at the throw -/
  | threw (state : σ)
  /-- undefined behaviour -/
  | undefined (e : Err)

/-- Statements run on an object of state `σ`: from the state before them to their
outcome. -/
def Prog (σ β : Type) : Type := σ → Outcome σ β

/-- The outcome of the statements `p` begun in state `s`. -/
def Prog.run {σ β : Type} (p : Prog σ β) (s : σ) : Outcome σ β := p s

/-- Statements in sequence: what follows a `throw` or undefined behaviour is not
run, and the state at a `throw` is the state the statements before it have made. -/
instance {σ : Type} : Monad (Prog σ) where
  pure b := fun s => .returned b s
  bind p f := fun s =>
    match p s with
    | .returned b s' => f b s'
    | .threw s' => .threw s'
    | .undefined e => .undefined e

/-- Reading the object. -/
def Prog.get {σ : Type} : Prog σ σ := fun s => .returned s s

/-- Writing the object. -/
def Prog.set {σ : Type} (s : σ) : Prog σ Unit := fun _ => .returned () s

/-- `throw -1;` -/
def Prog.raise {σ β : Type} : Prog σ β := fun s => .threw s

/-- An expression `x` that writes nothing: `xs[i]`, `i % batchSize`, a conversion. -/
def Prog.eval {σ β : Type} (x : Except Err β) : Prog σ β := fun s =>
  match x with
  | .ok b => .returned b s
  | .error e => .undefined e

/-- A member function with no `throw` statement, `f` being what it does to the
object. -/
def Prog.method {σ : Type} (f : σ → Except Err σ) : Prog σ Unit := do
  let s ← Prog.get
  let s' ← Prog.eval (f s)
  Prog.set s'

/-- `for (i = 0; i < n; i++) body`, with a local variable of the enclosing function
that the body assigns passed from one turn to the next. -/
def forProgWith {σ β : Type} : Nat → (Nat → β → Prog σ β) → β → Prog σ β
  | 0, _, b => pure b
  | n + 1, body, b => do
    let b' ← forProgWith n body b
    body n b'

/-- `for (i = 0; i < n; i++) body` -/
def forProg {σ : Type} (n : Nat) (body : Nat → Prog σ Unit) : Prog σ Unit :=
  forProgWith n (fun i _ => body i) ()

/-- `layers[k].p()`: the statements `p` of a member function of `MLPLayer` run on the
layer `k` of the network. -/
def onLayer {β : Type} (k : Nat) (p : Prog (MLPLayer α) β) : Prog (List (MLPLayer α)) β :=
  fun layers =>
    match layers[k]? with
    | none => .undefined .outOfRange
    | some l =>
      match p.run l with
      | .returned b l' => .returned b (layers.set k l')
      | .threw l' => .threw (layers.set k l')
      | .undefined e => .undefined e

/-- `MLPLayer::fire` (MLP.cpp:262) as statements run on the layer: the size check
with its `throw`, the loop over the units writing `outputs[i]`, `return outputs`. -/
def MLPLayer.fireRun (A : Arith α) (inputs : List α) : Prog (MLPLayer α) (List α) := do
  let l ← Prog.get
  if inputs.length ≠ l.numInputs then
    Prog.raise
  forProg l.numOutputs (fun i => do
    let l ← Prog.get
    let sum ← Prog.eval (l.fireSum A inputs i)
    let outs ← Prog.eval (writeAt l.outputs i (sigmoid A sum))
    Prog.set { l with outputs := outs })
  let l ← Prog.get
  pure l.outputs

/-- `MLPLayer::adjustAsHiddenLayer` (MLP.cpp:214) as statements run on the layer: the
size check with its `throw`, then the loops, which are those of
`MLPLayer.adjustAsHiddenLayer`. -/
def MLPLayer.adjustAsHiddenLayerRun (A : Arith α) (nextLayer : MLPLayer α)
    (inputs : List α) : Prog (MLPLayer α) Unit := do
  let l ← Prog.get
  if l.numOutputs ≠ nextLayer.numInputs then
    Prog.raise
  Prog.method (fun l => l.adjustAsHiddenLayer A nextLayer inputs)

/-- `MLP::predict` (MLP.cpp:52) as statements run on the layers of the network. -/
def predictRun (A : Arith α) (inputs : List α) : Prog (List (MLPLayer α)) (List α) := do
  let layers ← Prog.get
  forProgWith layers.length (fun i inBetween => onLayer i (MLPLayer.fireRun A inBetween))
    inputs

/-- The loop `for (unsigned long j = ...; j > 0; j++)` of `batchUpdate` (MLP.cpp:116),
from the value `j` on, run on the layers of the network. -/
def hiddenLoopFrom (A : Arith α) (j : Nat) (layers : List (MLPLayer α)) :
    Outcome (List (MLPLayer α)) Unit :=
  if 0 < j then
    if h : j + 1 < layers.length then
      match (MLPLayer.adjustAsHiddenLayerRun A (layers.get ⟨j + 1, h⟩)
          (layers.get ⟨j - 1, by omega⟩).outputs).run (layers.get ⟨j, by omega⟩) with
      | .returned _ l' => hiddenLoopFrom A (j + 1) (layers.set j l')
      | .threw l' => .threw (layers.set j l')
      | .undefined e => .undefined e
    else .undefined .outOfRange
  else .returned () layers
termination_by layers.length - j
decreasing_by simp only [List.length_set]; omega

/-- The loop of `hiddenLoopFrom` as statements. -/
def hiddenLoopRun (A : Arith α) (j : Nat) : Prog (List (MLPLayer α)) Unit :=
  fun layers => hiddenLoopFrom A j layers

/-- The body of the `while` loop of `batchUpdate` for example `i`, up to the
backward pass of layer 0 (MLP.cpp:105-126), run on the layers of the network. -/
def exampleStepRun (A : Arith α) (X : List (List α)) (d : List (List Int)) (i : Nat) :
    Prog (List (MLPLayer α)) Unit := do
  -- predict(X[i])
  let x ← Prog.eval (readAt X i)
  let _out ← predictRun A x
  let expected ← Prog.eval (readAt d i)
  -- layers[layers.size() - 1].adjustAsOutputLayer(expected, layers[layers.size() - 2]...)
  let layers ← Prog.get
  let _lLast ← Prog.eval (readAt layers (usub layers.length 1))
  let lBefore ← Prog.eval (readAt layers (usub layers.length 2))
  onLayer (usub layers.length 1)
    (Prog.method (fun l => l.adjustAsOutputLayer A expected lBefore.outputs))
  -- for (unsigned long j = layers.size() - 2; j > 0; j++) ...
  hiddenLoopRun A (usub layers.length 2)
  -- layers[0].adjustAsHiddenLayer(layers[1], X[i])
  let layers ← Prog.get
  let _l0 ← Prog.eval (readAt layers 0)
  let l1 ← Prog.eval (readAt layers 1)
  onLayer 0 (MLPLayer.adjustAsHiddenLayerRun A l1 x)

/-- `for (MLPLayer& l : layers) l.p();` -/
def forEachLayerRun (p : Prog (MLPLayer α) Unit) : Prog (List (MLPLayer α)) Unit := do
  let layers ← Prog.get
  forProg layers.length (fun k => onLayer k p)

/-- `MLP::batchUpdate` (MLP.cpp:88) as statements run on the layers of the network. -/
def batchUpdateRun (A : Arith α) (batchSize : Int) (X : List (List α))
    (d : List (List Int)) (lastTrainingIndex : Nat) : Prog (List (MLPLayer α)) Unit := do
  forEachLayerRun (Prog.method (fun l => pure (l.applyMomentum A)))
  forProg lastTrainingIndex (fun i => do
    exampleStepRun A X d i
    let r ← Prog.eval (intMod (i + 1) batchSize)
    if r = 0 then
      forEachLayerRun (Prog.method (MLPLayer.updateWeights A)))
  let r ← Prog.eval (intMod lastTrainingIndex batchSize)
  if r ≠ 0 then
    forEachLayerRun (Prog.method (MLPLayer.updateWeights A))

/-- `MLP::train` (MLP.cpp:69) as statements run on the layers of the network: the
size check with its `throw`, the conversion to `int`, the epochs. -/
def trainRun (A : Arith α) (net : Net α) (X : List (List α)) (d : List (List Int)) :
    Prog (List (MLPLayer α)) Unit := do
  if X.length ≠ d.length then
    Prog.raise
  let lastTrainingIndex ← Prog.eval (lastTrainingIndex X.length)
  forProg net.epochs.toNat (fun _ => batchUpdateRun A net.batchSize X d lastTrainingIndex)

/-- The outcome of a call as the result of the functions that return the state: the
state left on return, `Err.thrown` for a `throw`. -/
def Outcome.result {σ β : Type} : Outcome σ β → Except Err (β × σ)
  | .returned b s => .ok (b, s)
  | .threw _ => .error .thrown
  | .undefined e => .error e

end Defs

section Loops

variable {α : Type} {σ β : Type}

theorem forLoop_zero (f : Nat → σ → Except Err σ) (s : σ) :
    forLoop 0 f s = .ok s := rfl

theorem forLoop_succ (n : Nat) (f : Nat → σ → Except Err σ) (s : σ) :
    forLoop (n + 1) f s = (forLoop n f s >>= f n) := by
  simp [forLoop, List.range_succ, List.foldlM_append]

theorem bind_eq_ok {γ δ : Type} {x : Except Err γ} {f : γ → Except Err δ} {b : δ} :
    (x >>= f) = .ok b ↔ ∃ a, x = .ok a ∧ f a = .ok b := by
  cases x with
  | error e => simp [bind, Except.bind]
  | ok a => simp [bind, Except.bind]

theorem readAt_eq_ok {xs : List β} {i : Nat} {x : β} :
    readAt xs i = .ok x ↔ xs[i]? = some x := by
  unfold readAt
  cases h : xs[i]? <;> simp

theorem readAt_lt {xs : List β} {i : Nat} {x : β} (h : readAt xs i = .ok x) :
    i < xs.length := by
  rw [readAt_eq_ok] at h
  exact (List.getElem?_eq_some.1 h).1

theorem readAt_of_lt {xs : List β} {i : Nat} (h : i < xs.length) :
    readAt xs i = .ok (xs.get ⟨i, h⟩) := by
  rw [readAt_eq_ok]
  simp [List.getElem?_eq_getElem h]

theorem readAt_error {xs : List β} {i : Nat} {e : Err} (h : readAt xs i = .error e) :
    e = .outOfRange := by
  unfold readAt at h
  cases h' : xs[i]? <;> simp [h'] at h
  exact h.symm

theorem writeAt_eq_ok {xs ys : List β} {i : Nat} {v : β} :
    writeAt xs i v = .ok ys ↔ i < xs.length ∧ ys = xs.set i v := by
  unfold writeAt
  by_cases h : i < xs.length <;> simp [h, eq_comm]

theorem writeAt_error {xs : List β} {i : Nat} {v : β} {e : Err}
    (h : writeAt xs i v = .error e) : e = .outOfRange := by
  unfold writeAt at h
  by_cases h' : i < xs.length <;> simp [h'] at h
  exact h.symm

/-- An invariant kept by every iteration that returns holds when the loop returns. -/
theorem forLoop_inv {P : Nat → σ → Prop} {f : Nat → σ → Except Err σ} {s : σ}
    (n : Nat) (h0 : P 0 s)
    (hstep : ∀ i t t', i < n → P i t → f i t = .ok t' → P (i + 1) t') :
    ∀ s', forLoop n f s = .ok s' → P n s' := by
  induction n with
  | zero =>
    intro s' h
    rw [forLoop_zero] at h
    cases h
    exact h0
  | succ n ih =>
    intro s' h
    rw [forLoop_succ, bind_eq_ok] at h
    obtain ⟨t, ht, hb⟩ := h
    exact hstep n t s' (Nat.lt_succ_self n)
      (ih (fun i u u' hi => hstep i u u' (Nat.lt_succ_of_lt hi)) t ht) hb

/-- A loop whose iterations all return, on the states of an invariant, returns. -/
theorem forLoop_ok_of {P : Nat → σ → Prop} {f : Nat → σ → Except Err σ} {s : σ}
    (n : Nat) (h0 : P 0 s)
    (hstep : ∀ i t, i < n → P i t → ∃ t', f i t = .ok t' ∧ P (i + 1) t') :
    ∃ s', forLoop n f s = .ok s' ∧ P n s' := by
  induction n with
  | zero => exact ⟨s, rfl, h0⟩
  | succ n ih =>
    obtain ⟨t, ht, hP⟩ := ih (fun i u hi => hstep i u (Nat.lt_succ_of_lt hi))
    obtain ⟨t', hb, hP'⟩ := hstep n t (Nat.lt_succ_self n) hP
    exact ⟨t', by rw [forLoop_succ, ht]; exact hb, hP'⟩

/-- When a loop returns, each of its iterations was run and returned. -/
theorem forLoop_ok_iter {f : Nat → σ → Except Err σ} {s s' : σ} :
    ∀ n, forLoop n f s = .ok s' →
      ∀ i, i < n → ∃ t t', forLoop i f s = .ok t ∧ f i t = .ok t' := by
  intro n
  induction n generalizing s' with
  | zero => intro _ i hi; omega
  | succ n ih =>
    intro h i hi
    rw [forLoop_succ, bind_eq_ok] at h
    obtain ⟨t, ht, hb⟩ := h
    by_cases hin : i = n
    · subst hin
      exact ⟨t, s', ht, hb⟩
    · exact ih ht i (by omega)

/-- A loop fails only with an error of its f. -/
theorem forLoop_error {Q : Err → Prop} {f : Nat → σ → Except Err σ}
    (hbody : ∀ i t e, f i t = .error e → Q e) :
    ∀ n s e, forLoop n f s = .error e → Q e := by
  intro n
  induction n with
  | zero => intro s e h; rw [forLoop_zero] at h; cases h
  | succ n ih =>
    intro s e h
    rw [forLoop_succ] at h
    cases ht : forLoop n f s with
    | error e' =>
      rw [ht] at h
      simp only [bind, Except.bind] at h
      cases h
      exact ih s e ht
    | ok t =>
      rw [ht] at h
      exact hbody n t e h

theorem lastTrainingIndex_of_lt (n : Nat) (h : trainingSplit n < 2 ^ 31) :
    lastTrainingIndex n = .ok (trainingSplit n) := by
  unfold lastTrainingIndex
  rw [if_pos h]

theorem lastTrainingIndex_of_ge (n : Nat) (h : 2 ^ 31 ≤ trainingSplit n) :
    lastTrainingIndex n = .error .castOverflow := by
  unfold lastTrainingIndex
  rw [if_neg (Nat.not_lt.2 h)]

/-- `train` past its size check and the conversion to `int`: the epochs. -/
theorem train_eq (A : Arith α) (net : Net α) (X : List (List α)) (d : List (List Int))
    (hlen : X.length = d.length) (hsplit : trainingSplit X.length < 2 ^ 31) :
    train A net X d = forLoop net.epochs.toNat
      (fun _ s => batchUpdate A net.batchSize X d (trainingSplit X.length) s)
      { layers := net.layers, log := [] } := by
  unfold train
  rw [if_neg (fun hne => hne hlen), lastTrainingIndex_of_lt _ hsplit]
  rfl

/-- `train` returns only past its size check and the conversion to `int`. -/
theorem train_ok_bound (A : Arith α) (net : Net α) (X : List (List α))
    (d : List (List Int)) (s' : Sim α) (h : train A net X d = .ok s') :
    X.length = d.length ∧ trainingSplit X.length < 2 ^ 31 := by
  unfold train at h
  split at h
  · cases h
  · rename_i hlen
    refine ⟨not_not.1 hlen, ?_⟩
    by_contra hsplit
    rw [lastTrainingIndex_of_ge _ (Nat.not_lt.1 hsplit)] at h
    cases h

end Loops

section Fire

variable {α : Type}

theorem bind_eq_error {γ δ : Type} {x : Except Err γ} {f : γ → Except Err δ} {e : Err} :
    (x >>= f) = .error e ↔ x = .error e ∨ ∃ a, x = .ok a ∧ f a = .error e := by
  cases x with
  | error e' => simp [bind, Except.bind]
  | ok a => simp [bind, Except.bind]

/-- The loops of `fire` fail with an index out of range only. -/
theorem fireSum_error (A : Arith α) (l : MLPLayer α) (inputs : List α) (i : Nat) (e : Err)
    (h : l.fireSum A inputs i = .error e) : e = .outOfRange := by
  refine forLoop_error (Q := fun e => e = Err.outOfRange) ?_ _ _ e h
  intro j t e he
  rw [bind_eq_error] at he
  rcases he with he | ⟨w, _, he⟩
  · exact readAt_error he
  · rw [bind_eq_error] at he
    rcases he with he | ⟨x, _, he⟩
    · exact readAt_error he
    · cases he

/-- When the weighted sum of unit `i` is formed over a non-empty input, the flat
index `i * numOutputs` was read. -/
theorem fireSum_ok_lt (A : Arith α) (l : MLPLayer α) (inputs : List α) (i : Nat) (v : α)
    (hpos : 0 < inputs.length) (h : l.fireSum A inputs i = .ok v) :
    i * l.numOutputs < l.weights.length := by
  obtain ⟨t, t', _, hb⟩ := forLoop_ok_iter _ h 0 hpos
  rw [bind_eq_ok] at hb
  obtain ⟨w, hw, _⟩ := hb
  simpa using readAt_lt hw

theorem fireSum_ok_of (A : Arith α) (l : MLPLayer α) (inputs : List α) (i : Nat)
    (hidx : ∀ j, j < inputs.length → i * l.numOutputs + j < l.weights.length) :
    ∃ v, l.fireSum A inputs i = .ok v := by
  obtain ⟨v, hv, _⟩ := forLoop_ok_of (P := fun _ _ => True)
    (f := fun j sum => do
      let w ← readAt l.weights (i * l.numOutputs + j)
      let x ← readAt inputs j
      pure (A.add sum (A.mul w x))) (s := A.ofRat 0) inputs.length trivial
    (by
      intro j t hj _
      refine ⟨A.add t (A.mul (l.weights.get ⟨_, hidx j hj⟩) (inputs.get ⟨j, hj⟩)), ?_, trivial⟩
      beta_reduce
      rw [readAt_of_lt (hidx j hj), readAt_of_lt hj]
      rfl)
  exact ⟨v, hv⟩

/-- C1 (as the code has it).  For a layer with the buffer sizes of the constructor,
positive `numInputs` and an input vector of length `numInputs`: when
`numInputs < numOutputs`, `fire` reads `weights` at an index outside the buffer;
when `numOutputs ≤ numInputs` it returns a vector of length `numOutputs`. -/
theorem fire_in_range_iff (A : Arith α) (l : MLPLayer α) (inputs : List α)
    (hwf : l.WellFormed) (hlen : inputs.length = l.numInputs) (hpos : 0 < l.numInputs) :
    (l.numInputs < l.numOutputs → l.fire A inputs = .error .outOfRange) ∧
    (l.numOutputs ≤ l.numInputs →
      ∃ l', l.fire A inputs = .ok l' ∧ l'.outputs.length = l.numOutputs) := by
  obtain ⟨hw, ho, _, _⟩ := hwf
  constructor
  · intro hlt
    unfold MLPLayer.fire
    rw [if_neg (by simpa using hlen)]
    cases hloop : forLoop l.numOutputs (fun i outs => do
        let sum ← l.fireSum A inputs i
        writeAt outs i (sigmoid A sum)) l.outputs with
    | error e =>
      have he : e = Err.outOfRange := by
        refine forLoop_error (Q := fun e => e = Err.outOfRange) ?_ _ _ e hloop
        intro i t e he
        rw [bind_eq_error] at he
        rcases he with he | ⟨v, _, he⟩
        · exact fireSum_error A l inputs i e he
        · exact writeAt_error he
      subst he
      rfl
    | ok outs =>
      exfalso
      obtain ⟨t, t', _, hb⟩ := forLoop_ok_iter _ hloop (l.numOutputs - 1) (by omega)
      rw [bind_eq_ok] at hb
      obtain ⟨v, hv, _⟩ := hb
      have h1 := fireSum_ok_lt A l inputs _ v (by omega) hv
      rw [hw] at h1
      have h2 : l.numOutputs - 1 < l.numInputs := Nat.lt_of_mul_lt_mul_right h1
      omega
  · intro hle
    unfold MLPLayer.fire
    rw [if_neg (by simpa using hlen)]
    obtain ⟨outs, houts, hP⟩ := forLoop_ok_of (P := fun _ (outs : List α) => outs.length = l.numOutputs)
      (f := fun i outs => do
        let sum ← l.fireSum A inputs i
        writeAt outs i (sigmoid A sum)) (s := l.outputs) l.numOutputs ho
      (by
        intro i t hi ht
        obtain ⟨v, hv⟩ := fireSum_ok_of A l inputs i (by
          intro j hj
          rw [hw]
          rw [hlen] at hj
          calc i * l.numOutputs + j < i * l.numOutputs + l.numInputs := by omega
            _ ≤ i * l.numInputs + l.numInputs := by
                have := Nat.mul_le_mul_left i hle
                omega
            _ = (i + 1) * l.numInputs := by ring
            _ ≤ l.numOutputs * l.numInputs := Nat.mul_le_mul_right _ hi
            _ = l.numInputs * l.numOutputs := Nat.mul_comm _ _)
        refine ⟨t.set i (sigmoid A v), ?_, by simpa using ht⟩
        beta_reduce
        rw [hv]
        show writeAt t i (sigmoid A v) = _
        rw [writeAt_eq_ok]
        exact ⟨by omega, rfl⟩)
    exact ⟨{ l with outputs := outs }, by rw [houts]; rfl, hP⟩

theorem MLPLayer.new_wellFormed (A : Arith α) (numInputs numOutputs : Nat)
    (learningRate momentum : α) (rand : Nat → Nat) :
    (MLPLayer.new A numInputs numOutputs learningRate momentum rand).WellFormed := by
  simp [MLPLayer.WellFormed, MLPLayer.new]

/-- C1, at a layer with two inputs and three outputs: the hypotheses of
`fire_in_range_iff` hold there and `fire` indexes `weights` out of range. -/
theorem fire_in_range_iff_witness :
    (MLPLayer.new (ratArith id) 2 3 (1/10) (9/10) id).WellFormed ∧
    (MLPLayer.new (ratArith id) 2 3 (1/10) (9/10) id).fire (ratArith id) [0, 1]
      = .error .outOfRange :=
  ⟨MLPLayer.new_wellFormed _ _ _ _ _ _,
    (fire_in_range_iff (ratArith id) (MLPLayer.new (ratArith id) 2 3 (1/10) (9/10) id) [0, 1]
      (MLPLayer.new_wellFormed _ _ _ _ _ _) rfl (by decide)).1 (by decide)⟩

end Fire

section FireValue

variable {α : Type}

theorem fireSum_eq (A : Arith α) (l : MLPLayer α) (inputs : List α) (i : Nat) (v : α)
    (h : l.fireSum A inputs i = .ok v) :
    v = weightedSum A l.weights inputs l.numOutputs i := by
  refine forLoop_inv (P := fun n sum => sum = partialSum A l.weights inputs l.numOutputs i n)
    inputs.length rfl ?_ v h
  intro j t t' _ ht hb
  rw [bind_eq_ok] at hb
  obtain ⟨w, hw, hb⟩ := hb
  rw [bind_eq_ok] at hb
  obtain ⟨x, hx, hb⟩ := hb
  cases hb
  subst ht
  rw [readAt_eq_ok] at hw hx
  simp [partialSum, List.range_succ, List.foldl_append, hw, hx, List.get?_eq_getElem?]

/-- What `fire` leaves in `outputs` when it returns: unit `i` holds the activation
of the weighted sum whose weights are read from flat index `i * numOutputs` on. -/
theorem fire_outputs (A : Arith α) (l l' : MLPLayer α) (inputs : List α)
    (h : l.fire A inputs = .ok l') :
    l'.outputs.length = l.outputs.length ∧
    ∀ i, i < l.numOutputs →
      l'.outputs.get? i = some (sigmoid A (weightedSum A l.weights inputs l.numOutputs i)) := by
  unfold MLPLayer.fire at h
  split at h
  · cases h
  · rw [bind_eq_ok] at h
    obtain ⟨outs, houts, h⟩ := h
    cases h
    refine forLoop_inv
      (P := fun n (outs : List α) => outs.length = l.outputs.length ∧ ∀ i, i < n →
        outs.get? i = some (sigmoid A (weightedSum A l.weights inputs l.numOutputs i)))
      l.numOutputs ⟨rfl, fun i hi => absurd hi (Nat.not_lt_zero i)⟩ ?_ outs houts
    intro n t t' _ ⟨hlen, hval⟩ hb
    rw [bind_eq_ok] at hb
    obtain ⟨v, hv, hb⟩ := hb
    rw [writeAt_eq_ok] at hb
    obtain ⟨hn, rfl⟩ := hb
    have hv' := fireSum_eq A l inputs n v hv
    subst hv'
    refine ⟨by simpa using hlen, ?_⟩
    intro i hi
    by_cases hin : i = n
    · subst hin
      simp [List.get?_eq_getElem?, List.getElem?_set, hn]
    · have := hval i (by omega)
      simp only [List.get?_eq_getElem?] at this ⊢
      rw [List.getElem?_set_ne (Ne.symm hin)]
      exact this

theorem fire_frame (A : Arith α) (l l' : MLPLayer α) (inputs : List α)
    (h : l.fire A inputs = .ok l') :
    l'.numInputs = l.numInputs ∧ l'.numOutputs = l.numOutputs ∧
      l'.weights = l.weights ∧ l'.deltas = l.deltas ∧ l'.dWeights = l.dWeights ∧
      l'.learningRate = l.learningRate ∧ l'.momentum = l.momentum := by
  unfold MLPLayer.fire at h
  split at h
  · cases h
  · rw [bind_eq_ok] at h
    obtain ⟨outs, _, h⟩ := h
    cases h
    exact ⟨rfl, rfl, rfl, rfl, rfl, rfl, rfl⟩

end FireValue

section FireClaim

variable {α : Type}

/-- C2 (as the code has it).  When `fire` returns, the output of every unit
`i < numOutputs` is the activation of the sum of `weights[i * numOutputs + j] * inputs[j]`
over the inputs `j`: row `i` is read from flat index `i * numOutputs` on, not from
`i * numInputs` on. -/
theorem fire_outputs_stride (A : Arith α) (l l' : MLPLayer α) (inputs : List α)
    (h : l.fire A inputs = .ok l') (i : Nat) (hi : i < l.numOutputs) :
    l'.outputs.get? i =
      some (sigmoid A (weightedSum A l.weights inputs l.numOutputs i)) :=
  (fire_outputs A l l' inputs h).2 i hi

theorem layer32_fire :
    layer32.fire (ratArith expTaylor) [0, 0, 1]
      = .ok { layer32 with outputs := [1/2, 1/2] } := by
  simp [layer32, MLPLayer.fire, MLPLayer.fireSum, MLPLayer.new, forLoop, readAt, writeAt,
    initWeight, ratArith, sigmoid, expTaylor, List.range, List.range.loop, bind, Except.bind,
    pure, Except.pure]
  norm_num

/-- C2, at `layer32` (weights `0, 0, 0, 0, 0, -1`) and the input `0, 0, 1`: `fire`
returns `1/2` for unit 1, the activation of the sum over the flat indices 2, 3, 4;
the sum over row 1 of the row-major matrix, the flat indices 3, 4, 5, has the
activation `20000/40201`. -/
theorem fire_outputs_stride_witness :
    layer32.fire (ratArith expTaylor) [0, 0, 1]
      = .ok { layer32 with outputs := [1/2, 1/2] } ∧
    some (1/2 : ℚ) = some (sigmoid (ratArith expTaylor)
      (weightedSum (ratArith expTaylor) layer32.weights [0, 0, 1] 2 1)) ∧
    sigmoid (ratArith expTaylor)
      (weightedSum (ratArith expTaylor) layer32.weights [0, 0, 1] 3 1) = 20000/40201 :=
  ⟨layer32_fire,
    fire_outputs_stride (ratArith expTaylor) layer32 _ [0, 0, 1] layer32_fire 1 (by decide),
    by
      simp [layer32, MLPLayer.new, weightedSum, partialSum, initWeight, ratArith, sigmoid,
        expTaylor, List.range, List.range.loop]
      norm_num⟩

end FireClaim

section Scenario

variable {α : Type}

/-- C3 (what the code does).  In the end-to-end scenario, whatever the arithmetic,
the hyperparameters, the values drawn from `rand()` and the four targets, `train`
does not complete: the first `fire` of the hidden layer (2 inputs, 3 outputs) indexes
`weights` out of range; and so does `predict` on any 2-element input. -/
theorem xor_scenario_out_of_range (A : Arith α) (epsilon : α) (verbose : Bool)
    (lr0 mom0 : α) (rand0 : Nat → Nat) (lr1 mom1 : α) (rand1 : Nat → Nat)
    (t0 t1 t2 t3 : Int) (x0 x1 : α) :
    train A (xorNet A epsilon verbose lr0 mom0 rand0 lr1 mom1 rand1) (xorX A)
        [[t0], [t1], [t2], [t3]] = .error .outOfRange ∧
    predict A (xorNet A epsilon verbose lr0 mom0 rand0 lr1 mom1 rand1).layers [x0, x1]
      = .error .outOfRange := by
  constructor
  · have h4 : (xorX A).length = 4 := rfl
    have h : lastTrainingIndex 4 = .ok 3 := rfl
    unfold train
    rw [h4, h]
    rfl
  · rfl

end Scenario

section Backward

variable {α : Type}

/-- A call that returns no value has failed. -/
theorem error_of_not_ok {γ : Type} (x : Except Err γ) (hno : ∀ v, ¬ x = .ok v) :
    ∃ err, x = .error err :=
  match x, hno with
  | .error err, _ => ⟨err, rfl⟩
  | .ok v, hno => (hno v rfl).elim

theorem predict_length (A : Arith α) (layers : List (MLPLayer α)) (inputs : List α)
    (p : List (MLPLayer α) × List α) (h : predict A layers inputs = .ok p) :
    p.1.length = layers.length := by
  refine forLoop_inv (P := fun _ (st : List (MLPLayer α) × List α) => st.1.length = layers.length)
    layers.length rfl ?_ p h
  intro i t t' _ ht hb
  simp only [bind_eq_ok] at hb
  obtain ⟨l, _, l', _, hb⟩ := hb
  cases hb
  simpa using ht

/-- The loop over the hidden layers, entered at an index `j` with `0 < j` inside the
layer list, does not return: `j` grows until `layers[j + 1]` is outside the list. -/
theorem hiddenLoop_not_ok (A : Arith α) :
    ∀ (n j : Nat) (s : Sim α), s.layers.length - j = n → 0 < j → j < s.layers.length →
      ∀ s', hiddenLoop A j s ≠ .ok s' := by
  intro n
  induction n with
  | zero => intro j s hn _ hj; omega
  | succ n ih =>
    intro j s hn hpos hj s' h
    rw [hiddenLoop] at h
    rw [if_pos hpos] at h
    by_cases hj1 : j + 1 < s.layers.length
    · rw [dif_pos hj1] at h
      split at h
      · cases h
      · exact ih (j + 1) _ (by simp only [List.length_set]; omega) (by omega)
          (by simp only [List.length_set]; omega) s' h
    · rw [dif_neg hj1] at h
      cases h

theorem usub_of_le {a b : Nat} (hb : b ≤ a) (ha : a < 2 ^ 64) : usub a b = a - b := by
  unfold usub
  have : a + 2 ^ 64 - b = (a - b) + 2 ^ 64 := by omega
  rw [this, Nat.add_mod_right, Nat.mod_eq_of_lt (by omega)]

theorem hiddenLoop_zero (A : Arith α) (s : Sim α) : hiddenLoop A 0 s = .ok s := by
  rw [hiddenLoop]
  simp

theorem exampleStep_three_layers (A : Arith α) (X : List (List α)) (d : List (List Int))
    (i : Nat) (s : Sim α) (hL : 3 ≤ s.layers.length) (hmax : s.layers.length < 2 ^ 64) :
    ∃ e, exampleStep A X d i s = .error e := by
  refine error_of_not_ok _ ?_
  intro s' h
  unfold exampleStep at h
  simp only [bind_eq_ok] at h
  obtain ⟨x, _, p, hp, expected, _, lLast, _, lBefore, _, lLast', _, s2, hloop, _⟩ := h
  have hlen := predict_length A _ _ p hp
  rw [hlen, usub_of_le (by omega) hmax] at hloop
  exact hiddenLoop_not_ok A _ _ _ rfl (by omega) (by simp only [List.length_set]; omega) s2 hloop

theorem exampleStep_two_layers (A : Arith α) (X : List (List α)) (d : List (List Int))
    (i : Nat) (s s' : Sim α) (hL : s.layers.length = 2)
    (h : exampleStep A X d i s = .ok s') :
    s'.layers.length = 2 ∧
    s'.log = s.log ++ [Call.predict i, Call.adjustAsOutputLayer 1 i (Src.outputsOf 0),
      Call.adjustAsHiddenLayer 0 1 (Src.row i)] := by
  unfold exampleStep at h
  simp only [bind_eq_ok] at h
  obtain ⟨x, _, p, hp, expected, _, lLast, _, lBefore, _, lLast', _, s2, hloop, l0, _, l1, _,
    l0', _, h⟩ := h
  have hlen := predict_length A _ _ p hp
  rw [hL] at hlen
  have h1 : usub 2 1 = 1 := by decide
  have h2 : usub 2 2 = 0 := by decide
  rw [hlen, h1, h2, hiddenLoop_zero] at hloop
  cases hloop
  cases h
  simp [hlen]

/-- C4 (as the code has it).  The backward pass of one example, `exampleStep`:
with two layers, when it returns it has called `predict`, then `adjustAsOutputLayer`
on layer 1 with layer 0's cached output, then `adjustAsHiddenLayer` on layer 0 with
layer 1 as the next layer and `X[i]` as inputs; with three layers or more it never
returns, because the loop over the hidden layers counts `j` upwards and leaves the
layer list. -/
theorem backward_pass_calls (A : Arith α) (X : List (List α)) (d : List (List Int))
    (i : Nat) (s : Sim α) (hmax : s.layers.length < 2 ^ 64) :
    (3 ≤ s.layers.length → ∃ e, exampleStep A X d i s = .error e) ∧
    (s.layers.length = 2 → ∀ s', exampleStep A X d i s = .ok s' →
      s'.log = s.log ++ [Call.predict i, Call.adjustAsOutputLayer 1 i (Src.outputsOf 0),
        Call.adjustAsHiddenLayer 0 1 (Src.row i)]) :=
  ⟨fun hL => exampleStep_three_layers A X d i s hL hmax,
    fun hL s' h => (exampleStep_two_layers A X d i s s' hL h).2⟩

theorem layer11_three_step :
    exampleStep (ratArith expTaylor) [[1]] [[1]] 0 ⟨[layer11, layer11, layer11], []⟩
      = .error .outOfRange := by
  simp [exampleStep, predict, layer11, MLPLayer.fire, MLPLayer.fireSum, MLPLayer.new, forLoop,
    readAt, writeAt, initWeight, ratArith, sigmoid, expTaylor, List.range, List.range.loop,
    bind, Except.bind, pure, Except.pure, usub, MLPLayer.adjustAsOutputLayer,
    MLPLayer.adjustAsHiddenLayer]
  rw [hiddenLoop]
  simp [MLPLayer.adjustAsHiddenLayer, forLoop, readAt, writeAt, ratArith, List.range,
    List.range.loop, bind, Except.bind, pure, Except.pure]
  rw [hiddenLoop]
  simp

/-- C4, at three layers of one input and one output each and the example `[1]` with
target `[1]`: the backward pass fails, and it fails by indexing `layers[3]`. -/
theorem backward_pass_calls_witness :
    (∃ e, exampleStep (ratArith expTaylor) [[1]] [[1]] 0 ⟨[layer11, layer11, layer11], []⟩
      = .error e) ∧
    exampleStep (ratArith expTaylor) [[1]] [[1]] 0 ⟨[layer11, layer11, layer11], []⟩
      = .error .outOfRange :=
  ⟨(backward_pass_calls (ratArith expTaylor) [[1]] [[1]] 0 ⟨[layer11, layer11, layer11], []⟩
      (by decide)).1 (by decide),
    layer11_three_step⟩

end Backward

section HiddenDelta

variable {α : Type}

theorem get?_set_self {β : Type} (xs : List β) (i : Nat) (v : β) (h : i < xs.length) :
    (xs.set i v).get? i = some v := by
  simp [List.get?_eq_getElem?, List.getElem?_set, h]

theorem get?_set_other {β : Type} (xs : List β) (i k : Nat) (v : β) (h : k ≠ i) :
    (xs.set i v).get? k = xs.get? k := by
  simp only [List.get?_eq_getElem?]
  exact List.getElem?_set_ne (Ne.symm h)

/-- The loop that accumulates `deltas[i]` in `adjustAsHiddenLayer`. -/
theorem hiddenDelta_loop (A : Arith α) (outputs nw nd : List α) (i n : Nat) (ds0 ds : List α)
    (h0 : ds0.get? i = some (A.ofRat 0))
    (h : forLoop n (fun j ds => do
        let y ← readAt outputs i
        let w ← readAt nw j
        let nd ← readAt nd j
        let dlWl := A.mul w nd
        let yy := A.mul y y
        let old ← readAt ds i
        writeAt ds i (A.add old (A.mul (A.mul (A.mul dlWl y) y) (A.sub (A.ofRat 1) yy)))) ds0
      = .ok ds) :
    ds.length = ds0.length ∧ ds.get? i = some (hiddenDeltaUpTo A outputs nw nd i n) ∧
      ∀ k, k ≠ i → ds.get? k = ds0.get? k := by
  refine forLoop_inv
    (P := fun n (ds : List α) => ds.length = ds0.length ∧
      ds.get? i = some (hiddenDeltaUpTo A outputs nw nd i n) ∧
      ∀ k, k ≠ i → ds.get? k = ds0.get? k)
    n ⟨rfl, h0, fun _ _ => rfl⟩ ?_ ds h
  intro j t t' _ ⟨hlen, hval, hrest⟩ hb
  simp only [bind_eq_ok] at hb
  obtain ⟨y, hy, w, hw, x, hx, old, hold, hb⟩ := hb
  rw [writeAt_eq_ok] at hb
  obtain ⟨hi, rfl⟩ := hb
  rw [readAt_eq_ok] at hy hw hx hold
  refine ⟨by simpa using hlen, ?_, ?_⟩
  · rw [get?_set_self _ _ _ hi]
    rw [List.get?_eq_getElem?, hold] at hval
    cases hval
    simp [hiddenDeltaUpTo, List.range_succ, List.foldl_append, hy, hw, hx,
      List.get?_eq_getElem?]
  · intro k hk
    rw [get?_set_other _ _ _ _ hk]
    exact hrest k hk

/-- The loop that adds to `dWeights` leaves the length as it was. -/
theorem dWeights_loop_length (A : Arith α) (lr : α) (stride i n : Nat) (ds inputs : List α)
    (dws0 dws : List α)
    (h : forLoop n (fun j dws => do
        let index := i * stride + j
        let di ← readAt ds i
        let x ← readAt inputs j
        let old ← readAt dws index
        writeAt dws index (A.add old (A.mul (A.mul lr di) x))) dws0 = .ok dws) :
    dws.length = dws0.length := by
  refine forLoop_inv (P := fun _ (dws : List α) => dws.length = dws0.length) n rfl ?_ dws h
  intro j t t' _ hlen hb
  simp only [bind_eq_ok] at hb
  obtain ⟨_, _, _, _, _, _, hb⟩ := hb
  rw [writeAt_eq_ok] at hb
  obtain ⟨_, rfl⟩ := hb
  simpa using hlen

theorem adjustAsHiddenLayer_deltas (A : Arith α) (l nextLayer l' : MLPLayer α)
    (inputs : List α) (h : l.adjustAsHiddenLayer A nextLayer inputs = .ok l') :
    l'.deltas.length = l.deltas.length ∧
    ∀ i, i < l.outputs.length →
      l'.deltas.get? i =
        some (hiddenDelta A l.outputs nextLayer.weights nextLayer.deltas i) := by
  unfold MLPLayer.adjustAsHiddenLayer at h
  split at h
  · cases h
  · rw [bind_eq_ok] at h
    obtain ⟨st, hst, h⟩ := h
    cases h
    refine forLoop_inv
      (P := fun n (st : List α × List α) => st.1.length = l.deltas.length ∧ ∀ i, i < n →
        st.1.get? i = some (hiddenDelta A l.outputs nextLayer.weights nextLayer.deltas i))
      l.outputs.length ⟨rfl, fun i hi => absurd hi (Nat.not_lt_zero i)⟩ ?_ st hst
    intro n t t' _ ⟨hlen, hval⟩ hb
    simp only [bind_eq_ok] at hb
    obtain ⟨ds1, hds1, ds2, hds2, dws, _, hb⟩ := hb
    cases hb
    rw [writeAt_eq_ok] at hds1
    obtain ⟨hn, rfl⟩ := hds1
    obtain ⟨hlen2, hval2, hrest2⟩ := hiddenDelta_loop A l.outputs nextLayer.weights
      nextLayer.deltas n l.outputs.length _ ds2 (get?_set_self _ _ _ hn) hds2
    refine ⟨by simpa [hlen2] using hlen, ?_⟩
    intro i hi
    by_cases hin : i = n
    · subst hin
      exact hval2
    · rw [hrest2 i hin, get?_set_other _ _ _ _ hin]
      exact hval i (by omega)

end HiddenDelta

section HiddenDeltaClaim

variable {α : Type}

/-- C5 (as the code has it).  When `adjustAsHiddenLayer` returns, `deltas[i]` of
every unit `i` is the sum, over the indices `j` below this layer's own number of
units, of `nextLayer.weights[j] * nextLayer.deltas[j] * y * y * (1 - y * y)` with
`y = outputs[i]`: the weight is read at flat index `j`, whatever the unit `i`. -/
theorem adjustAsHiddenLayer_delta_sum (A : Arith α) (l nextLayer l' : MLPLayer α)
    (inputs : List α) (h : l.adjustAsHiddenLayer A nextLayer inputs = .ok l')
    (i : Nat) (hi : i < l.outputs.length) :
    l'.deltas.get? i =
      some (hiddenDelta A l.outputs nextLayer.weights nextLayer.deltas i) :=
  (adjustAsHiddenLayer_deltas A l nextLayer l' inputs h).2 i hi

theorem hidden22_adjust :
    hidden22.adjustAsHiddenLayer (ratArith expTaylor) next22 [0, 0]
      = .ok { hidden22 with deltas := [-3/16, -3/16] } := by
  simp [hidden22, next22, MLPLayer.adjustAsHiddenLayer, MLPLayer.new, forLoop, readAt, writeAt,
    initWeight, ratArith, List.range, List.range.loop, bind, Except.bind, pure, Except.pure]
  norm_num

/-- C5, at `hidden22` in front of `next22`: the code stores `-3/16` in `deltas[0]`,
from `weights[0] * deltas[0] + weights[1] * deltas[1] = -1` of the next layer; the sum
the claim names for unit 0, `weights[0,0] * deltas[0] + weights[1,0] * deltas[1]`, is
`0`, which gives the delta `0` whatever the derivative factor. -/
theorem adjustAsHiddenLayer_delta_sum_witness :
    hidden22.adjustAsHiddenLayer (ratArith expTaylor) next22 [0, 0]
      = .ok { hidden22 with deltas := [-3/16, -3/16] } ∧
    some (-3/16 : ℚ) = some (hiddenDelta (ratArith expTaylor) hidden22.outputs
      next22.weights next22.deltas 0) ∧
    backpropSum (ratArith expTaylor) next22 0 = 0 :=
  ⟨hidden22_adjust,
    adjustAsHiddenLayer_delta_sum (ratArith expTaylor) hidden22 next22 _ [0, 0]
      hidden22_adjust 0 (by decide),
    by
      simp [backpropSum, next22, MLPLayer.new, initWeight, ratArith, List.range,
        List.range.loop]⟩

end HiddenDeltaClaim

section OutputAccumulate

variable {α : Type}

/-- C6 (what the code does), at a layer with three inputs and two outputs, for every
arithmetic and all values: `adjustAsOutputLayer` adds the contribution of the pair
(unit `i`, input `j`) to the accumulator cell `i * numOutputs + j = 2 * i + j`.  The
cell 2 receives the contributions of the pairs (0, 2) and (1, 0); the cell 5, which
belongs to the weight (1, 2) of the buffer of 3 * 2 cells, receives none. -/
theorem adjustAsOutputLayer_three_by_two (A : Arith α) (lr mom : α) (ws : List α)
    (y0 y1 d0 d1 g0 g1 g2 g3 g4 g5 x0 x1 x2 : α) (e0 e1 : Int) :
    MLPLayer.adjustAsOutputLayer A
        { numInputs := 3, numOutputs := 2, learningRate := lr, momentum := mom, weights := ws,
          outputs := [y0, y1], deltas := [d0, d1], dWeights := [g0, g1, g2, g3, g4, g5] }
        [e0, e1] [x0, x1, x2]
      = .ok
        { numInputs := 3, numOutputs := 2, learningRate := lr, momentum := mom, weights := ws,
          outputs := [y0, y1],
          deltas := [outputDelta A (A.ofRat e0) y0, outputDelta A (A.ofRat e1) y1],
          dWeights :=
            [A.add g0 (A.mul (A.mul lr (outputDelta A (A.ofRat e0) y0)) x0),
             A.add g1 (A.mul (A.mul lr (outputDelta A (A.ofRat e0) y0)) x1),
             A.add (A.add g2 (A.mul (A.mul lr (outputDelta A (A.ofRat e0) y0)) x2))
               (A.mul (A.mul lr (outputDelta A (A.ofRat e1) y1)) x0),
             A.add g3 (A.mul (A.mul lr (outputDelta A (A.ofRat e1) y1)) x1),
             A.add g4 (A.mul (A.mul lr (outputDelta A (A.ofRat e1) y1)) x2),
             g5] } := by
  rfl

end OutputAccumulate

section Log

variable {α : Type}

theorem forEachLayer_log (f : MLPLayer α → Except Err (MLPLayer α)) (c : Nat → Call)
    (s s' : Sim α) (h : forEachLayer f c s = .ok s') :
    s'.layers.length = s.layers.length ∧
      s'.log = s.log ++ (List.range s.layers.length).map c := by
  refine forLoop_inv
    (P := fun k (t : Sim α) => t.layers.length = s.layers.length ∧
      t.log = s.log ++ (List.range k).map c)
    s.layers.length ⟨rfl, by simp⟩ ?_ s' h
  intro k t t' _ ⟨hlen, hlog⟩ hb
  simp only [bind_eq_ok] at hb
  obtain ⟨l, _, l', _, hb⟩ := hb
  cases hb
  refine ⟨by simpa using hlen, ?_⟩
  simp [hlog, List.range_succ]

theorem hiddenLoop_log (A : Arith α) :
    ∀ (n j : Nat) (s s' : Sim α), s.layers.length - j ≤ n → hiddenLoop A j s = .ok s' →
      s'.layers.length = s.layers.length ∧
        ∃ ev, s'.log = s.log ++ ev ∧ ∀ c, c ∈ ev → c.isAdjust = true := by
  intro n
  induction n with
  | zero =>
    intro j s s' hn h
    rw [hiddenLoop] at h
    by_cases hpos : 0 < j
    · rw [if_pos hpos, dif_neg (by omega)] at h
      cases h
    · rw [if_neg hpos] at h
      cases h
      exact ⟨rfl, [], by simp, by simp⟩
  | succ n ih =>
    intro j s s' hn h
    rw [hiddenLoop] at h
    by_cases hpos : 0 < j
    · rw [if_pos hpos] at h
      by_cases hj1 : j + 1 < s.layers.length
      · rw [dif_pos hj1] at h
        split at h
        · cases h
        · obtain ⟨hlen, ev, hlog, hev⟩ :=
            ih (j + 1) _ s' (by simp only [List.length_set]; omega) h
          refine ⟨by simpa using hlen, _ :: ev, by simpa using hlog, ?_⟩
          intro c hc
          rcases List.mem_cons.1 hc with rfl | hc
          · rfl
          · exact hev c hc
      · rw [dif_neg hj1] at h
        cases h
    · rw [if_neg hpos] at h
      cases h
      exact ⟨rfl, [], by simp, by simp⟩

/-- What one example adds to the log: `predict(X[i])` first, then backward rules only. -/
theorem exampleStep_log (A : Arith α) (X : List (List α)) (d : List (List Int)) (i : Nat)
    (s s' : Sim α) (h : exampleStep A X d i s = .ok s') :
    s'.layers.length = s.layers.length ∧
      ∃ ev, s'.log = s.log ++ Call.predict i :: ev ∧ ∀ c, c ∈ ev → c.isAdjust = true := by
  unfold exampleStep at h
  simp only [bind_eq_ok] at h
  obtain ⟨x, _, p, hp, expected, _, lLast, _, lBefore, _, lLast', _, s2, hloop, l0, _, l1, _,
    l0', _, h⟩ := h
  have hlen := predict_length A _ _ p hp
  obtain ⟨hlen2, ev, hlog, hev⟩ := hiddenLoop_log A _ _ _ s2 (Nat.le_refl _) hloop
  cases h
  refine ⟨by simpa [hlen2] using hlen,
    Call.adjustAsOutputLayer (usub p.1.length 1) i (Src.outputsOf (usub p.1.length 2)) ::
      (ev ++ [Call.adjustAsHiddenLayer 0 1 (Src.row i)]), by simp [hlog], ?_⟩
  intro c hc
  simp only [List.mem_cons, List.mem_append, List.mem_singleton, List.not_mem_nil,
    or_false] at hc
  rcases hc with rfl | hc | rfl
  · rfl
  · exact hev c hc
  · rfl

end Log

section Epoch

variable {α : Type}

theorem intMod_natCast (i b : Nat) (hb : 1 ≤ b) :
    intMod i (b : Int) = .ok (((i % b : Nat) : Int)) := by
  unfold intMod
  rw [if_neg (by omega)]
  rfl

theorem examplesLog_congr (L b : Nat) (evs evs' : Nat → List Call) :
    ∀ n, (∀ k, k < n → evs k = evs' k) → examplesLog L b evs n = examplesLog L b evs' n := by
  intro n
  induction n with
  | zero => intro _; rfl
  | succ n ih =>
    intro h
    simp only [examplesLog]
    rw [ih (fun k hk => h k (Nat.lt_succ_of_lt hk)), h n (Nat.lt_succ_self n)]

/-- The log of one epoch.  When `batchUpdate` returns, with a batch size `b ≥ 1`, the
calls it made are those of the batch procedure `epochLog`, where the calls of
example `i` are `predict(X[i])` followed by backward rules only. -/
theorem batchUpdate_log (A : Arith α) (b : Nat) (X : List (List α)) (d : List (List Int))
    (n : Nat) (s s' : Sim α) (hb : 1 ≤ b)
    (h : batchUpdate A (b : Int) X d n s = .ok s') :
    s'.layers.length = s.layers.length ∧
      ∃ evs : Nat → List Call,
        (∀ i, ∃ ev, evs i = Call.predict i :: ev ∧ ∀ c, c ∈ ev → c.isAdjust = true) ∧
        s'.log = s.log ++ epochLog s.layers.length b n evs := by
  unfold batchUpdate at h
  simp only [bind_eq_ok] at h
  obtain ⟨s1, hs1, s2, hs2, r, hr, h⟩ := h
  obtain ⟨hlen1, hlog1⟩ := forEachLayer_log _ _ _ _ hs1
  have hloop : s2.layers.length = s.layers.length ∧
      ∃ evs : Nat → List Call,
        (∀ i, ∃ ev, evs i = Call.predict i :: ev ∧ ∀ c, c ∈ ev → c.isAdjust = true) ∧
        s2.log = s1.log ++ examplesLog s.layers.length b evs n := by
    refine forLoop_inv
      (P := fun i (t : Sim α) => t.layers.length = s.layers.length ∧
        ∃ evs : Nat → List Call,
          (∀ i, ∃ ev, evs i = Call.predict i :: ev ∧ ∀ c, c ∈ ev → c.isAdjust = true) ∧
          t.log = s1.log ++ examplesLog s.layers.length b evs i)
      n ⟨hlen1, fun i => [Call.predict i], fun i => ⟨[], rfl, by simp⟩, by simp [examplesLog]⟩
      ?_ s2 hs2
    intro i t t' _ ⟨hlen, evs, hevs, hlog⟩ hbody
    simp only [bind_eq_ok] at hbody
    obtain ⟨t1, ht1, r1, hr1, hbody⟩ := hbody
    obtain ⟨hlent1, ev, hlogt1, hev⟩ := exampleStep_log A X d i t t1 ht1
    rw [intMod_natCast _ _ hb] at hr1
    cases hr1
    have hcongr : examplesLog s.layers.length b (Function.update evs i (Call.predict i :: ev)) i
        = examplesLog s.layers.length b evs i :=
      examplesLog_congr _ _ _ _ i (fun k hk => by
        rw [Function.update_noteq (by omega)])
    have hgood : ∀ k, ∃ ev', Function.update evs i (Call.predict i :: ev) k
        = Call.predict k :: ev' ∧ ∀ c, c ∈ ev' → c.isAdjust = true := by
      intro k
      by_cases hk : k = i
      · subst hk
        exact ⟨ev, by rw [Function.update_same], hev⟩
      · rw [Function.update_noteq hk]
        exact hevs k
    by_cases hmod : (i + 1) % b = 0
    · rw [if_pos (by exact_mod_cast hmod)] at hbody
      obtain ⟨hlen', hlog'⟩ := forEachLayer_log _ _ _ _ hbody
      refine ⟨by omega, Function.update evs i (Call.predict i :: ev), hgood, ?_⟩
      rw [hlog', hlogt1, hlog, hlent1, hlen]
      simp only [examplesLog, hcongr, Function.update_same, if_pos hmod, updateCalls,
        List.append_assoc]
    · rw [if_neg (by exact_mod_cast hmod)] at hbody
      cases hbody
      refine ⟨by omega, Function.update evs i (Call.predict i :: ev), hgood, ?_⟩
      rw [hlogt1, hlog]
      simp only [examplesLog, hcongr, Function.update_same, if_neg hmod,
        List.append_assoc, List.append_nil]
  obtain ⟨hlen2, evs, hevs, hlog2⟩ := hloop
  rw [intMod_natCast _ _ hb] at hr
  cases hr
  by_cases hmod : n % b = 0
  · have hz : ¬ (((n % b : Nat) : Int) ≠ 0) := by rw [hmod]; simp
    rw [if_neg hz] at h
    cases h
    refine ⟨hlen2, evs, hevs, ?_⟩
    rw [hlog2, hlog1]
    simp [epochLog, momentumCalls, hmod]
  · rw [if_pos (by exact_mod_cast hmod)] at h
    obtain ⟨hlen', hlog'⟩ := forEachLayer_log _ _ _ _ h
    refine ⟨by omega, evs, hevs, ?_⟩
    rw [hlog', hlog2, hlog1, hlen2]
    simp [epochLog, momentumCalls, updateCalls, hmod]

end Epoch

section Count

variable {α : Type}

theorem count_map_range_update (k L : Nat) :
    ((List.range L).map Call.updateWeights).count (Call.updateWeights k)
      = if k < L then 1 else 0 := by
  induction L with
  | zero => simp
  | succ L ih =>
    rw [List.range_succ, List.map_append, List.count_append, ih]
    by_cases hk : k < L
    · have : L ≠ k := by omega
      simp [hk, Nat.lt_succ_of_lt hk, List.count_cons, this]
    · by_cases hkL : k = L
      · subst hkL
        simp
      · have h1 : ¬ k < L + 1 := by omega
        have h2 : L ≠ k := fun h => hkL h.symm
        simp [hk, h1, List.count_cons, h2]

theorem count_updateCalls (k L : Nat) (hk : k < L) :
    (updateCalls L).count (Call.updateWeights k) = 1 := by
  unfold updateCalls
  rw [count_map_range_update, if_pos hk]

theorem count_update_momentumCalls (k L : Nat) :
    (momentumCalls L).count (Call.updateWeights k) = 0 := by
  rw [List.count_eq_zero]
  unfold momentumCalls
  simp

theorem count_update_example (k i : Nat) (ev : List Call)
    (hev : ∀ c, c ∈ ev → c.isAdjust = true) :
    (Call.predict i :: ev).count (Call.updateWeights k) = 0 := by
  rw [List.count_eq_zero]
  intro hmem
  rcases List.mem_cons.1 hmem with h | h
  · cases h
  · have := hev _ h
    simp [Call.isAdjust] at this

theorem ceil_div_succ (n b : Nat) :
    (n + 1) / b = n / b + (if (n + 1) % b = 0 then 1 else 0) := by
  rw [Nat.succ_div]
  simp [Nat.dvd_iff_mod_eq_zero]

theorem ceil_div_eq (n b : Nat) (hb : 1 ≤ b) :
    (n + b - 1) / b = n / b + (if n % b ≠ 0 then 1 else 0) := by
  by_cases h : n % b = 0
  · obtain ⟨q, rfl⟩ := Nat.dvd_of_mod_eq_zero h
    have : b * q + b - 1 = (b - 1) + b * q := by omega
    rw [this, Nat.add_mul_div_left _ _ (by omega), Nat.div_eq_of_lt (by omega)]
    simp [Nat.mul_div_cancel_left _ (show 0 < b by omega)]
  · have hlt := Nat.mod_lt n (show b > 0 by omega)
    have hdm := Nat.div_add_mod n b
    have : n + b - 1 = (n % b - 1) + b * (n / b + 1) := by
      rw [Nat.mul_add]
      omega
    rw [this, Nat.add_mul_div_left _ _ (by omega), Nat.div_eq_of_lt (by omega)]
    simp [h]

theorem count_update_examplesLog (L b k : Nat) (evs : Nat → List Call) (_hb : 1 ≤ b)
    (hk : k < L)
    (hevs : ∀ i, ∃ ev, evs i = Call.predict i :: ev ∧ ∀ c, c ∈ ev → c.isAdjust = true) :
    ∀ n, (examplesLog L b evs n).count (Call.updateWeights k) = n / b := by
  intro n
  induction n with
  | zero => simp [examplesLog]
  | succ n ih =>
    obtain ⟨ev, hev, hadj⟩ := hevs n
    simp only [examplesLog, List.count_append, ih, hev, count_update_example k n ev hadj]
    rw [ceil_div_succ n b]
    by_cases hmod : (n + 1) % b = 0
    · simp [hmod, count_updateCalls k L hk]
    · simp [hmod]

theorem count_update_epochLog (L b n k : Nat) (evs : Nat → List Call) (hb : 1 ≤ b)
    (hk : k < L)
    (hevs : ∀ i, ∃ ev, evs i = Call.predict i :: ev ∧ ∀ c, c ∈ ev → c.isAdjust = true) :
    (epochLog L b n evs).count (Call.updateWeights k) = (n + b - 1) / b := by
  unfold epochLog
  rw [List.count_append, List.count_append, count_update_momentumCalls,
    count_update_examplesLog L b k evs hb hk hevs, ceil_div_eq n b hb]
  by_cases hmod : n % b = 0
  · simp [hmod]
  · simp [hmod, count_updateCalls k L hk]

/-- C7.  When one epoch of `batchUpdate` over `n` training examples returns, with
batch size `b ≥ 1`, the calls it made are those of the batch procedure (`epochLog`:
`updateWeights` on every layer after each example whose 1-based position is a
multiple of `b`, and once more at the end exactly when `n` is not a multiple of `b`),
and `updateWeights` was called on every layer exactly `⌈n / b⌉ = (n + b - 1) / b`
times. -/
theorem updateWeights_per_epoch (A : Arith α) (b : Nat) (X : List (List α))
    (d : List (List Int)) (n : Nat) (s s' : Sim α) (hb : 1 ≤ b)
    (h : batchUpdate A (b : Int) X d n s = .ok s') :
    (∃ evs : Nat → List Call,
      (∀ i, ∃ ev, evs i = Call.predict i :: ev ∧ ∀ c, c ∈ ev → c.isAdjust = true) ∧
      s'.log = s.log ++ epochLog s.layers.length b n evs) ∧
    ∀ k, k < s.layers.length →
      s'.log.count (Call.updateWeights k)
        = s.log.count (Call.updateWeights k) + (n + b - 1) / b := by
  obtain ⟨_, evs, hevs, hlog⟩ := batchUpdate_log A b X d n s s' hb h
  refine ⟨⟨evs, hevs, hlog⟩, ?_⟩
  intro k hk
  rw [hlog, List.count_append, count_update_epochLog _ b n k evs hb hk hevs]

end Count

section Momentum

variable {α : Type}

theorem momentumCalls_count (k L : Nat) (hk : k < L) :
    (momentumCalls L).count (Call.applyMomentum k) = 1 := by
  unfold momentumCalls
  induction L with
  | zero => omega
  | succ L ih =>
    rw [List.range_succ, List.map_append, List.count_append]
    by_cases hkL : k < L
    · have : L ≠ k := by omega
      simp [ih hkL, List.count_cons, this]
    · have hkL' : k = L := by omega
      subst hkL'
      have : ((List.range k).map Call.applyMomentum).count (Call.applyMomentum k) = 0 := by
        rw [List.count_eq_zero]
        simp
      simp [this]

theorem momentumCalls_not_adjust (L : Nat) :
    ∀ c, c ∈ momentumCalls L → c.isAdjust = false := by
  intro c hc
  unfold momentumCalls at hc
  rw [List.mem_map] at hc
  obtain ⟨k, _, rfl⟩ := hc
  rfl

theorem updateCalls_not_momentum (L : Nat) :
    ∀ c, c ∈ updateCalls L → c.isMomentum = false := by
  intro c hc
  unfold updateCalls at hc
  rw [List.mem_map] at hc
  obtain ⟨k, _, rfl⟩ := hc
  rfl

theorem isAdjust_not_momentum (c : Call) (h : c.isAdjust = true) : c.isMomentum = false := by
  cases c <;> simp_all [Call.isAdjust, Call.isMomentum]

/-- One epoch, whatever the batch size: `applyMomentum` on every layer comes first,
and no later call of the epoch is an `applyMomentum`. -/
theorem batchUpdate_momentum_first (A : Arith α) (batchSize : Int) (X : List (List α))
    (d : List (List Int)) (n : Nat) (s s' : Sim α)
    (h : batchUpdate A batchSize X d n s = .ok s') :
    s'.layers.length = s.layers.length ∧
      ∃ rest, s'.log = s.log ++ (momentumCalls s.layers.length ++ rest) ∧
        ∀ c, c ∈ rest → c.isMomentum = false := by
  unfold batchUpdate at h
  simp only [bind_eq_ok] at h
  obtain ⟨s1, hs1, s2, hs2, r, _, h⟩ := h
  obtain ⟨hlen1, hlog1⟩ := forEachLayer_log _ _ _ _ hs1
  have hloop : s2.layers.length = s.layers.length ∧
      ∃ rest, s2.log = s1.log ++ rest ∧ ∀ c, c ∈ rest → c.isMomentum = false := by
    refine forLoop_inv
      (P := fun _ (t : Sim α) => t.layers.length = s.layers.length ∧
        ∃ rest, t.log = s1.log ++ rest ∧ ∀ c, c ∈ rest → c.isMomentum = false)
      n ⟨hlen1, [], by simp, by simp⟩ ?_ s2 hs2
    intro i t t' _ ⟨hlen, rest, hlog, hrest⟩ hbody
    simp only [bind_eq_ok] at hbody
    obtain ⟨t1, ht1, r1, _, hbody⟩ := hbody
    obtain ⟨hlent1, ev, hlogt1, hev⟩ := exampleStep_log A X d i t t1 ht1
    have hstep : ∀ c, c ∈ rest ++ Call.predict i :: ev → c.isMomentum = false := by
      intro c hc
      rcases List.mem_append.1 hc with hc | hc
      · exact hrest c hc
      · rcases List.mem_cons.1 hc with rfl | hc
        · rfl
        · exact isAdjust_not_momentum c (hev c hc)
    split at hbody
    · obtain ⟨hlen', hlog'⟩ := forEachLayer_log _ _ _ _ hbody
      refine ⟨by omega, (rest ++ Call.predict i :: ev) ++ updateCalls t1.layers.length,
        by rw [hlog', hlogt1, hlog]; simp [updateCalls], ?_⟩
      intro c hc
      rcases List.mem_append.1 hc with hc | hc
      · exact hstep c hc
      · exact updateCalls_not_momentum _ c hc
    · cases hbody
      exact ⟨by omega, rest ++ Call.predict i :: ev, by rw [hlogt1, hlog]; simp, hstep⟩
  obtain ⟨hlen2, rest, hlog2, hrest⟩ := hloop
  split at h
  · obtain ⟨hlen', hlog'⟩ := forEachLayer_log _ _ _ _ h
    refine ⟨by omega, rest ++ updateCalls s2.layers.length,
      by rw [hlog', hlog2, hlog1]; simp [updateCalls, momentumCalls], ?_⟩
    intro c hc
    rcases List.mem_append.1 hc with hc | hc
    · exact hrest c hc
    · exact updateCalls_not_momentum _ c hc
  · cases h
    exact ⟨hlen2, rest, by rw [hlog2, hlog1]; simp [momentumCalls], hrest⟩

theorem epochsLog_congr (logs logs' : Nat → List Call) :
    ∀ e, (∀ k, k < e → logs k = logs' k) → epochsLog logs e = epochsLog logs' e := by
  intro e
  induction e with
  | zero => intro _; rfl
  | succ e ih =>
    intro h
    simp only [epochsLog]
    rw [ih (fun k hk => h k (Nat.lt_succ_of_lt hk)), h e (Nat.lt_succ_self e)]

/-- C8.  When `train` returns, its log is that of `epochs` epochs in a row, and
every epoch consists of `applyMomentum` on the layers `0, ..., L - 1`, once each,
followed by calls none of which is an `applyMomentum`: so the one `applyMomentum` of
a layer precedes every `adjustAsOutputLayer` / `adjustAsHiddenLayer` of its epoch. -/
theorem applyMomentum_once_per_epoch (A : Arith α) (net : Net α) (X : List (List α))
    (d : List (List Int)) (s' : Sim α) (h : train A net X d = .ok s') :
    ∃ rests : Nat → List Call,
      (∀ e c, c ∈ rests e → c.isMomentum = false) ∧
      s'.log = epochsLog (fun e => momentumCalls net.layers.length ++ rests e)
        net.epochs.toNat ∧
      (∀ e k, k < net.layers.length →
        (momentumCalls net.layers.length ++ rests e).count (Call.applyMomentum k) = 1) ∧
      (∀ c, c ∈ momentumCalls net.layers.length → c.isAdjust = false) := by
  obtain ⟨hXd, hsplit⟩ := train_ok_bound A net X d s' h
  rw [train_eq A net X d hXd hsplit] at h
  have hloop : s'.layers.length = net.layers.length ∧
      ∃ rests : Nat → List Call, (∀ e c, c ∈ rests e → c.isMomentum = false) ∧
        s'.log = epochsLog (fun e => momentumCalls net.layers.length ++ rests e)
          net.epochs.toNat := by
    refine forLoop_inv
      (P := fun e (t : Sim α) => t.layers.length = net.layers.length ∧
        ∃ rests : Nat → List Call, (∀ e c, c ∈ rests e → c.isMomentum = false) ∧
          t.log = epochsLog (fun e => momentumCalls net.layers.length ++ rests e) e)
      net.epochs.toNat ⟨rfl, fun _ => [], by simp, rfl⟩ ?_ s' h
    intro e t t' _ ⟨hlen, rests, hrests, hlog⟩ hbody
    obtain ⟨hlen', rest, hlog', hrest⟩ := batchUpdate_momentum_first A _ X d _ t t' hbody
    refine ⟨by omega, Function.update rests e rest, ?_, ?_⟩
    · intro e' c hc
      by_cases he : e' = e
      · subst he
        rw [Function.update_same] at hc
        exact hrest c hc
      · rw [Function.update_noteq he] at hc
        exact hrests e' c hc
    · have hcongr := epochsLog_congr
        (fun e' => momentumCalls net.layers.length ++ Function.update rests e rest e')
        (fun e' => momentumCalls net.layers.length ++ rests e') e
        (fun k hk => by
          show momentumCalls net.layers.length ++ Function.update rests e rest k = _
          rw [Function.update_noteq (by omega)])
      simp only [epochsLog, hcongr, Function.update_same]
      rw [hlog', hlog, hlen]
  obtain ⟨_, rests, hrests, hlog⟩ := hloop
  refine ⟨rests, hrests, hlog, ?_, momentumCalls_not_adjust _⟩
  intro e k hk
  rw [List.count_append, momentumCalls_count k _ hk]
  have : (rests e).count (Call.applyMomentum k) = 0 := by
    rw [List.count_eq_zero]
    intro hmem
    have := hrests e _ hmem
    simp [Call.isMomentum] at this
  omega

end Momentum

section Predict

variable {α : Type}

theorem ok_bind {γ δ : Type} (a : γ) (f : γ → Except Err δ) :
    (Except.ok a >>= f) = f a := rfl

theorem error_bind {γ δ : Type} (e : Err) (f : γ → Except Err δ) :
    ((Except.error e : Except Err γ) >>= f) = .error e := rfl

theorem pure_eq_ok {γ : Type} (a : γ) : (pure a : Except Err γ) = .ok a := rfl

theorem fireAll_length (A : Arith α) :
    ∀ (layers : List (MLPLayer α)) (x : List α) (ls' : List (MLPLayer α)),
      fireAll A layers x = .ok ls' → ls'.length = layers.length := by
  intro layers
  induction layers with
  | nil => intro x ls' h; cases h; rfl
  | cons l ls ih =>
    intro x ls' h
    simp only [fireAll, bind_eq_ok] at h
    obtain ⟨l', _, rest, hrest, h⟩ := h
    cases h
    simp [ih _ _ hrest]

theorem lastOutputs_cons (l : MLPLayer α) (ls : List (MLPLayer α)) (x : List α) :
    lastOutputs (l :: ls) x = lastOutputs ls l.outputs := by
  cases ls with
  | nil => rfl
  | cons m ms =>
    unfold lastOutputs
    rw [List.getLast?_cons_cons]
    cases h : (m :: ms).getLast? with
    | none => simp at h
    | some v => rfl

theorem lastOutputs_append_singleton (ls : List (MLPLayer α)) (l : MLPLayer α) (x : List α) :
    lastOutputs (ls ++ [l]) x = l.outputs := by
  simp [lastOutputs]

theorem fireAll_append (A : Arith α) :
    ∀ (as bs : List (MLPLayer α)) (x : List α),
      fireAll A (as ++ bs) x = (do
        let as' ← fireAll A as x
        let bs' ← fireAll A bs (lastOutputs as' x)
        pure (as' ++ bs')) := by
  intro as
  induction as with
  | nil =>
    intro bs x
    simp only [List.nil_append, fireAll, ok_bind]
    cases h : fireAll A bs (lastOutputs [] x) with
    | error e =>
      have h' : fireAll A bs x = .error e := h
      rw [h', error_bind]
    | ok bs' =>
      have h' : fireAll A bs x = .ok bs' := h
      rw [h', ok_bind]
      rfl
  | cons a as ih =>
    intro bs x
    rw [List.cons_append]
    simp only [fireAll]
    cases ha : a.fire A x with
    | error e => simp only [error_bind]
    | ok a' =>
      simp only [ok_bind]
      rw [ih bs a'.outputs]
      cases has : fireAll A as a'.outputs with
      | error e => simp only [error_bind]
      | ok as' =>
        simp only [ok_bind, pure_eq_ok, lastOutputs_cons]
        cases hbs : fireAll A bs (lastOutputs as' a'.outputs) with
        | error e => simp only [error_bind]
        | ok bs' => simp only [ok_bind, List.cons_append]

theorem fireAll_singleton (A : Arith α) (l : MLPLayer α) (x : List α) :
    fireAll A [l] x = (do let l' ← l.fire A x; pure [l']) := by
  simp only [fireAll]
  cases l.fire A x with
  | error e => rfl
  | ok l' => rfl

/-- The loop of `predict` after `n` iterations: the first `n` layers have been fired
in order, the others are as they were. -/
theorem predict_loop (A : Arith α) (layers : List (MLPLayer α)) (x : List α) :
    ∀ n, n ≤ layers.length →
      forLoop n (fun i (st : List (MLPLayer α) × List α) => do
        let l ← readAt st.1 i
        let l' ← l.fire A st.2
        pure (st.1.set i l', l'.outputs)) (layers, x)
      = (do
        let ls' ← fireAll A (layers.take n) x
        pure (ls' ++ layers.drop n, lastOutputs ls' x)) := by
  intro n
  induction n with
  | zero =>
    intro _
    rfl
  | succ n ih =>
    intro hn
    have hlt : n < layers.length := hn
    rw [forLoop_succ, ih (Nat.le_of_lt hlt)]
    have htake : layers.take (n + 1) = layers.take n ++ [layers.get ⟨n, hlt⟩] := by
      rw [List.take_succ, List.getElem?_eq_getElem hlt]
      rfl
    rw [htake, fireAll_append]
    cases hfa : fireAll A (layers.take n) x with
    | error e => simp only [error_bind]
    | ok ls' =>
      have hlen : ls'.length = n := by
        rw [fireAll_length A _ _ _ hfa, List.length_take]
        omega
      simp only [ok_bind]
      have hread : readAt (ls' ++ layers.drop n) n = .ok (layers.get ⟨n, hlt⟩) := by
        rw [readAt_eq_ok, List.getElem?_append_right (by omega), hlen, Nat.sub_self,
          List.getElem?_drop]
        simp [List.getElem?_eq_getElem hlt]
      have hpure : ∀ (p : List (MLPLayer α) × List α),
          (pure p : Except Err (List (MLPLayer α) × List α)) = .ok p := fun _ => rfl
      rw [hpure, ok_bind]
      simp only [hread, ok_bind, fireAll_singleton]
      cases hf : (layers.get ⟨n, hlt⟩).fire A (lastOutputs ls' x) with
      | error e => simp only [error_bind]
      | ok l' =>
        simp only [ok_bind]
        have hset : (ls' ++ layers.drop n).set n l' = ls' ++ [l'] ++ layers.drop (n + 1) := by
          rw [List.set_append_right _ _ (by omega), hlen, Nat.sub_self,
            List.drop_eq_getElem_cons hlt, List.set_cons_zero, List.append_assoc]
          rfl
        show (pure _ : Except Err _) = pure _
        rw [hset, lastOutputs_append_singleton]

end Predict

section PredictClaims

variable {α : Type}

/-- The function `predict` is the left-to-right composition of the layers' `fire`
(`fireAll`: layer 0 is fired on `x`, layer `k` on the output of layer `k - 1`): it
fails exactly when that composition fails, with the same error; otherwise the
layers afterwards are the layers as their `fire` in this call left them, so each
caches the vector it produced, and the vector returned is the last layer's (or `x`
with no layer).  For a single layer `l`, `predict` is `l.fire`. -/
theorem predict_eq_fireAll (A : Arith α) (layers : List (MLPLayer α)) (l : MLPLayer α)
    (x : List α) :
    predict A layers x = (do
      let ls' ← fireAll A layers x
      pure (ls', lastOutputs ls' x)) ∧
    predict A [l] x = (do
      let l' ← l.fire A x
      pure ([l'], l'.outputs)) := by
  have hgen : ∀ (ls : List (MLPLayer α)), predict A ls x = (do
      let ls' ← fireAll A ls x
      pure (ls', lastOutputs ls' x)) := by
    intro ls
    unfold predict
    rw [predict_loop A ls x ls.length (Nat.le_refl _), List.take_length, List.drop_length]
    cases fireAll A ls x with
    | error e => rfl
    | ok ls' => simp only [ok_bind, List.append_nil]
  refine ⟨hgen layers, ?_⟩
  rw [hgen [l], fireAll_singleton]
  cases l.fire A x with
  | error e => rfl
  | ok l' => rfl

end PredictClaims

section SingleLayer

variable {α : Type}

theorem exampleStep_single_layer (A : Arith α) (X : List (List α)) (d : List (List Int))
    (i : Nat) (s : Sim α) (hL : s.layers.length = 1) :
    ∀ s', exampleStep A X d i s ≠ .ok s' := by
  intro s' h
  unfold exampleStep at h
  simp only [bind_eq_ok] at h
  obtain ⟨x, _, p, hp, expected, _, lLast, _, lBefore, hBefore, _⟩ := h
  have hlen := predict_length A _ _ p hp
  rw [hL] at hlen
  have hlt := readAt_lt hBefore
  rw [hlen] at hlt
  have h2 : usub 1 2 = 2 ^ 64 - 1 := by decide
  rw [h2] at hlt
  omega

/-- C10 (what the code does).  With exactly one layer and at least one training
example, an epoch of `batchUpdate` does not complete: the backward pass of the first
example asks for the cached output of `layers[layers.size() - 2]`, an index outside
the layer list, where the claim has it pass `X[i]`. -/
theorem single_layer_epoch_fails (A : Arith α) (batchSize : Int) (X : List (List α))
    (d : List (List Int)) (n : Nat) (s : Sim α) (hL : s.layers.length = 1) (hn : 0 < n) :
    ∃ e, batchUpdate A batchSize X d n s = .error e := by
  refine error_of_not_ok _ ?_
  intro s' h
  unfold batchUpdate at h
  simp only [bind_eq_ok] at h
  obtain ⟨s1, hs1, s2, hs2, _⟩ := h
  obtain ⟨hlen1, _⟩ := forEachLayer_log _ _ _ _ hs1
  obtain ⟨t, t', ht, hbody⟩ := forLoop_ok_iter _ hs2 0 hn
  rw [forLoop_zero] at ht
  cases ht
  simp only [bind_eq_ok] at hbody
  obtain ⟨t1, ht1, _⟩ := hbody
  exact exampleStep_single_layer A X d 0 s1 (by omega) t1 ht1

theorem forEachLayer_one (f : MLPLayer α → Except Err (MLPLayer α)) (c : Nat → Call)
    (l l' : MLPLayer α) (log : List Call) (h : f l = .ok l') :
    forEachLayer f c ⟨[l], log⟩ = .ok ⟨[l'], log ++ [c 0]⟩ := by
  unfold forEachLayer
  show forLoop 1 _ _ = _
  rw [forLoop_succ, forLoop_zero]
  simp [readAt, h, ok_bind, pure_eq_ok]

theorem readAt_of_ge {β : Type} {xs : List β} {i : Nat} (h : xs.length ≤ i) :
    readAt xs i = .error .outOfRange := by
  unfold readAt
  rw [List.getElem?_eq_none h]

/-- With one layer, once the forward pass of the example has returned, the backward
pass fails with an index out of range: `layers[layers.size() - 2]`. -/
theorem exampleStep_single_layer_error (A : Arith α) (X : List (List α))
    (d : List (List Int)) (i : Nat) (s : Sim α) (hL : s.layers.length = 1)
    (x : List α) (hx : readAt X i = .ok x) (e : List Int) (he : readAt d i = .ok e)
    (p : List (MLPLayer α) × List α) (hp : predict A s.layers x = .ok p) :
    exampleStep A X d i s = .error .outOfRange := by
  have hlen := predict_length A _ _ p hp
  rw [hL] at hlen
  have h1 : usub 1 1 = 0 := by decide
  have h2 : usub 1 2 = 2 ^ 64 - 1 := by decide
  unfold exampleStep
  rw [hx, ok_bind, hp, ok_bind, he, ok_bind, hlen, h1, h2,
    readAt_of_lt (show 0 < p.1.length by omega), ok_bind,
    readAt_of_ge (show p.1.length ≤ 2 ^ 64 - 1 by omega), error_bind]

theorem layer11_single_step :
    exampleStep (ratArith expTaylor) [[1]] [[1]] 0
      ⟨[layer11.applyMomentum (ratArith expTaylor)], [Call.applyMomentum 0]⟩
      = .error .outOfRange := by
  refine exampleStep_single_layer_error _ _ _ 0 _ rfl [1] rfl [1] rfl
    ([{ layer11.applyMomentum (ratArith expTaylor) with outputs := [80000/160401] }],
      [80000/160401]) ?_
  simp [predict, layer11, MLPLayer.applyMomentum, MLPLayer.fire, MLPLayer.fireSum,
    MLPLayer.new, forLoop, readAt, writeAt, initWeight, ratArith, sigmoid, expTaylor,
    List.range, List.range.loop, bind, Except.bind, pure, Except.pure]
  norm_num

theorem layer11_single_epoch :
    batchUpdate (ratArith expTaylor) 1 [[1]] [[1]] 1 ⟨[layer11], []⟩ = .error .outOfRange := by
  unfold batchUpdate
  rw [forEachLayer_one _ _ layer11 (layer11.applyMomentum (ratArith expTaylor)) [] rfl, ok_bind]
  rw [forLoop_succ, forLoop_zero, ok_bind]
  show (exampleStep (ratArith expTaylor) [[1]] [[1]] 0
    ⟨[layer11.applyMomentum (ratArith expTaylor)], [Call.applyMomentum 0]⟩ >>= _) >>= _ = _
  rw [layer11_single_step]
  rfl

/-- C10, at the network of the single layer `layer11`, the one example `[1]` with
target `[1]` and batch size 1: the epoch fails, with an index out of range. -/
theorem single_layer_epoch_fails_witness :
    (∃ e, batchUpdate (ratArith expTaylor) 1 [[1]] [[1]] 1 ⟨[layer11], []⟩ = .error e) ∧
    batchUpdate (ratArith expTaylor) 1 [[1]] [[1]] 1 ⟨[layer11], []⟩ = .error .outOfRange :=
  ⟨single_layer_epoch_fails (ratArith expTaylor) 1 [[1]] [[1]] 1 ⟨[layer11], []⟩ rfl
      (by decide),
    layer11_single_epoch⟩

end SingleLayer

section Success

variable {α : Type}

theorem flat_index_lt {I O i j : Nat} (hi : i < O) (hj : j < I) (hle : O ≤ I) :
    i * O + j < I * O := by
  calc i * O + j < i * O + I := by omega
    _ ≤ i * I + I := by
        have := Nat.mul_le_mul_left i hle
        omega
    _ = (i + 1) * I := by ring
    _ ≤ O * I := Nat.mul_le_mul_right _ hi
    _ = I * O := Nat.mul_comm _ _

theorem readAt_ok_of_lt {β : Type} {xs : List β} {i : Nat} (h : i < xs.length) :
    ∃ v, readAt xs i = .ok v := ⟨_, readAt_of_lt h⟩

theorem writeAt_of_lt {β : Type} {xs : List β} {i : Nat} (v : β) (h : i < xs.length) :
    writeAt xs i v = .ok (xs.set i v) := by
  rw [writeAt_eq_ok]
  exact ⟨h, rfl⟩

/-- `fire` returns, and keeps the shape, when `numOutputs ≤ numInputs`. -/
theorem fire_shape (A : Arith α) (l : MLPLayer α) (inputs : List α) (I O : Nat)
    (hs : l.Shape I O) (hlen : inputs.length = I) (hle : O ≤ I) :
    ∃ l', l.fire A inputs = .ok l' ∧ l'.Shape I O := by
  obtain ⟨hI, hO, hw, ho, hd, hdw⟩ := hs
  unfold MLPLayer.fire
  rw [if_neg (by rw [hlen, hI]; simp)]
  obtain ⟨outs, houts, hP⟩ := forLoop_ok_of
    (P := fun _ (outs : List α) => outs.length = O)
    (f := fun i outs => do
      let sum ← l.fireSum A inputs i
      writeAt outs i (sigmoid A sum)) (s := l.outputs) l.numOutputs ho
    (by
      intro i t hi ht
      obtain ⟨v, hv⟩ := fireSum_ok_of A l inputs i (by
        intro j hj
        rw [hw, hO]
        exact flat_index_lt (by omega) (by omega) hle)
      refine ⟨t.set i (sigmoid A v), ?_, by simpa using ht⟩
      beta_reduce
      rw [hv, ok_bind]
      exact writeAt_of_lt _ (by omega))
  exact ⟨{ l with outputs := outs }, by rw [houts]; rfl, hI, hO, hw, hP, hd, hdw⟩

/-- The loop that adds a unit's contributions to `dWeights` returns when its indices
are inside the buffers. -/
theorem dWeights_loop_ok (A : Arith α) (lr : α) (stride i n : Nat) (ds inputs dws0 : List α)
    (hi : i < ds.length) (hn : n ≤ inputs.length)
    (hidx : ∀ j, j < n → i * stride + j < dws0.length) :
    ∃ dws, forLoop n (fun j dws => do
        let index := i * stride + j
        let di ← readAt ds i
        let x ← readAt inputs j
        let old ← readAt dws index
        writeAt dws index (A.add old (A.mul (A.mul lr di) x))) dws0 = .ok dws ∧
      dws.length = dws0.length := by
  refine forLoop_ok_of (P := fun _ (dws : List α) => dws.length = dws0.length) n rfl ?_
  intro j t hj ht
  have h3 : i * stride + j < t.length := by rw [ht]; exact hidx j hj
  refine ⟨t.set (i * stride + j) (A.add (t.get ⟨_, h3⟩)
    (A.mul (A.mul lr (ds.get ⟨i, hi⟩)) (inputs.get ⟨j, by omega⟩))), ?_, by simpa using ht⟩
  beta_reduce
  rw [readAt_of_lt hi, ok_bind, readAt_of_lt (show j < inputs.length by omega), ok_bind,
    readAt_of_lt h3, ok_bind]
  exact writeAt_of_lt _ h3


end Success

section Success

variable {α : Type}

/-- `adjustAsOutputLayer` returns, and keeps the shape, when `numOutputs ≤ numInputs`
and `expected` and `inputs` are long enough. -/
theorem adjustAsOutputLayer_shape (A : Arith α) (l : MLPLayer α) (expected : List Int)
    (inputs : List α) (I O : Nat) (hs : l.Shape I O) (hle : O ≤ I)
    (hexp : O ≤ expected.length) (hlen : inputs.length = I) :
    ∃ l', l.adjustAsOutputLayer A expected inputs = .ok l' ∧ l'.Shape I O := by
  obtain ⟨hI, hO, hw, ho, hd, hdw⟩ := hs
  unfold MLPLayer.adjustAsOutputLayer
  obtain ⟨st, hst, hP1, hP2⟩ := forLoop_ok_of
    (P := fun _ (st : List α × List α) => st.1.length = O ∧ st.2.length = I * O)
    (f := fun i (st : List α × List α) => do
      let y ← readAt l.outputs i
      let e ← readAt expected i
      let d := A.ofRat (e : ℚ)
      let delta := outputDelta A d y
      let ds ← writeAt st.1 i delta
      let dws ← forLoop l.numInputs (fun j dws => do
        let index := i * l.numOutputs + j
        let di ← readAt ds i
        let x ← readAt inputs j
        let old ← readAt dws index
        writeAt dws index (A.add old (A.mul (A.mul l.learningRate di) x))) st.2
      pure (ds, dws)) (s := (l.deltas, l.dWeights)) l.numOutputs ⟨hd, hdw⟩
    (by
      intro i t hi ⟨ht1, ht2⟩
      have hit : i < t.1.length := by omega
      obtain ⟨y, hy⟩ := readAt_ok_of_lt (show i < l.outputs.length by omega)
      obtain ⟨e, he⟩ := readAt_ok_of_lt (show i < expected.length by omega)
      obtain ⟨dws, hdws, hlen2⟩ := dWeights_loop_ok A l.learningRate l.numOutputs i
        l.numInputs (t.1.set i (outputDelta A (A.ofRat (e : ℚ)) y)) inputs t.2
        (by simpa using hit) (by omega)
        (fun j hj => by rw [ht2, hO]; exact flat_index_lt (by omega) (by omega) hle)
      refine ⟨(t.1.set i (outputDelta A (A.ofRat (e : ℚ)) y), dws), ?_,
        by simpa using ht1, by rw [hlen2]; exact ht2⟩
      beta_reduce
      rw [hy, ok_bind, he, ok_bind]
      simp only []
      rw [writeAt_of_lt _ hit, ok_bind, hdws, ok_bind]
      rfl)
  refine ⟨{ l with deltas := st.1, dWeights := st.2 }, ?_, hI, hO, hw, ho, hP1, hP2⟩
  rw [hst, ok_bind]
  rfl


end Success

section Success

variable {α : Type}

/-- The loop that accumulates `deltas[i]` in `adjustAsHiddenLayer` returns when its
indices are inside the buffers. -/
theorem hiddenDelta_loop_ok (A : Arith α) (outputs nw nd : List α) (i n : Nat)
    (ds0 : List α) (hio : i < outputs.length) (hid : i < ds0.length)
    (hnw : n ≤ nw.length) (hnd : n ≤ nd.length) :
    ∃ ds, forLoop n (fun j ds => do
        let y ← readAt outputs i
        let w ← readAt nw j
        let nd ← readAt nd j
        let dlWl := A.mul w nd
        let yy := A.mul y y
        let old ← readAt ds i
        writeAt ds i (A.add old (A.mul (A.mul (A.mul dlWl y) y) (A.sub (A.ofRat 1) yy)))) ds0
      = .ok ds ∧ ds.length = ds0.length := by
  refine forLoop_ok_of (P := fun _ (ds : List α) => ds.length = ds0.length) n rfl ?_
  intro j t hj ht
  have hit : i < t.length := by omega
  obtain ⟨y, hy⟩ := readAt_ok_of_lt hio
  obtain ⟨w, hw⟩ := readAt_ok_of_lt (show j < nw.length by omega)
  obtain ⟨x, hx⟩ := readAt_ok_of_lt (show j < nd.length by omega)
  obtain ⟨old, hold⟩ := readAt_ok_of_lt hit
  refine ⟨t.set i (A.add old (A.mul (A.mul (A.mul (A.mul w x) y) y)
    (A.sub (A.ofRat 1) (A.mul y y)))), ?_, by simpa using ht⟩
  beta_reduce
  rw [hy, ok_bind, hw, ok_bind, hx, ok_bind]
  simp only []
  rw [hold, ok_bind]
  exact writeAt_of_lt _ hit

/-- `adjustAsHiddenLayer` returns, and keeps the shape, in front of a layer with as
many outputs as inputs, when `numOutputs ≤ numInputs`. -/
theorem adjustAsHiddenLayer_shape (A : Arith α) (l nextLayer : MLPLayer α)
    (inputs : List α) (I O : Nat) (hs : l.Shape I O) (hnext : nextLayer.Shape O O)
    (hpos : 1 ≤ O) (hle : O ≤ I) (hlen : inputs.length = I) :
    ∃ l', l.adjustAsHiddenLayer A nextLayer inputs = .ok l' ∧ l'.Shape I O := by
  obtain ⟨hI, hO, hw, ho, hd, hdw⟩ := hs
  obtain ⟨hnI, _, hnw, _, hnd, _⟩ := hnext
  unfold MLPLayer.adjustAsHiddenLayer
  rw [if_neg (by rw [hO, hnI]; simp)]
  have hOO : O ≤ O * O := Nat.le_mul_of_pos_left O hpos
  obtain ⟨st, hst, hP1, hP2⟩ := forLoop_ok_of
    (P := fun _ (st : List α × List α) => st.1.length = O ∧ st.2.length = I * O)
    (f := fun i (st : List α × List α) => do
      let ds ← writeAt st.1 i (A.ofRat 0)
      let ds ← forLoop l.outputs.length (fun j ds => do
        let y ← readAt l.outputs i
        let w ← readAt nextLayer.weights j
        let nd ← readAt nextLayer.deltas j
        let dlWl := A.mul w nd
        let yy := A.mul y y
        let old ← readAt ds i
        writeAt ds i (A.add old (A.mul (A.mul (A.mul dlWl y) y) (A.sub (A.ofRat 1) yy)))) ds
      let dws ← forLoop inputs.length (fun j dws => do
        let index := i * l.numOutputs + j
        let di ← readAt ds i
        let x ← readAt inputs j
        let old ← readAt dws index
        writeAt dws index (A.add old (A.mul (A.mul l.learningRate di) x))) st.2
      pure (ds, dws)) (s := (l.deltas, l.dWeights)) l.outputs.length ⟨hd, hdw⟩
    (by
      intro i t hi ⟨ht1, ht2⟩
      have hit : i < t.1.length := by omega
      obtain ⟨ds, hds, hlen1⟩ := hiddenDelta_loop_ok A l.outputs nextLayer.weights
        nextLayer.deltas i l.outputs.length (t.1.set i (A.ofRat 0)) hi (by simpa using hit)
        (by omega) (by omega)
      have hlends : ds.length = O := by rw [hlen1]; simpa using ht1
      obtain ⟨dws, hdws, hlen2⟩ := dWeights_loop_ok A l.learningRate l.numOutputs i
        inputs.length ds inputs t.2 (by omega) (Nat.le_refl _)
        (fun j hj => by rw [ht2, hO]; exact flat_index_lt (by omega) (by omega) hle)
      refine ⟨(ds, dws), ?_, hlends, by rw [hlen2]; exact ht2⟩
      beta_reduce
      rw [writeAt_of_lt _ hit, ok_bind, hds, ok_bind, hdws, ok_bind]
      rfl)
  refine ⟨{ l with deltas := st.1, dWeights := st.2 }, ?_, hI, hO, hw, ho, hP1, hP2⟩
  rw [hst, ok_bind]
  rfl

/-- `updateWeights` returns and keeps the shape. -/
theorem updateWeights_shape (A : Arith α) (l : MLPLayer α) (I O : Nat) (hs : l.Shape I O) :
    ∃ l', l.updateWeights A = .ok l' ∧ l'.Shape I O := by
  obtain ⟨hI, hO, hw, ho, hd, hdw⟩ := hs
  unfold MLPLayer.updateWeights
  obtain ⟨ws, hws, hP⟩ := forLoop_ok_of
    (P := fun _ (ws : List α) => ws.length = I * O)
    (f := fun i ws => do
      let w ← readAt ws i
      let dw ← readAt l.dWeights i
      writeAt ws i (A.add w dw)) (s := l.weights) l.dWeights.length hw
    (by
      intro i t hi ht
      have hit : i < t.length := by omega
      obtain ⟨w, hw⟩ := readAt_ok_of_lt hit
      obtain ⟨dw, hdw'⟩ := readAt_ok_of_lt hi
      refine ⟨t.set i (A.add w dw), ?_, by simpa using ht⟩
      beta_reduce
      rw [hw, ok_bind, hdw', ok_bind]
      exact writeAt_of_lt _ hit)
  refine ⟨{ l with weights := ws }, ?_, hI, hO, hP, ho, hd, hdw⟩
  rw [hws, ok_bind]
  rfl

theorem applyMomentum_shape (A : Arith α) (l : MLPLayer α) (I O : Nat) (hs : l.Shape I O) :
    (l.applyMomentum A).Shape I O := by
  obtain ⟨hI, hO, hw, ho, hd, hdw⟩ := hs
  exact ⟨hI, hO, hw, ho, hd, by simpa [MLPLayer.applyMomentum] using hdw⟩

theorem MLPLayer.new_shape (A : Arith α) (I O : Nat) (lr mom : α) (rand : Nat → Nat) :
    (MLPLayer.new A I O lr mom rand).Shape I O := by
  simp [MLPLayer.Shape, MLPLayer.new]

end Success

section TwoLayers

variable {α : Type}

theorem forEachLayer_two (f : MLPLayer α → Except Err (MLPLayer α)) (c : Nat → Call)
    (l0 l1 l0' l1' : MLPLayer α) (log : List Call) (h0 : f l0 = .ok l0')
    (h1 : f l1 = .ok l1') :
    forEachLayer f c ⟨[l0, l1], log⟩ = .ok ⟨[l0', l1'], log ++ [c 0, c 1]⟩ := by
  unfold forEachLayer
  show forLoop 2 _ _ = _
  rw [forLoop_succ, forLoop_succ, forLoop_zero]
  simp [readAt, h0, h1, ok_bind, pure_eq_ok]

theorem predict_two (A : Arith α) (l0 l1 l0' l1' : MLPLayer α) (x : List α)
    (h0 : l0.fire A x = .ok l0') (h1 : l1.fire A l0'.outputs = .ok l1') :
    predict A [l0, l1] x = .ok ([l0', l1'], l1'.outputs) := by
  unfold predict
  show forLoop 2 _ _ = _
  rw [forLoop_succ, forLoop_succ, forLoop_zero]
  simp [readAt, h0, h1, ok_bind, pure_eq_ok]

theorem usub_two_one : usub 2 1 = 1 := by decide

theorem usub_two_two : usub 2 2 = 0 := by decide


end TwoLayers

section TwoLayers

variable {α : Type}

/-- The forward and backward pass of one example on a network of two layers, from
the results of the four calls it makes. -/
theorem exampleStep_two (A : Arith α) (X : List (List α)) (d : List (List Int)) (i : Nat)
    (log : List Call) (l0 l1 l0' l1' l0'' l1'' : MLPLayer α) (x : List α) (e : List Int)
    (hx : readAt X i = .ok x) (he : readAt d i = .ok e)
    (hf0 : l0.fire A x = .ok l0') (hf1 : l1.fire A l0'.outputs = .ok l1')
    (ha1 : l1'.adjustAsOutputLayer A e l0'.outputs = .ok l1'')
    (ha0 : l0'.adjustAsHiddenLayer A l1'' x = .ok l0'') :
    exampleStep A X d i ⟨[l0, l1], log⟩
      = .ok ⟨[l0'', l1''], log ++ [Call.predict i, Call.adjustAsOutputLayer 1 i (Src.outputsOf 0),
          Call.adjustAsHiddenLayer 0 1 (Src.row i)]⟩ := by
  unfold exampleStep
  rw [hx, ok_bind, predict_two A l0 l1 l0' l1' x hf0 hf1, ok_bind, he, ok_bind]
  have hp1 : (([l0', l1'], l1'.outputs) : List (MLPLayer α) × List α).1 = [l0', l1'] := rfl
  have hlen : ([l0', l1'] : List (MLPLayer α)).length = 2 := rfl
  rw [hp1, hlen, usub_two_one, usub_two_two]
  have hr1 : readAt [l0', l1'] 1 = .ok l1' := rfl
  have hr0 : readAt [l0', l1'] 0 = .ok l0' := rfl
  rw [hr1, ok_bind, hr0, ok_bind, ha1, ok_bind, hiddenLoop_zero, ok_bind]
  have hs : ([l0', l1'] : List (MLPLayer α)).set 1 l1'' = [l0', l1''] := rfl
  have hr0' : readAt [l0', l1''] 0 = .ok l0' := rfl
  have hr1' : readAt [l0', l1''] 1 = .ok l1'' := rfl
  rw [hs, hr0', ok_bind, hr1', ok_bind, ha0, ok_bind, pure_eq_ok]
  simp

/-- The forward and backward pass of one example returns on a two-layer network of
widths `I`, `O`, `O` with `1 ≤ O ≤ I`, and keeps the shapes. -/
theorem exampleStep_ok (A : Arith α) (X : List (List α)) (d : List (List Int)) (i : Nat)
    (s : Sim α) (I O : Nat) (hs : s.TwoLayer I O) (hpos : 1 ≤ O) (hle : O ≤ I)
    (x : List α) (hx : readAt X i = .ok x) (hxlen : x.length = I)
    (e : List Int) (he : readAt d i = .ok e) (helen : O ≤ e.length) :
    ∃ s', exampleStep A X d i s = .ok s' ∧ s'.TwoLayer I O := by
  obtain ⟨l0, l1, hl, hs0, hs1⟩ := hs
  obtain ⟨l0', hf0, hs0'⟩ := fire_shape A l0 x I O hs0 hxlen hle
  obtain ⟨l1', hf1, hs1'⟩ := fire_shape A l1 l0'.outputs O O hs1 hs0'.2.2.2.1 (Nat.le_refl _)
  obtain ⟨l1'', ha1, hs1''⟩ := adjustAsOutputLayer_shape A l1' e l0'.outputs O O hs1'
    (Nat.le_refl _) helen hs0'.2.2.2.1
  obtain ⟨l0'', ha0, hs0''⟩ := adjustAsHiddenLayer_shape A l0' l1'' x I O hs0' hs1'' hpos hle
    hxlen
  cases s with
  | mk layers log =>
    simp only at hl
    subst hl
    exact ⟨_, exampleStep_two A X d i log l0 l1 l0' l1' l0'' l1'' x e hx he hf0 hf1 ha1 ha0,
      l0'', l1'', rfl, hs0'', hs1''⟩

end TwoLayers

section TwoLayersEpoch

variable {α : Type}

theorem updateAll_ok (A : Arith α) (s : Sim α) (I O : Nat) (hs : s.TwoLayer I O) :
    ∃ s', updateAll A s = .ok s' ∧ s'.TwoLayer I O := by
  obtain ⟨l0, l1, hl, hs0, hs1⟩ := hs
  obtain ⟨l0', h0, hs0'⟩ := updateWeights_shape A l0 I O hs0
  obtain ⟨l1', h1, hs1'⟩ := updateWeights_shape A l1 O O hs1
  cases s with
  | mk layers log =>
    simp only at hl
    subst hl
    exact ⟨_, forEachLayer_two _ _ l0 l1 l0' l1' log h0 h1, l0', l1', rfl, hs0', hs1'⟩

theorem momentumAll_ok (A : Arith α) (s : Sim α) (I O : Nat) (hs : s.TwoLayer I O) :
    ∃ s', forEachLayer (fun l => pure (l.applyMomentum A)) Call.applyMomentum s = .ok s' ∧
      s'.TwoLayer I O := by
  obtain ⟨l0, l1, hl, hs0, hs1⟩ := hs
  cases s with
  | mk layers log =>
    simp only at hl
    subst hl
    exact ⟨_, forEachLayer_two _ _ l0 l1 (l0.applyMomentum A) (l1.applyMomentum A) log rfl rfl,
      _, _, rfl, applyMomentum_shape A l0 I O hs0, applyMomentum_shape A l1 O O hs1⟩

theorem intMod_ok (i : Nat) (batchSize : Int) (hb : batchSize ≠ 0) :
    intMod i batchSize = .ok ((i : Int).tmod batchSize) := by
  unfold intMod
  rw [if_neg hb]

/-- One epoch returns on a two-layer network of widths `I`, `O`, `O` with
`1 ≤ O ≤ I`, for a batch size other than zero, when the first `n` examples have
`I` elements and their targets at least `O`. -/
theorem batchUpdate_ok (A : Arith α) (batchSize : Int) (X : List (List α))
    (d : List (List Int)) (n : Nat) (s : Sim α) (I O : Nat) (hs : s.TwoLayer I O)
    (hb : batchSize ≠ 0) (hpos : 1 ≤ O) (hle : O ≤ I)
    (hX : ∀ i, i < n → ∃ x, readAt X i = .ok x ∧ x.length = I)
    (hd : ∀ i, i < n → ∃ e, readAt d i = .ok e ∧ O ≤ e.length) :
    ∃ s', batchUpdate A batchSize X d n s = .ok s' ∧ s'.TwoLayer I O := by
  unfold batchUpdate
  obtain ⟨s1, hs1, ht1⟩ := momentumAll_ok A s I O hs
  rw [hs1, ok_bind]
  obtain ⟨s2, hs2, ht2⟩ := forLoop_ok_of (P := fun _ (t : Sim α) => t.TwoLayer I O)
    (f := fun i s => do
      let s ← exampleStep A X d i s
      let r ← intMod (i + 1) batchSize
      if r = 0 then updateAll A s else pure s) (s := s1) n ht1
    (by
      intro i t hi ht
      obtain ⟨x, hx, hxlen⟩ := hX i hi
      obtain ⟨e, he, helen⟩ := hd i hi
      obtain ⟨t1, hstep, htl⟩ := exampleStep_ok A X d i t I O ht hpos hle x hx hxlen e he helen
      beta_reduce
      rw [hstep, ok_bind, intMod_ok _ _ hb, ok_bind]
      split
      · exact updateAll_ok A t1 I O htl
      · exact ⟨t1, rfl, htl⟩)
  rw [hs2, ok_bind, intMod_ok _ _ hb, ok_bind]
  split
  · exact updateAll_ok A s2 I O ht2
  · exact ⟨s2, rfl, ht2⟩

theorem trainingSplit_le (n : Nat) : trainingSplit n ≤ n := by
  unfold trainingSplit
  omega

/-- `train` returns on a two-layer network of widths `I`, `O`, `O` with `1 ≤ O ≤ I`,
for a batch size other than zero, examples of `I` elements and as many targets of at
least `O` elements, as long as the size of the training split fits an `int`. -/
theorem train_ok (A : Arith α) (net : Net α) (X : List (List α)) (d : List (List Int))
    (I O : Nat) (hs : (⟨net.layers, []⟩ : Sim α).TwoLayer I O) (hb : net.batchSize ≠ 0)
    (hpos : 1 ≤ O) (hle : O ≤ I) (hlen : X.length = d.length)
    (hsplit : trainingSplit X.length < 2 ^ 31)
    (hX : ∀ x, x ∈ X → x.length = I) (hd : ∀ e, e ∈ d → O ≤ e.length) :
    ∃ s', train A net X d = .ok s' ∧ s'.TwoLayer I O := by
  rw [train_eq A net X d hlen hsplit]
  refine forLoop_ok_of (P := fun _ (t : Sim α) => t.TwoLayer I O) _ hs ?_
  intro ep t _ ht
  have hn := trainingSplit_le X.length
  exact batchUpdate_ok A net.batchSize X d _ t I O ht hb hpos hle
    (fun i hi => ⟨X.get ⟨i, by omega⟩, readAt_of_lt _, hX _ (List.get_mem _ _ _)⟩)
    (fun i hi => ⟨d.get ⟨i, by omega⟩, readAt_of_lt _, hd _ (List.get_mem _ _ _)⟩)

end TwoLayersEpoch

section Witnesses

theorem readAt_of_forall {β : Type} {P : β → Prop} (xs : List β) (n : Nat)
    (hn : n ≤ xs.length) (h : ∀ x, x ∈ xs → P x) :
    ∀ i, i < n → ∃ x, readAt xs i = .ok x ∧ P x :=
  fun i hi => ⟨xs.get ⟨i, by omega⟩, readAt_of_lt _, h _ (List.get_mem _ _ _)⟩

theorem net211_twoLayer : (⟨net211.layers, []⟩ : Sim ℚ).TwoLayer 2 1 :=
  ⟨_, _, rfl, MLPLayer.new_shape _ _ _ _ _ _, MLPLayer.new_shape _ _ _ _ _ _⟩

/-- C7, at the two layers of `net211`, three training examples and batch size 2: the
epoch returns, and `updateWeights` was called `⌈3 / 2⌉ = 2` times on each of the two
layers. -/
theorem updateWeights_per_epoch_witness :
    ∃ s', batchUpdate (ratArith expTaylor) ((2 : Nat) : Int) [[0, 0], [0, 1], [1, 0]]
        [[0], [1], [1]] 3 ⟨net211.layers, []⟩ = .ok s' ∧
      s'.log.count (Call.updateWeights 0) = 2 ∧ s'.log.count (Call.updateWeights 1) = 2 := by
  obtain ⟨s', hs', _⟩ := batchUpdate_ok (ratArith expTaylor) ((2 : Nat) : Int)
    [[0, 0], [0, 1], [1, 0]] [[0], [1], [1]] 3 ⟨net211.layers, []⟩ 2 1 net211_twoLayer
    (by decide) (by decide) (by decide)
    (readAt_of_forall [[0, 0], [0, 1], [1, 0]] 3 (by decide) (by
      intro x hx
      simp only [List.mem_cons, List.mem_singleton, List.not_mem_nil, or_false] at hx
      rcases hx with rfl | rfl | rfl <;> rfl))
    (readAt_of_forall [[0], [1], [1]] 3 (by decide) (by
      intro e he
      simp only [List.mem_cons, List.mem_singleton, List.not_mem_nil, or_false] at he
      rcases he with rfl | rfl | rfl <;> decide))
  have h := (updateWeights_per_epoch (ratArith expTaylor) 2 [[0, 0], [0, 1], [1, 0]]
    [[0], [1], [1]] 3 ⟨net211.layers, []⟩ s' (by decide) hs').2
  exact ⟨s', hs', h 0 (by decide), h 1 (by decide)⟩

/-- C8, at `net211` and four examples (the first three are the training split):
`train` returns, and its log is three epochs, each `applyMomentum` on layer 0 and on
layer 1 followed by calls that are not `applyMomentum`. -/
theorem applyMomentum_once_per_epoch_witness :
    ∃ s', train (ratArith expTaylor) net211 [[0, 0], [0, 1], [1, 0], [1, 1]]
        [[0], [1], [1], [0]] = .ok s' ∧
      ∃ rests : Nat → List Call,
        (∀ e c, c ∈ rests e → c.isMomentum = false) ∧
        s'.log = epochsLog
          (fun e => [Call.applyMomentum 0, Call.applyMomentum 1] ++ rests e) 3 := by
  obtain ⟨s', hs', _⟩ := train_ok (ratArith expTaylor) net211 [[0, 0], [0, 1], [1, 0], [1, 1]]
    [[0], [1], [1], [0]] 2 1 net211_twoLayer (by decide) (by decide) (by decide) rfl
    (by decide)
    (by
      intro x hx
      simp only [List.mem_cons, List.mem_singleton, List.not_mem_nil, or_false] at hx
      rcases hx with rfl | rfl | rfl | rfl <;> rfl)
    (by
      intro e he
      simp only [List.mem_cons, List.mem_singleton, List.not_mem_nil, or_false] at he
      rcases he with rfl | rfl | rfl | rfl <;> decide)
  obtain ⟨rests, hrests, hlog, _, _⟩ := applyMomentum_once_per_epoch (ratArith expTaylor)
    net211 [[0, 0], [0, 1], [1, 0], [1, 1]] [[0], [1], [1], [0]] s' hs'
  exact ⟨s', hs', rests, hrests, hlog⟩

end Witnesses

section Throws

variable {α : Type}

/-- The loops of `fire` do not throw: `fire` throws only in its first statement. -/
theorem fire_thrown_iff (A : Arith α) (l : MLPLayer α) (inputs : List α) :
    l.fire A inputs = .error .thrown ↔ inputs.length ≠ l.numInputs := by
  constructor
  · intro h hlen
    unfold MLPLayer.fire at h
    rw [if_neg (by simpa using hlen)] at h
    rw [bind_eq_error] at h
    rcases h with h | ⟨outs, _, h⟩
    · have : Err.thrown = Err.outOfRange := by
        refine forLoop_error (Q := fun e => e = Err.outOfRange) ?_ _ _ _ h
        intro i t e he
        rw [bind_eq_error] at he
        rcases he with he | ⟨v, _, he⟩
        · exact fireSum_error A l inputs i e he
        · exact writeAt_error he
      cases this
    · cases h
  · intro h
    unfold MLPLayer.fire
    rw [if_pos h]

end Throws
section HiddenThrows

variable {α : Type}

/-- A block of reads and one write fails with an index out of range only. -/
theorem bind_error_outOfRange {γ δ : Type} {x : Except Err γ} {f : γ → Except Err δ}
    {e : Err} (h : (x >>= f) = .error e)
    (hx : ∀ e, x = .error e → e = Err.outOfRange)
    (hf : ∀ a e, f a = .error e → e = Err.outOfRange) : e = Err.outOfRange := by
  rw [bind_eq_error] at h
  rcases h with h | ⟨a, _, h⟩
  · exact hx e h
  · exact hf a e h

theorem dWeights_loop_error (A : Arith α) (lr : α) (stride i n : Nat) (ds inputs dws0 : List α)
    (e : Err)
    (h : forLoop n (fun j dws => do
        let index := i * stride + j
        let di ← readAt ds i
        let x ← readAt inputs j
        let old ← readAt dws index
        writeAt dws index (A.add old (A.mul (A.mul lr di) x))) dws0 = .error e) :
    e = .outOfRange := by
  refine forLoop_error (Q := fun e => e = Err.outOfRange) ?_ _ _ e h
  intro j t e he
  refine bind_error_outOfRange he (fun _ h => readAt_error h) ?_
  intro di e he
  refine bind_error_outOfRange he (fun _ h => readAt_error h) ?_
  intro x e he
  refine bind_error_outOfRange he (fun _ h => readAt_error h) ?_
  intro old e he
  exact writeAt_error he

theorem hiddenDelta_loop_error (A : Arith α) (outputs nw nd : List α) (i n : Nat)
    (ds0 : List α) (e : Err)
    (h : forLoop n (fun j ds => do
        let y ← readAt outputs i
        let w ← readAt nw j
        let nd ← readAt nd j
        let dlWl := A.mul w nd
        let yy := A.mul y y
        let old ← readAt ds i
        writeAt ds i (A.add old (A.mul (A.mul (A.mul dlWl y) y) (A.sub (A.ofRat 1) yy)))) ds0
      = .error e) :
    e = .outOfRange := by
  refine forLoop_error (Q := fun e => e = Err.outOfRange) ?_ _ _ e h
  intro j t e he
  refine bind_error_outOfRange he (fun _ h => readAt_error h) ?_
  intro y e he
  refine bind_error_outOfRange he (fun _ h => readAt_error h) ?_
  intro w e he
  refine bind_error_outOfRange he (fun _ h => readAt_error h) ?_
  intro x e he
  refine bind_error_outOfRange he (fun _ h => readAt_error h) ?_
  intro old e he
  exact writeAt_error he

/-- The loops of `adjustAsHiddenLayer` do not throw: it throws only in its first
statement. -/
theorem adjustAsHiddenLayer_thrown_iff (A : Arith α) (l nextLayer : MLPLayer α)
    (inputs : List α) :
    l.adjustAsHiddenLayer A nextLayer inputs = .error .thrown ↔
      l.numOutputs ≠ nextLayer.numInputs := by
  constructor
  · intro h hw
    unfold MLPLayer.adjustAsHiddenLayer at h
    rw [if_neg (by simpa using hw)] at h
    rw [bind_eq_error] at h
    rcases h with h | ⟨st, _, h⟩
    · have : Err.thrown = Err.outOfRange := by
        refine forLoop_error (Q := fun e => e = Err.outOfRange) ?_ _ _ _ h
        intro i t e he
        refine bind_error_outOfRange he (fun _ h => writeAt_error h) ?_
        intro ds e he
        refine bind_error_outOfRange he
          (fun e h => hiddenDelta_loop_error A _ _ _ _ _ _ e h) ?_
        intro ds2 e he
        refine bind_error_outOfRange he
          (fun e h => dWeights_loop_error A _ _ _ _ _ _ _ e h) ?_
        intro dws e he
        cases he
      cases this
    · cases h
  · intro h
    unfold MLPLayer.adjustAsHiddenLayer
    rw [if_pos h]

end HiddenThrows

section HiddenThrowsClaim

variable {α : Type}

/-- C13 (as the code has it).  `adjustAsHiddenLayer` throws exactly when `numOutputs`
differs from the next layer's `numInputs`, and then the layer its caller finds is the
layer as it was.  But with matching widths the call can still fail: for the hidden
layer of a network of widths 2, 2, 1, fresh from the constructors, and an input of
two elements, it indexes `nextLayer.deltas[1]` in a vector of one element. -/
theorem adjustAsHiddenLayer_throws_iff (A : Arith α) (l nextLayer : MLPLayer α)
    (inputs : List α) (lr mom x0 x1 : α) (rand0 rand1 : Nat → Nat) :
    (l.adjustAsHiddenLayer A nextLayer inputs = .error .thrown ↔
      l.numOutputs ≠ nextLayer.numInputs) ∧
    (l.numOutputs ≠ nextLayer.numInputs →
      l.afterAdjustAsHiddenLayer A nextLayer inputs = some l) ∧
    (MLPLayer.new A 2 2 lr mom rand0).adjustAsHiddenLayer A (MLPLayer.new A 2 1 lr mom rand1)
      [x0, x1] = .error .outOfRange := by
  refine ⟨adjustAsHiddenLayer_thrown_iff A l nextLayer inputs, ?_, rfl⟩
  intro h
  unfold MLPLayer.afterAdjustAsHiddenLayer
  rw [(adjustAsHiddenLayer_thrown_iff A l nextLayer inputs).2 h]

end HiddenThrowsClaim

section UpdateWeights

variable {α : Type}

theorem updateWeights_loop (A : Arith α) (ws0 dws : List α) (hlen : ws0.length = dws.length) :
    ∀ n, n ≤ dws.length → ∃ ws, forLoop n (fun i ws => do
        let w ← readAt ws i
        let dw ← readAt dws i
        writeAt ws i (A.add w dw)) ws0 = .ok ws ∧
      ws.length = ws0.length ∧
      ∀ k, ws[k]? = if k < n then (List.zipWith A.add ws0 dws)[k]? else ws0[k]? := by
  intro n hn
  refine forLoop_ok_of
    (P := fun n (ws : List α) => ws.length = ws0.length ∧
      ∀ k, ws[k]? = if k < n then (List.zipWith A.add ws0 dws)[k]? else ws0[k]?)
    n ⟨rfl, fun k => by simp⟩ ?_
  intro i t hi ⟨htlen, ht⟩
  have hit : i < t.length := by omega
  have hi0 : i < ws0.length := by omega
  have hid : i < dws.length := by omega
  have htw : t[i]? = some ws0[i] := by
    rw [ht i, if_neg (Nat.lt_irrefl i), List.getElem?_eq_getElem hi0]
  refine ⟨t.set i (A.add ws0[i] dws[i]), ?_, by simpa using htlen, ?_⟩
  · beta_reduce
    rw [readAt_eq_ok.2 htw, ok_bind, readAt_eq_ok.2 (List.getElem?_eq_getElem hid), ok_bind]
    exact writeAt_of_lt _ hit
  · intro k
    by_cases hki : k = i
    · subst hki
      rw [if_pos (Nat.lt_succ_self k), List.getElem?_zipWith, List.getElem?_eq_getElem hi0,
        List.getElem?_eq_getElem hid]
      simp [hit]
    · rw [List.getElem?_set_ne (Ne.symm hki), ht k]
      by_cases hk : k < i
      · rw [if_pos hk, if_pos (by omega)]
      · rw [if_neg hk, if_neg (by omega)]

/-- C14.  For a layer whose `weights` and `dWeights` have the same length,
`updateWeights` returns, and the layer it leaves is the layer as it was with
`weights[k]` replaced by `weights[k] + dWeights[k]` at every flat index `k`: `dWeights`
is not cleared, and `outputs` and `deltas` are as they were. -/
theorem updateWeights_adds_accumulator (A : Arith α) (l : MLPLayer α)
    (hlen : l.weights.length = l.dWeights.length) :
    l.updateWeights A
      = .ok { l with weights := List.zipWith A.add l.weights l.dWeights } := by
  obtain ⟨ws, hws, hwlen, hval⟩ :=
    updateWeights_loop A l.weights l.dWeights hlen l.dWeights.length (Nat.le_refl _)
  have heq : ws = List.zipWith A.add l.weights l.dWeights := by
    apply List.ext_getElem?
    intro k
    rw [hval k]
    by_cases hk : k < l.dWeights.length
    · rw [if_pos hk]
    · rw [if_neg hk, List.getElem?_eq_none (by omega), List.getElem?_eq_none (by simp; omega)]
  unfold MLPLayer.updateWeights
  rw [hws, ok_bind, heq]
  rfl

/-- C14, at `layer32` (weights `0, 0, 0, 0, 0, -1`) with the accumulator
`1, 2, 3, 4, 5, 6`: the weights become `1, 2, 3, 4, 5, 5`, the accumulator stays. -/
theorem updateWeights_adds_accumulator_witness :
    ({ layer32 with dWeights := [1, 2, 3, 4, 5, 6] } : MLPLayer ℚ).weights.length
      = ({ layer32 with dWeights := [1, 2, 3, 4, 5, 6] } : MLPLayer ℚ).dWeights.length ∧
    ({ layer32 with dWeights := [1, 2, 3, 4, 5, 6] } : MLPLayer ℚ).updateWeights
        (ratArith expTaylor)
      = .ok { layer32 with weights := [1, 2, 3, 4, 5, 5], dWeights := [1, 2, 3, 4, 5, 6] } := by
  refine ⟨by simp [layer32, MLPLayer.new], ?_⟩
  rw [updateWeights_adds_accumulator _ _ (by simp [layer32, MLPLayer.new])]
  simp [layer32, MLPLayer.new, initWeight, ratArith, List.range, List.range.loop]
  norm_num

end UpdateWeights

section Chaining

variable {α : Type}

theorem chained_snoc (l : MLPLayer α) :
    ∀ (ls : List (MLPLayer α)) (first : Nat), Chained first ls l.numInputs →
      Chained first (ls ++ [l]) l.numOutputs := by
  intro ls
  induction ls with
  | nil =>
    intro first h
    exact ⟨h.symm, rfl⟩
  | cons m ms ih =>
    intro first h
    exact ⟨h.1, ih _ h.2⟩

theorem addLayer_chained (A : Arith α) (net : Net α) (newNumOutputs : Nat) (lr mom : α)
    (rand : Nat → Nat) (h : Chained net.numInputs net.layers net.numOutputs) :
    Chained (net.addLayer A newNumOutputs lr mom rand).numInputs
      (net.addLayer A newNumOutputs lr mom rand).layers
      (net.addLayer A newNumOutputs lr mom rand).numOutputs :=
  chained_snoc (MLPLayer.new A net.numOutputs newNumOutputs lr mom rand) net.layers
    net.numInputs h

theorem addLayers_chained (A : Arith α) (specs : List (LayerSpec α)) :
    ∀ net : Net α, Chained net.numInputs net.layers net.numOutputs →
      Chained (net.addLayers A specs).numInputs (net.addLayers A specs).layers
        (net.addLayers A specs).numOutputs ∧
      (net.addLayers A specs).numInputs = net.numInputs := by
  induction specs with
  | nil => intro net h; exact ⟨h, rfl⟩
  | cons sp sps ih =>
    intro net h
    have := ih (net.addLayer A sp.numOutputs sp.learningRate sp.momentum sp.rand)
      (addLayer_chained A net _ _ _ _ h)
    exact ⟨this.1, this.2⟩

theorem chained_head (first last : Nat) (ls : List (MLPLayer α)) (h : Chained first ls last)
    (l : MLPLayer α) (hl : ls.head? = some l) : l.numInputs = first := by
  cases ls with
  | nil => cases hl
  | cons m ms =>
    cases hl
    exact h.1

theorem chained_consecutive :
    ∀ (ls : List (MLPLayer α)) (first last : Nat), Chained first ls last →
      ∀ (i : Nat) (l l' : MLPLayer α), ls[i]? = some l → ls[i + 1]? = some l' →
        l.numOutputs = l'.numInputs := by
  intro ls
  induction ls with
  | nil => intro _ _ _ i l l' hl; cases hl
  | cons m ms ih =>
    intro first last h i l l' hl hl'
    cases i with
    | zero =>
      simp only [List.getElem?_cons_zero, Option.some.injEq] at hl
      subst hl
      cases ms with
      | nil => cases hl'
      | cons m' ms' =>
        simp only [List.getElem?_cons_succ, List.getElem?_cons_zero, Option.some.injEq] at hl'
        subst hl'
        exact h.2.1.symm
    | succ i =>
      simp only [List.getElem?_cons_succ] at hl hl'
      exact ih _ _ h.2 i l l' hl hl'

theorem chained_last :
    ∀ (ls : List (MLPLayer α)) (first last : Nat), Chained first ls last →
      last = (match ls.getLast? with
        | some l => l.numOutputs
        | none => first) := by
  intro ls
  induction ls with
  | nil => intro first last h; exact h.symm
  | cons m ms ih =>
    intro first last h
    have := ih _ _ h.2
    cases ms with
    | nil => exact this
    | cons m' ms' =>
      rw [List.getLast?_cons_cons]
      rw [this]
      cases h' : (m' :: ms').getLast? with
      | none => simp at h'
      | some v => rfl

/-- C15.  After `MLP(numInputs, ..)` and any sequence of `addLayer` calls: the first
layer has the network's `numInputs` inputs, every layer has as many outputs as the
next one has inputs, and the network's `numOutputs` is the `numOutputs` of the last
layer, or `numInputs` when there is no layer. -/
theorem addLayer_chaining (A : Arith α) (numInputs : Nat) (batchSize epochs : Int)
    (epsilon : α) (verbose : Bool) (specs : List (LayerSpec α)) :
    ((Net.new numInputs batchSize epochs epsilon verbose).addLayers A specs).numInputs
      = numInputs ∧
    (∀ l, ((Net.new numInputs batchSize epochs epsilon verbose).addLayers A specs).layers.head?
        = some l → l.numInputs = numInputs) ∧
    (∀ i l l',
      ((Net.new numInputs batchSize epochs epsilon verbose).addLayers A specs).layers[i]?
        = some l →
      ((Net.new numInputs batchSize epochs epsilon verbose).addLayers A specs).layers[i + 1]?
        = some l' →
      l.numOutputs = l'.numInputs) ∧
    ((Net.new numInputs batchSize epochs epsilon verbose).addLayers A specs).numOutputs
      = (match
          ((Net.new numInputs batchSize epochs epsilon verbose).addLayers A specs).layers.getLast?
          with
        | some l => l.numOutputs
        | none => numInputs) := by
  obtain ⟨hch, hin⟩ := addLayers_chained A specs
    (Net.new numInputs batchSize epochs epsilon verbose) rfl
  have hin' : ((Net.new numInputs batchSize epochs epsilon verbose).addLayers A specs).numInputs
      = numInputs := hin
  rw [hin'] at hch
  exact ⟨hin', chained_head _ _ _ hch, chained_consecutive _ _ _ hch, chained_last _ _ _ hch⟩

end Chaining

section OutputDelta

variable {α : Type}

theorem adjustAsOutputLayer_deltas (A : Arith α) (l l' : MLPLayer α) (expected : List Int)
    (inputs : List α) (h : l.adjustAsOutputLayer A expected inputs = .ok l') :
    l'.deltas.length = l.deltas.length ∧
    ∀ i, i < l.numOutputs → ∃ y e, l.outputs.get? i = some y ∧ expected.get? i = some e ∧
      l'.deltas.get? i = some (outputDelta A (A.ofRat (e : ℚ)) y) := by
  unfold MLPLayer.adjustAsOutputLayer at h
  rw [bind_eq_ok] at h
  obtain ⟨st, hst, h⟩ := h
  cases h
  refine forLoop_inv
    (P := fun n (st : List α × List α) => st.1.length = l.deltas.length ∧ ∀ i, i < n →
      ∃ y e, l.outputs.get? i = some y ∧ expected.get? i = some e ∧
        st.1.get? i = some (outputDelta A (A.ofRat (e : ℚ)) y))
    l.numOutputs ⟨rfl, fun i hi => absurd hi (Nat.not_lt_zero i)⟩ ?_ st hst
  intro n t t' _ ⟨hlen, hval⟩ hb
  simp only [bind_eq_ok] at hb
  obtain ⟨y, hy, e, he, ds, hds, dws, _, hb⟩ := hb
  cases hb
  rw [writeAt_eq_ok] at hds
  obtain ⟨hn, rfl⟩ := hds
  rw [readAt_eq_ok] at hy he
  refine ⟨by simpa using hlen, ?_⟩
  intro i hi
  by_cases hin : i = n
  · subst hin
    exact ⟨y, e, by rw [List.get?_eq_getElem?]; exact hy,
      by rw [List.get?_eq_getElem?]; exact he, get?_set_self _ _ _ hn⟩
  · obtain ⟨y', e', hy', he', hd'⟩ := hval i (by omega)
    exact ⟨y', e', hy', he', by rw [get?_set_other _ _ _ _ hin]; exact hd'⟩

/-- C17 (as the code has it).  When `adjustAsOutputLayer` returns, the delta it has
stored for every unit `i` is `(d - y * y) * y * y * (1 - y * y)` with `y = outputs[i]`
and `d = expected[i]`: the square of the output stands where the claim, and the
comment above the line, have the output. -/
theorem adjustAsOutputLayer_delta (A : Arith α) (l l' : MLPLayer α) (expected : List Int)
    (inputs : List α) (h : l.adjustAsOutputLayer A expected inputs = .ok l')
    (i : Nat) (hi : i < l.numOutputs) :
    ∃ y e, l.outputs.get? i = some y ∧ expected.get? i = some e ∧
      l'.deltas.get? i = some (outputDelta A (A.ofRat (e : ℚ)) y) :=
  (adjustAsOutputLayer_deltas A l l' expected inputs h).2 i hi

theorem output11_adjust :
    output11.adjustAsOutputLayer (ratArith expTaylor) [1] [0]
      = .ok { output11 with deltas := [9/64] } := by
  simp [output11, MLPLayer.adjustAsOutputLayer, outputDelta, MLPLayer.new, forLoop, readAt,
    writeAt, ratArith, List.range, List.range.loop, bind, Except.bind, pure, Except.pure]
  norm_num

/-- C17, at `output11` (cached output `1/2`) and the target `1`: the code stores the
delta `9/64`; `(d - y) * y * (1 - y)` is `1/8`. -/
theorem adjustAsOutputLayer_delta_witness :
    output11.adjustAsOutputLayer (ratArith expTaylor) [1] [0]
      = .ok { output11 with deltas := [9/64] } ∧
    (∃ y e, output11.outputs.get? 0 = some y ∧ ([1] : List Int).get? 0 = some e ∧
      some (9/64 : ℚ) = some (outputDelta (ratArith expTaylor) ((e : ℚ)) y)) ∧
    sigmoidDelta (ratArith expTaylor) 1 (1/2) = 1/8 :=
  ⟨output11_adjust,
    adjustAsOutputLayer_delta (ratArith expTaylor) output11 _ [1] [0] output11_adjust 0
      (by decide),
    by simp [sigmoidDelta, ratArith]; norm_num⟩

end OutputDelta

section InitWeight

/-- C19 (as the code has it).  Whatever `rand()` returns, the initial weight
`(r % 101)/100.0 - 1` lies in `[-1, 0]`: it is `-1` for `r = 0` and `0` for `r = 100`,
and it is never `1`, nor positive. -/
theorem initWeight_range (e : ℚ → ℚ) (r : Nat) :
    -1 ≤ initWeight (ratArith e) r ∧ initWeight (ratArith e) r ≤ 0 ∧
    initWeight (ratArith e) r ≠ 1 ∧
    initWeight (ratArith e) 0 = -1 ∧ initWeight (ratArith e) 100 = 0 := by
  have hval : initWeight (ratArith e) r = ((r % 101 : Nat) : ℚ) / 100 - 1 := rfl
  have h0 : (0 : ℚ) ≤ ((r % 101 : Nat) : ℚ) := Nat.cast_nonneg _
  have h1 : ((r % 101 : Nat) : ℚ) ≤ 100 := by
    have : r % 101 ≤ 100 := by omega
    exact_mod_cast this
  have hle : initWeight (ratArith e) r ≤ 0 := by
    rw [hval]
    linarith
  refine ⟨by rw [hval]; linarith, hle, fun h => by rw [h] at hle; norm_num at hle, ?_, ?_⟩
  · show ((0 % 101 : Nat) : ℚ) / 100 - 1 = -1
    norm_num
  · show ((100 % 101 : Nat) : ℚ) / 100 - 1 = 0
    norm_num

end InitWeight

section FlatIndex

variable {α : Type}

theorem fireSum_flatIndex (A : Arith α) (l : MLPLayer α) (inputs : List α) (i : Nat) :
    l.fireSum A inputs i = forLoop inputs.length (fun j sum => do
      let w ← readAt l.weights (flatIndex l.numOutputs i j)
      let x ← readAt inputs j
      pure (A.add sum (A.mul w x))) (A.ofRat 0) := rfl

theorem adjustAsOutputLayer_flatIndex (A : Arith α) (l : MLPLayer α) (expected : List Int)
    (inputs : List α) :
    l.adjustAsOutputLayer A expected inputs = (do
      let st ← forLoop l.numOutputs (fun i (st : List α × List α) => do
        let y ← readAt l.outputs i
        let e ← readAt expected i
        let ds ← writeAt st.1 i (outputDelta A (A.ofRat (e : ℚ)) y)
        let dws ← forLoop l.numInputs (fun j dws => do
          let di ← readAt ds i
          let x ← readAt inputs j
          let old ← readAt dws (flatIndex l.numOutputs i j)
          writeAt dws (flatIndex l.numOutputs i j)
            (A.add old (A.mul (A.mul l.learningRate di) x))) st.2
        pure (ds, dws)) (l.deltas, l.dWeights)
      pure { l with deltas := st.1, dWeights := st.2 }) := rfl

theorem flatIndex_div {O i j : Nat} (hj : j < O) : flatIndex O i j / O = i := by
  unfold flatIndex
  have hO : 0 < O := by omega
  rw [Nat.add_comm, Nat.add_mul_div_right _ _ hO, Nat.div_eq_of_lt hj, Nat.zero_add]

theorem flatIndex_mod {O i j : Nat} (hj : j < O) : flatIndex O i j % O = j := by
  unfold flatIndex
  rw [Nat.add_comm, Nat.add_mul_mod_self_right, Nat.mod_eq_of_lt hj]

theorem flat_square (O : Nat) : FlatInRange O O ∧ FlatInjective O O ∧ FlatSurjective O O := by
  refine ⟨?_, ?_, ?_⟩
  · intro i j hi hj
    exact flat_index_lt hi hj (Nat.le_refl _)
  · intro i j i' j' _ hj _ hj' h
    have hd := congrArg (· / O) h
    have hm := congrArg (· % O) h
    simp only [flatIndex_div hj, flatIndex_div hj', flatIndex_mod hj, flatIndex_mod hj'] at hd hm
    exact ⟨hd, hm⟩
  · intro k hk
    have hO : 0 < O := by
      rcases Nat.eq_zero_or_pos O with h | h
      · subst h; simp at hk
      · exact h
    refine ⟨k / O, k % O, ?_, Nat.mod_lt _ hO, ?_⟩
    · exact Nat.div_lt_of_lt_mul hk
    · unfold flatIndex
      rw [Nat.mul_comm]
      exact Nat.div_add_mod k O

theorem flat_one (I : Nat) : FlatInRange I 1 ∧ FlatInjective I 1 ∧ FlatSurjective I 1 := by
  refine ⟨?_, ?_, ?_⟩
  · intro i j hi hj
    unfold flatIndex
    omega
  · intro i j i' j' hi _ hi' _ h
    unfold flatIndex at h
    omega
  · intro k hk
    exact ⟨0, k, by omega, by omega, by unfold flatIndex; omega⟩

/-- C20 (as the code has it).  For positive widths `I = numInputs`, `O = numOutputs`,
the flat index `i * numOutputs + j` is a bijection between the pairs (unit `i < O`,
input `j < I`) and the `I * O` cells of the buffers exactly when the layer is square
or has a single unit; in every other layer two pairs share a cell (`O < I`) or an
index falls outside the buffer (`I < O`). -/
theorem flatIndex_bijective_iff (I O : Nat) (hI : 0 < I) (hO : 0 < O) :
    (FlatInRange I O ∧ FlatInjective I O ∧ FlatSurjective I O) ↔ (O = I ∨ O = 1) := by
  constructor
  · intro ⟨hrange, hinj, _⟩
    by_cases h1 : O = 1
    · exact Or.inr h1
    · left
      have hle : O ≤ I := by
        by_contra hlt
        have h := hrange (O - 1) 0 (by omega) hI
        unfold flatIndex at h
        have h2 : I * O ≤ (O - 1) * O := Nat.mul_le_mul_right O (by omega)
        omega
      by_contra hne
      have h := hinj 0 O 1 0 hO (by omega) (by omega) hI (by unfold flatIndex; omega)
      omega
  · intro h
    rcases h with h | h
    · subst h
      exact flat_square O
    · subst h
      exact flat_one I

/-- C20, at three inputs and two units: the widths are positive, the pairs (0, 2)
and (1, 0) share the cell 2, and the flat index is no bijection; and at two inputs
and three units the pair (2, 0) has the index 6 in a buffer of 6 cells. -/
theorem flatIndex_bijective_iff_witness :
    flatIndex 2 0 2 = flatIndex 2 1 0 ∧ flatIndex 3 2 0 = 2 * 3 ∧
    ¬ (FlatInRange 3 2 ∧ FlatInjective 3 2 ∧ FlatSurjective 3 2) ∧
    (FlatInRange 3 3 ∧ FlatInjective 3 3 ∧ FlatSurjective 3 3) :=
  ⟨rfl, rfl,
    fun h => absurd ((flatIndex_bijective_iff 3 2 (by decide) (by decide)).1 h) (by decide),
    (flatIndex_bijective_iff 3 3 (by decide) (by decide)).2 (Or.inl rfl)⟩

end FlatIndex

section Examples

variable {α : Type}

end Examples

section ExamplesLog

variable {α : Type}

end ExamplesLog

section ExamplesClaim

variable {α : Type}

end ExamplesClaim

section MomentumPerBatch

variable {α : Type}

/-- The log of one epoch on a network of two layers, for a batch size `b ≥ 1`: the
batch procedure with the calls `twoLayerCalls i` for example `i`. -/
theorem batchUpdate_log_two (A : Arith α) (b : Nat) (X : List (List α))
    (d : List (List Int)) (n : Nat) (s s' : Sim α) (hb : 1 ≤ b) (hL : s.layers.length = 2)
    (h : batchUpdate A (b : Int) X d n s = .ok s') :
    s'.log = s.log ++ epochLog 2 b n twoLayerCalls := by
  unfold batchUpdate at h
  simp only [bind_eq_ok] at h
  obtain ⟨s1, hs1, s2, hs2, r, hr, h⟩ := h
  obtain ⟨hlen1, hlog1⟩ := forEachLayer_log _ _ _ _ hs1
  have hloop : s2.layers.length = 2 ∧
      s2.log = s1.log ++ examplesLog 2 b twoLayerCalls n := by
    refine forLoop_inv
      (P := fun i (t : Sim α) => t.layers.length = 2 ∧
        t.log = s1.log ++ examplesLog 2 b twoLayerCalls i)
      n ⟨by omega, by simp [examplesLog]⟩ ?_ s2 hs2
    intro i t t' _ ⟨hlen, hlog⟩ hbody
    simp only [bind_eq_ok] at hbody
    obtain ⟨t1, ht1, r1, hr1, hbody⟩ := hbody
    obtain ⟨hlent1, hlogt1⟩ := exampleStep_two_layers A X d i t t1 hlen ht1
    rw [intMod_natCast _ _ hb] at hr1
    cases hr1
    by_cases hmod : (i + 1) % b = 0
    · rw [if_pos (by exact_mod_cast hmod)] at hbody
      obtain ⟨hlen', hlog'⟩ := forEachLayer_log _ _ _ _ hbody
      refine ⟨by omega, ?_⟩
      rw [hlog', hlogt1, hlog, hlent1]
      simp only [examplesLog, twoLayerCalls, if_pos hmod, updateCalls, List.append_assoc]
    · rw [if_neg (by exact_mod_cast hmod)] at hbody
      cases hbody
      refine ⟨hlent1, ?_⟩
      rw [hlogt1, hlog]
      simp only [examplesLog, twoLayerCalls, if_neg hmod, List.append_assoc, List.append_nil]
  obtain ⟨hlen2, hlog2⟩ := hloop
  rw [intMod_natCast _ _ hb] at hr
  cases hr
  by_cases hmod : n % b = 0
  · have hz : ¬ (((n % b : Nat) : Int) ≠ 0) := by rw [hmod]; simp
    rw [if_neg hz] at h
    cases h
    rw [hlog2, hlog1, hL]
    simp [epochLog, momentumCalls, hmod]
  · rw [if_pos (by exact_mod_cast hmod)] at h
    obtain ⟨hlen', hlog'⟩ := forEachLayer_log _ _ _ _ h
    rw [hlog', hlog2, hlog1, hlen2, hL]
    simp [epochLog, momentumCalls, updateCalls, hmod]

end MomentumPerBatch

section MomentumPerBatchClaim

variable {α : Type}

/-- The log of `train` on a network of two layers with a batch size `b ≥ 1`: every
epoch is the batch procedure with the calls `twoLayerCalls i` for example `i`. -/
theorem train_log_two (A : Arith α) (net : Net α) (b : Nat) (X : List (List α))
    (d : List (List Int)) (s' : Sim α) (hb : 1 ≤ b) (hbs : net.batchSize = (b : Int))
    (hL : net.layers.length = 2) (h : train A net X d = .ok s') :
    s'.log = epochsLog
      (fun _ => epochLog 2 b (trainingSplit X.length) twoLayerCalls) net.epochs.toNat := by
  obtain ⟨hXd, hsplit⟩ := train_ok_bound A net X d s' h
  rw [train_eq A net X d hXd hsplit] at h
  have hloop : s'.layers.length = 2 ∧ s'.log = epochsLog
      (fun _ => epochLog 2 b (trainingSplit X.length) twoLayerCalls)
      net.epochs.toNat := by
    refine forLoop_inv
      (P := fun e (t : Sim α) => t.layers.length = 2 ∧ t.log = epochsLog
        (fun _ => epochLog 2 b (trainingSplit X.length) twoLayerCalls) e)
      (s := ⟨net.layers, []⟩) net.epochs.toNat ⟨hL, rfl⟩ ?_ s' h
    intro e t t' _ ⟨hlen, hlog⟩ hbody
    rw [hbs] at hbody
    obtain ⟨hlen', _⟩ := batchUpdate_log A b X d _ t t' hb hbody
    refine ⟨by omega, ?_⟩
    rw [batchUpdate_log_two A b X d _ t t' hb hlen hbody, hlog]
    rfl
  exact hloop.2

theorem net211once_twoLayer : (⟨net211once.layers, []⟩ : Sim ℚ).TwoLayer 2 1 :=
  net211_twoLayer

/-- C18 fails on the code.  `train` on `net211once` (two layers, batch size 1, one
epoch) with three examples, two of them in the training split, returns, and its log
is: `applyMomentum` on both layers, example 0, `updateWeights` on both layers,
example 1, `updateWeights` on both layers.  Between the two successive
`updateWeights` calls on layer 0 there is no `applyMomentum`. -/
theorem momentum_not_per_batch :
    ∃ s', train (ratArith expTaylor) net211once [[0, 0], [0, 1], [1, 0]] [[0], [1], [1]]
        = .ok s' ∧
      s'.log = [Call.applyMomentum 0, Call.applyMomentum 1,
        Call.predict 0, Call.adjustAsOutputLayer 1 0 (Src.outputsOf 0),
        Call.adjustAsHiddenLayer 0 1 (Src.row 0),
        Call.updateWeights 0, Call.updateWeights 1,
        Call.predict 1, Call.adjustAsOutputLayer 1 1 (Src.outputsOf 0),
        Call.adjustAsHiddenLayer 0 1 (Src.row 1),
        Call.updateWeights 0, Call.updateWeights 1] ∧
      ¬ MomentumPerBatch s'.log 0 := by
  obtain ⟨s', hs', _⟩ := train_ok (ratArith expTaylor) net211once [[0, 0], [0, 1], [1, 0]]
    [[0], [1], [1]] 2 1 net211once_twoLayer (by decide) (by decide) (by decide) rfl
    (by decide)
    (by
      intro x hx
      simp only [List.mem_cons, List.mem_singleton, List.not_mem_nil, or_false] at hx
      rcases hx with rfl | rfl | rfl <;> rfl)
    (by
      intro e he
      simp only [List.mem_cons, List.mem_singleton, List.not_mem_nil, or_false] at he
      rcases he with rfl | rfl | rfl <;> decide)
  have hlog := train_log_two (ratArith expTaylor) net211once 1 [[0, 0], [0, 1], [1, 0]]
    [[0], [1], [1]] s' (Nat.le_refl 1) rfl rfl hs'
  have hlog' : s'.log = [Call.applyMomentum 0, Call.applyMomentum 1,
      Call.predict 0, Call.adjustAsOutputLayer 1 0 (Src.outputsOf 0),
      Call.adjustAsHiddenLayer 0 1 (Src.row 0),
      Call.updateWeights 0, Call.updateWeights 1,
      Call.predict 1, Call.adjustAsOutputLayer 1 1 (Src.outputsOf 0),
      Call.adjustAsHiddenLayer 0 1 (Src.row 1),
      Call.updateWeights 0, Call.updateWeights 1] := by
    rw [hlog]
    decide
  refine ⟨s', hs', hlog', ?_⟩
  intro hclaim
  have := hclaim
    [Call.applyMomentum 0, Call.applyMomentum 1, Call.predict 0,
      Call.adjustAsOutputLayer 1 0 (Src.outputsOf 0), Call.adjustAsHiddenLayer 0 1 (Src.row 0)]
    [Call.updateWeights 1, Call.predict 1, Call.adjustAsOutputLayer 1 1 (Src.outputsOf 0),
      Call.adjustAsHiddenLayer 0 1 (Src.row 1)]
    [Call.updateWeights 1] (by rw [hlog']; rfl) (by decide)
  revert this
  decide

end MomentumPerBatchClaim

section MomentumAmended

variable {α : Type}

theorem examplesLog_not_momentum (L b : Nat) (evs : Nat → List Call)
    (hevs : ∀ i, ∃ ev, evs i = Call.predict i :: ev ∧ ∀ c, c ∈ ev → c.isAdjust = true) :
    ∀ n c, c ∈ examplesLog L b evs n → c.isMomentum = false := by
  intro n
  induction n with
  | zero => intro c hc; cases hc
  | succ n ih =>
    intro c hc
    simp only [examplesLog, List.mem_append] at hc
    rcases hc with (hc | hc) | hc
    · exact ih c hc
    · obtain ⟨ev, hev, hadj⟩ := hevs n
      rw [hev] at hc
      rcases List.mem_cons.1 hc with rfl | hc
      · rfl
      · exact isAdjust_not_momentum c (hadj c hc)
    · split at hc
      · exact updateCalls_not_momentum L c hc
      · cases hc

/-- What follows the `applyMomentum` calls of an epoch: no `applyMomentum`, and
`⌈n / b⌉` calls of `updateWeights` on every layer. -/
theorem epochLog_rest (L b n : Nat) (evs : Nat → List Call) (hb : 1 ≤ b)
    (hevs : ∀ i, ∃ ev, evs i = Call.predict i :: ev ∧ ∀ c, c ∈ ev → c.isAdjust = true) :
    ∃ rest, epochLog L b n evs = momentumCalls L ++ rest ∧
      (∀ c, c ∈ rest → c.isMomentum = false) ∧
      ∀ k, k < L → rest.count (Call.updateWeights k) = (n + b - 1) / b := by
  refine ⟨examplesLog L b evs n ++ (if n % b ≠ 0 then updateCalls L else []),
    by unfold epochLog; rw [List.append_assoc], ?_, ?_⟩
  · intro c hc
    rcases List.mem_append.1 hc with hc | hc
    · exact examplesLog_not_momentum L b evs hevs n c hc
    · split at hc
      · exact updateCalls_not_momentum L c hc
      · cases hc
  · intro k hk
    have h := count_update_epochLog L b n k evs hb hk hevs
    unfold epochLog at h
    rw [List.append_assoc, List.count_append, count_update_momentumCalls, Nat.zero_add] at h
    exact h

/-- C18 (amended).  When `train` returns, with a batch size `b ≥ 1` and a training
split of `n` examples: every epoch is `applyMomentum` on the layers `0, ..., L - 1`
followed by calls among which there is no `applyMomentum` and there are `⌈n / b⌉`
calls of `updateWeights` on every layer.  The momentum decay happens once an epoch,
ahead of its first example; the batches of an epoch after the first are not preceded
by one. -/
theorem momentum_once_for_all_batches (A : Arith α) (net : Net α) (b : Nat)
    (X : List (List α)) (d : List (List Int)) (s' : Sim α) (hb : 1 ≤ b)
    (hbs : net.batchSize = (b : Int)) (h : train A net X d = .ok s') :
    ∃ rests : Nat → List Call,
      s'.log = epochsLog (fun e => momentumCalls net.layers.length ++ rests e)
        net.epochs.toNat ∧
      ∀ e, e < net.epochs.toNat →
        (∀ c, c ∈ rests e → c.isMomentum = false) ∧
        ∀ k, k < net.layers.length →
          (rests e).count (Call.updateWeights k)
            = (trainingSplit X.length + b - 1) / b := by
  obtain ⟨hXd, hsplit⟩ := train_ok_bound A net X d s' h
  rw [train_eq A net X d hXd hsplit] at h
  have hloop : s'.layers.length = net.layers.length ∧
      ∃ rests : Nat → List Call,
        s'.log = epochsLog (fun e => momentumCalls net.layers.length ++ rests e)
          net.epochs.toNat ∧
        ∀ e, e < net.epochs.toNat →
          (∀ c, c ∈ rests e → c.isMomentum = false) ∧
          ∀ k, k < net.layers.length →
            (rests e).count (Call.updateWeights k)
              = (trainingSplit X.length + b - 1) / b := by
    refine forLoop_inv
      (P := fun ep (t : Sim α) => t.layers.length = net.layers.length ∧
        ∃ rests : Nat → List Call,
          t.log = epochsLog (fun e => momentumCalls net.layers.length ++ rests e) ep ∧
          ∀ e, e < ep →
            (∀ c, c ∈ rests e → c.isMomentum = false) ∧
            ∀ k, k < net.layers.length →
              (rests e).count (Call.updateWeights k)
                = (trainingSplit X.length + b - 1) / b)
      (s := ⟨net.layers, []⟩) net.epochs.toNat
      ⟨rfl, fun _ => [], rfl, fun e he => absurd he (Nat.not_lt_zero e)⟩ ?_ s' h
    intro ep t t' _ ⟨hlen, rests, hlog, hrests⟩ hbody
    rw [hbs] at hbody
    obtain ⟨hlen', evs, hevs, hlog'⟩ := batchUpdate_log A b X d _ t t' hb hbody
    obtain ⟨rest, hsplit, hnomom, hcount⟩ :=
      epochLog_rest t.layers.length b (trainingSplit X.length) evs hb hevs
    refine ⟨by omega, Function.update rests ep rest, ?_, ?_⟩
    · have hcongr := epochsLog_congr
        (fun e => momentumCalls net.layers.length ++ Function.update rests ep rest e)
        (fun e => momentumCalls net.layers.length ++ rests e) ep
        (fun k hk => by
          show momentumCalls net.layers.length ++ Function.update rests ep rest k = _
          rw [Function.update_noteq (by omega)])
      simp only [epochsLog, hcongr, Function.update_same]
      rw [hlog', hsplit, hlog, hlen]
    · intro e he
      by_cases hep : e = ep
      · subst hep
        rw [Function.update_same]
        exact ⟨hnomom, fun k hk => hcount k (by omega)⟩
      · rw [Function.update_noteq hep]
        exact hrests e (by omega)
  exact hloop.2

/-- C18 (amended), at `net211` (batch size 2, three epochs) and four examples, three
of them in the training split: `train` returns, every epoch begins with
`applyMomentum` on both layers, and what follows in the epoch holds no `applyMomentum`
and two `updateWeights` on layer 0. -/
theorem momentum_once_for_all_batches_witness :
    ∃ s', train (ratArith expTaylor) net211 [[0, 0], [0, 1], [1, 0], [1, 1]]
        [[0], [1], [1], [0]] = .ok s' ∧
      ∃ rests : Nat → List Call,
        s'.log = epochsLog
          (fun e => [Call.applyMomentum 0, Call.applyMomentum 1] ++ rests e) 3 ∧
        ∀ e, e < 3 → (∀ c, c ∈ rests e → c.isMomentum = false) ∧
          (rests e).count (Call.updateWeights 0) = 2 := by
  obtain ⟨s', hs', _⟩ := train_ok (ratArith expTaylor) net211 [[0, 0], [0, 1], [1, 0], [1, 1]]
    [[0], [1], [1], [0]] 2 1 net211_twoLayer (by decide) (by decide) (by decide) rfl
    (by decide)
    (by
      intro x hx
      simp only [List.mem_cons, List.mem_singleton, List.not_mem_nil, or_false] at hx
      rcases hx with rfl | rfl | rfl | rfl <;> rfl)
    (by
      intro e he
      simp only [List.mem_cons, List.mem_singleton, List.not_mem_nil, or_false] at he
      rcases he with rfl | rfl | rfl | rfl <;> decide)
  obtain ⟨rests, hlog, hrests⟩ := momentum_once_for_all_batches (ratArith expTaylor) net211 2
    [[0, 0], [0, 1], [1, 0], [1, 1]] [[0], [1], [1], [0]] s' (by decide) rfl hs'
  exact ⟨s', hs', rests, hlog, fun e he => ⟨(hrests e he).1, (hrests e he).2 0 (by decide)⟩⟩

end MomentumAmended


section PredictSingle

variable {α : Type}

/-- C9 (as the code has it).  `predict` is the left-to-right composition of the
layers' `fire` (`fireAll`), failing exactly when that composition fails, and for a
single layer `l` it is `l.fire`; the vector it then returns holds for every unit
`i < numOutputs` the activation of the sum of `weights[i * numOutputs + j] * x[j]` over
the inputs `j`: row `i` is read from flat index `i * numOutputs` on, not from
`i * numInputs` on as in the product of the weight matrix with `x`. -/
theorem predict_single_layer_stride (A : Arith α) (layers : List (MLPLayer α))
    (l : MLPLayer α) (x : List α) :
    predict A layers x = (do
      let ls' ← fireAll A layers x
      pure (ls', lastOutputs ls' x)) ∧
    predict A [l] x = (do
      let l' ← l.fire A x
      pure ([l'], l'.outputs)) ∧
    ∀ ls' y, predict A [l] x = .ok (ls', y) →
      y.length = l.outputs.length ∧
      ∀ i, i < l.numOutputs →
        y.get? i = some (sigmoid A (weightedSum A l.weights x l.numOutputs i)) := by
  obtain ⟨hall, hone⟩ := predict_eq_fireAll A layers l x
  refine ⟨hall, hone, ?_⟩
  intro ls' y hp
  rw [hone, bind_eq_ok] at hp
  obtain ⟨l', hl', hp⟩ := hp
  cases hp
  exact fire_outputs A l l' x hl'

/-- C9, at the single layer `layer32` (three inputs, two units, weights
`0, 0, 0, 0, 0, -1`) and the input `0, 0, 1`: `predict` returns `1/2, 1/2`, unit 1
being the activation of the sum over the flat indices 2, 3, 4, where the activation of
the product of the weight matrix with the input is `1/2, 20000/40201`. -/
theorem predict_single_layer_stride_witness :
    predict (ratArith expTaylor) [layer32] [0, 0, 1]
      = .ok ([{ layer32 with outputs := [1/2, 1/2] }], [1/2, 1/2]) ∧
    ([1/2, 1/2] : List ℚ).get? 1 = some (sigmoid (ratArith expTaylor)
      (weightedSum (ratArith expTaylor) layer32.weights [0, 0, 1] 2 1)) ∧
    activationOfProduct (ratArith expTaylor) layer32 [0, 0, 1] = [1/2, 20000/40201] := by
  have hp : predict (ratArith expTaylor) [layer32] [0, 0, 1]
      = .ok ([{ layer32 with outputs := [1/2, 1/2] }], [1/2, 1/2]) := by
    rw [(predict_single_layer_stride (ratArith expTaylor) [] layer32 [0, 0, 1]).2.1,
      layer32_fire]
    rfl
  refine ⟨hp, ((predict_single_layer_stride (ratArith expTaylor) [] layer32 [0, 0, 1]).2.2
    _ _ hp).2 1 (by decide), ?_⟩
  simp [activationOfProduct, layer32, MLPLayer.new, weightedSum, partialSum, initWeight,
    ratArith, sigmoid, expTaylor, List.range, List.range.loop]
  norm_num

end PredictSingle


section Programs

variable {α : Type} {σ β γ τ : Type}

theorem run_pure (b : β) (s : σ) : (pure b : Prog σ β).run s = .returned b s := rfl

theorem run_bind (p : Prog σ β) (f : β → Prog σ γ) (s : σ) :
    (p >>= f).run s =
      match p.run s with
      | .returned b s' => (f b).run s'
      | .threw s' => .threw s'
      | .undefined e => .undefined e := rfl

theorem run_get (s : σ) : (Prog.get : Prog σ σ).run s = .returned s s := rfl

theorem run_set (s t : σ) : (Prog.set t).run s = .returned () t := rfl

theorem run_raise (s : σ) : (Prog.raise : Prog σ β).run s = .threw s := rfl

theorem run_eval_ok (b : β) (s : σ) : (Prog.eval (.ok b) : Prog σ β).run s = .returned b s :=
  rfl

theorem run_eval_error (e : Err) (s : σ) :
    (Prog.eval (.error e) : Prog σ β).run s = .undefined e := rfl

theorem result_returned (b : β) (s : σ) :
    (Outcome.returned b s : Outcome σ β).result = .ok (b, s) := rfl

theorem result_bind (p : Prog σ β) (f : β → Prog σ γ) (s : σ) :
    ((p >>= f).run s).result = ((p.run s).result >>= fun r => ((f r.1).run r.2).result) := by
  rw [run_bind]
  cases p.run s <;> rfl

theorem result_eval (x : Except Err β) (s : σ) :
    ((Prog.eval x : Prog σ β).run s).result = (x >>= fun b => pure (b, s)) := by
  cases x <;> rfl

theorem result_method (f : σ → Except Err σ) (s : σ) :
    ((Prog.method f).run s).result = (f s >>= fun s' => pure ((), s')) := by
  unfold Prog.method
  rw [run_bind, run_get]
  show (((Prog.eval (f s) : Prog σ σ) >>= fun s' => Prog.set s').run s).result = _
  rw [run_bind]
  cases f s <;> rfl

theorem forProgWith_succ (n : Nat) (body : Nat → β → Prog σ β) (b : β) :
    forProgWith (n + 1) body b = (forProgWith n body b >>= body n) := rfl

/-- A loop of statements whose turns give the results of the turns of a `forLoop`
gives the result of the `forLoop`, the state of the `forLoop` holding the local
variable (`projB`) and the object (`projS`). -/
theorem forProgWith_result (projB : τ → β) (projS : τ → σ) (bodyP : Nat → β → Prog σ β)
    (bodyE : Nat → τ → Except Err τ)
    (h : ∀ i t, ((bodyP i (projB t)).run (projS t)).result
      = (bodyE i t >>= fun t' => pure (projB t', projS t'))) :
    ∀ n t, ((forProgWith n bodyP (projB t)).run (projS t)).result
      = (forLoop n bodyE t >>= fun t' => pure (projB t', projS t')) := by
  intro n
  induction n with
  | zero => intro t; rfl
  | succ n ih =>
    intro t
    rw [forProgWith_succ, result_bind, ih t, forLoop_succ]
    cases forLoop n bodyE t with
    | error e => rfl
    | ok t' => exact h n t'

theorem forProg_result (projS : τ → σ) (bodyP : Nat → Prog σ Unit)
    (bodyE : Nat → τ → Except Err τ)
    (h : ∀ i t, ((bodyP i).run (projS t)).result
      = (bodyE i t >>= fun t' => pure ((), projS t'))) (n : Nat) (t : τ) :
    ((forProg n bodyP).run (projS t)).result
      = (forLoop n bodyE t >>= fun t' => pure ((), projS t')) :=
  forProgWith_result (fun _ => ()) projS (fun i _ => bodyP i) bodyE h n t

theorem result_pure (b : β) (s : σ) : ((pure b : Prog σ β).run s).result = .ok (b, s) := rfl

theorem result_get (s : σ) : ((Prog.get : Prog σ σ).run s).result = .ok (s, s) := rfl

theorem result_set (s t : σ) : ((Prog.set t).run s).result = .ok ((), t) := rfl

theorem result_raise (s : σ) : ((Prog.raise : Prog σ β).run s).result = .error .thrown := rfl

theorem fireSum_outputs (A : Arith α) (l : MLPLayer α) (outs inputs : List α) (i : Nat) :
    MLPLayer.fireSum A { l with outputs := outs } inputs i = l.fireSum A inputs i := rfl

theorem fireRun_body (A : Arith α) (l : MLPLayer α) (inputs outs : List α) (i : Nat) :
    (((do
        let l ← Prog.get
        let sum ← Prog.eval (l.fireSum A inputs i)
        let outs ← Prog.eval (writeAt l.outputs i (sigmoid A sum))
        Prog.set { l with outputs := outs } : Prog (MLPLayer α) Unit)).run
          { l with outputs := outs }).result
      = ((do
          let sum ← l.fireSum A inputs i
          writeAt outs i (sigmoid A sum)) >>= fun outs' => pure ((), { l with outputs := outs' })) := by
  simp only [result_bind, result_get, result_eval, result_set, ok_bind, fireSum_outputs]
  cases l.fireSum A inputs i with
  | error e => rfl
  | ok sum =>
    simp only [ok_bind, pure_eq_ok]
    cases writeAt outs i (sigmoid A sum) with
    | error e => rfl
    | ok outs' => rfl

/-- The statements of `fire` give the result of `MLPLayer.fire`: the same layer and
vector on return, a `throw` where it throws, the same error otherwise. -/
theorem fireRun_result (A : Arith α) (l : MLPLayer α) (inputs : List α) :
    ((MLPLayer.fireRun A inputs).run l).result
      = (l.fire A inputs >>= fun l' => pure (l'.outputs, l')) := by
  unfold MLPLayer.fireRun MLPLayer.fire
  rw [result_bind, result_get, ok_bind]
  by_cases hlen : inputs.length ≠ l.numInputs
  · simp only [if_pos hlen]
    rfl
  · simp only [if_neg hlen]
    rw [result_bind, result_pure, ok_bind, result_bind]
    have hloop : ((forProg l.numOutputs (fun i => (do
        let l ← Prog.get
        let sum ← Prog.eval (l.fireSum A inputs i)
        let outs ← Prog.eval (writeAt l.outputs i (sigmoid A sum))
        Prog.set { l with outputs := outs } : Prog (MLPLayer α) Unit))).run l).result = _ :=
      forProg_result (fun outs => { l with outputs := outs }) _
        (fun i outs => do
          let sum ← l.fireSum A inputs i
          writeAt outs i (sigmoid A sum))
        (fun i outs => fireRun_body A l inputs outs i) l.numOutputs l.outputs
    dsimp only
    rw [hloop]
    cases forLoop l.numOutputs (fun i outs => do
        let sum ← l.fireSum A inputs i
        writeAt outs i (sigmoid A sum)) l.outputs with
    | error e => rfl
    | ok outs => rfl

end Programs


section ProgramsNetwork

variable {α : Type} {σ β γ τ : Type}

theorem onLayer_result (k : Nat) (p : Prog (MLPLayer α) β) (layers : List (MLPLayer α)) :
    ((onLayer k p).run layers).result = (do
      let l ← readAt layers k
      let r ← (p.run l).result
      pure (r.1, layers.set k r.2)) := by
  unfold onLayer readAt
  show (match layers[k]? with
    | none => Outcome.undefined Err.outOfRange
    | some l =>
      match p.run l with
      | .returned b l' => .returned b (layers.set k l')
      | .threw l' => .threw (layers.set k l')
      | .undefined e => .undefined e).result = _
  cases layers[k]? with
  | none => rfl
  | some l =>
    show (match p.run l with
      | .returned b l' => Outcome.returned b (layers.set k l')
      | .threw l' => .threw (layers.set k l')
      | .undefined e => .undefined e).result
      = (Except.ok l >>= fun l => (p.run l).result >>= fun r => pure (r.1, layers.set k r.2))
    rw [ok_bind]
    cases p.run l <;> rfl

/-- The statements of `predict` give the result of `predict`. -/
theorem predictRun_result (A : Arith α) (layers : List (MLPLayer α)) (inputs : List α) :
    ((predictRun A inputs).run layers).result
      = (predict A layers inputs >>= fun p => pure (p.2, p.1)) := by
  unfold predictRun predict
  rw [result_bind, result_get, ok_bind]
  exact forProgWith_result Prod.snd Prod.fst
    (fun i inBetween => onLayer i (MLPLayer.fireRun A inBetween)) _
    (by
      intro i t
      rw [onLayer_result]
      simp only [fireRun_result]
      cases readAt t.1 i with
      | error e => rfl
      | ok l =>
        simp only [ok_bind]
        cases l.fire A t.2 with
        | error e => rfl
        | ok l' => rfl)
    layers.length (layers, inputs)

theorem adjustAsHiddenLayerRun_result (A : Arith α) (l nextLayer : MLPLayer α)
    (inputs : List α) :
    ((MLPLayer.adjustAsHiddenLayerRun A nextLayer inputs).run l).result
      = (l.adjustAsHiddenLayer A nextLayer inputs >>= fun l' => pure ((), l')) := by
  unfold MLPLayer.adjustAsHiddenLayerRun
  rw [result_bind, result_get, ok_bind]
  by_cases h : l.numOutputs ≠ nextLayer.numInputs
  · simp only [if_pos h]
    unfold MLPLayer.adjustAsHiddenLayer
    rw [if_pos h]
    rfl
  · simp only [if_neg h]
    rw [result_bind, result_pure, ok_bind, result_method]

end ProgramsNetwork


section ProgramsBackward

variable {α : Type} {σ β γ τ : Type}

theorem result_eq_ok {o : Outcome σ β} {b : β} {s : σ} (h : o.result = .ok (b, s)) :
    o = .returned b s := by
  cases o with
  | returned b' s' =>
    simp only [Outcome.result, Except.ok.injEq, Prod.mk.injEq] at h
    rw [h.1, h.2]
  | threw s' => cases h
  | undefined e => cases h

/-- The statements of the loop over the hidden layers give the result of
`hiddenLoop`. -/
theorem hiddenLoopFrom_result (A : Arith α) :
    ∀ (n j : Nat) (s : Sim α), s.layers.length - j = n →
      (hiddenLoopFrom A j s.layers).result
        = (hiddenLoop A j s >>= fun s' => pure ((), s'.layers)) := by
  intro n
  induction n with
  | zero =>
    intro j s hn
    rw [hiddenLoopFrom, hiddenLoop]
    by_cases hj : 0 < j
    · rw [if_pos hj, if_pos hj, dif_neg (by omega), dif_neg (by omega)]
      rfl
    · rw [if_neg hj, if_neg hj]
      rfl
  | succ n ih =>
    intro j s hn
    rw [hiddenLoopFrom, hiddenLoop]
    by_cases hj : 0 < j
    · rw [if_pos hj, if_pos hj]
      by_cases h1 : j + 1 < s.layers.length
      · rw [dif_pos h1, dif_pos h1]
        have hr := adjustAsHiddenLayerRun_result A (s.layers.get ⟨j, by omega⟩)
          (s.layers.get ⟨j + 1, h1⟩) (s.layers.get ⟨j - 1, by omega⟩).outputs
        cases hE : MLPLayer.adjustAsHiddenLayer A (s.layers.get ⟨j, by omega⟩)
            (s.layers.get ⟨j + 1, h1⟩) (s.layers.get ⟨j - 1, by omega⟩).outputs with
        | error e =>
          rw [hE] at hr
          cases hP : (MLPLayer.adjustAsHiddenLayerRun A (s.layers.get ⟨j + 1, h1⟩)
              (s.layers.get ⟨j - 1, by omega⟩).outputs).run (s.layers.get ⟨j, by omega⟩) with
          | returned b l' => rw [hP] at hr; cases hr
          | threw l' =>
            rw [hP] at hr
            have he : Err.thrown = e := by
              simpa [Outcome.result, bind, Except.bind] using hr
            subst he
            rfl
          | undefined e' =>
            rw [hP] at hr
            have he : e' = e := by
              simpa [Outcome.result, bind, Except.bind] using hr
            subst he
            rfl
        | ok l' =>
          rw [hE] at hr
          rw [result_eq_ok hr]
          exact ih (j + 1) ⟨s.layers.set j l', _⟩ (by simp only [List.length_set]; omega)
      · rw [dif_neg h1, dif_neg h1]
        rfl
    · rw [if_neg hj, if_neg hj]
      rfl

theorem hiddenLoopRun_result (A : Arith α) (j : Nat) (s : Sim α) :
    ((hiddenLoopRun A j).run s.layers).result
      = (hiddenLoop A j s >>= fun s' => pure ((), s'.layers)) :=
  hiddenLoopFrom_result A _ j s rfl

theorem forEachLayerRun_result (f : MLPLayer α → Except Err (MLPLayer α)) (c : Nat → Call)
    (s : Sim α) :
    ((forEachLayerRun (Prog.method f)).run s.layers).result
      = (forEachLayer f c s >>= fun s' => pure ((), s'.layers)) := by
  unfold forEachLayerRun forEachLayer
  rw [result_bind, result_get, ok_bind]
  exact forProg_result Sim.layers (fun k => onLayer k (Prog.method f)) _
    (by
      intro k t
      rw [onLayer_result]
      simp only [result_method]
      cases readAt t.layers k with
      | error e => rfl
      | ok l =>
        simp only [ok_bind]
        cases f l with
        | error e => rfl
        | ok l' => rfl)
    s.layers.length s

end ProgramsBackward


section ProgramsExample

variable {α : Type} {σ β γ τ : Type}

theorem result_eval_bind (x : Except Err β) (f : β → Prog σ γ) (s : σ) :
    ((Prog.eval x >>= f).run s).result = (x >>= fun b => ((f b).run s).result) := by
  rw [result_bind, result_eval]
  cases x <;> rfl

theorem result_get_bind (f : σ → Prog σ γ) (s : σ) :
    ((Prog.get >>= f).run s).result = ((f s).run s).result := by
  rw [result_bind, result_get]
  rfl

theorem result_bind_of {p : Prog σ β} {f : β → Prog σ γ} {s : σ} {e : Except Err τ}
    {g : τ → β} {h : τ → σ} (hp : (p.run s).result = (e >>= fun a => pure (g a, h a))) :
    ((p >>= f).run s).result = (e >>= fun a => ((f (g a)).run (h a)).result) := by
  rw [result_bind, hp]
  cases e <;> rfl

theorem onLayer_method_result (k : Nat) (f : MLPLayer α → Except Err (MLPLayer α))
    (layers : List (MLPLayer α)) (l : MLPLayer α) (hl : readAt layers k = .ok l) :
    ((onLayer k (Prog.method f)).run layers).result
      = (f l >>= fun l' => pure ((), layers.set k l')) := by
  rw [onLayer_result, hl, ok_bind, result_method]
  cases f l <;> rfl

/-- The statements of the body of the `while` loop give the result of `exampleStep`. -/
theorem exampleStepRun_result (A : Arith α) (X : List (List α)) (d : List (List Int))
    (i : Nat) (s : Sim α) :
    ((exampleStepRun A X d i).run s.layers).result
      = (exampleStep A X d i s >>= fun s' => pure ((), s'.layers)) := by
  unfold exampleStepRun exampleStep
  rw [result_eval_bind]
  cases readAt X i with
  | error e => rfl
  | ok x =>
    rw [ok_bind, ok_bind, result_bind_of (predictRun_result A s.layers x)]
    cases predict A s.layers x with
    | error e => rfl
    | ok p =>
      rw [ok_bind, ok_bind, result_eval_bind]
      cases readAt d i with
      | error e => rfl
      | ok expected =>
        rw [ok_bind, ok_bind, result_get_bind, result_eval_bind]
        cases hLast : readAt p.1 (usub p.1.length 1) with
        | error e => rfl
        | ok lLast =>
          rw [ok_bind, ok_bind, result_eval_bind]
          cases readAt p.1 (usub p.1.length 2) with
          | error e => rfl
          | ok lBefore =>
            rw [ok_bind, ok_bind, result_bind_of (onLayer_method_result _ _ _ _ hLast)]
            cases lLast.adjustAsOutputLayer A expected lBefore.outputs with
            | error e => rfl
            | ok lLast' =>
              rw [ok_bind, ok_bind, result_bind_of (hiddenLoopRun_result A _
                ⟨p.1.set (usub p.1.length 1) lLast', s.log ++ [Call.predict i,
                  Call.adjustAsOutputLayer (usub p.1.length 1) i
                    (Src.outputsOf (usub p.1.length 2))]⟩)]
              cases hiddenLoop A (usub p.1.length 2)
                ⟨p.1.set (usub p.1.length 1) lLast', s.log ++ [Call.predict i,
                  Call.adjustAsOutputLayer (usub p.1.length 1) i
                    (Src.outputsOf (usub p.1.length 2))]⟩ with
              | error e => rfl
              | ok t =>
                rw [ok_bind, ok_bind, result_get_bind, result_eval_bind]
                cases h0 : readAt t.layers 0 with
                | error e => rfl
                | ok l0 =>
                  rw [ok_bind, ok_bind, result_eval_bind]
                  cases readAt t.layers 1 with
                  | error e => rfl
                  | ok l1 =>
                    rw [ok_bind, ok_bind, onLayer_result, h0, ok_bind,
                      adjustAsHiddenLayerRun_result]
                    cases l0.adjustAsHiddenLayer A l1 x with
                    | error e => rfl
                    | ok l0' => rfl

end ProgramsExample


section ProgramsTrain

variable {α : Type} {σ β γ τ : Type}

theorem updateAllRun_result (A : Arith α) (s : Sim α) :
    ((forEachLayerRun (Prog.method (MLPLayer.updateWeights A))).run s.layers).result
      = (updateAll A s >>= fun s' => pure ((), s'.layers)) :=
  forEachLayerRun_result (MLPLayer.updateWeights A) Call.updateWeights s

/-- The statements of `batchUpdate` give the result of `batchUpdate`. -/
theorem batchUpdateRun_result (A : Arith α) (batchSize : Int) (X : List (List α))
    (d : List (List Int)) (n : Nat) (s : Sim α) :
    ((batchUpdateRun A batchSize X d n).run s.layers).result
      = (batchUpdate A batchSize X d n s >>= fun s' => pure ((), s'.layers)) := by
  unfold batchUpdateRun batchUpdate
  rw [result_bind_of (forEachLayerRun_result _ Call.applyMomentum s)]
  cases forEachLayer (fun l => pure (l.applyMomentum A)) Call.applyMomentum s with
  | error e => rfl
  | ok s1 =>
    rw [ok_bind, ok_bind]
    have hloop := forProg_result Sim.layers
      (fun i => (do
        exampleStepRun A X d i
        let r ← Prog.eval (intMod (i + 1) batchSize)
        if r = 0 then
          forEachLayerRun (Prog.method (MLPLayer.updateWeights A)) :
            Prog (List (MLPLayer α)) Unit))
      (fun i s => do
        let s ← exampleStep A X d i s
        let r ← intMod (i + 1) batchSize
        if r = 0 then updateAll A s else pure s)
      (by
        intro i t
        beta_reduce
        rw [result_bind_of (exampleStepRun_result A X d i t)]
        cases exampleStep A X d i t with
        | error e => rfl
        | ok t' =>
          rw [ok_bind, ok_bind, result_eval_bind]
          cases intMod (i + 1) batchSize with
          | error e => rfl
          | ok r =>
            rw [ok_bind, ok_bind]
            by_cases hr : r = 0
            · rw [if_pos hr, if_pos hr]
              exact updateAllRun_result A t'
            · rw [if_neg hr, if_neg hr]
              rfl)
      n s1
    rw [result_bind_of hloop]
    cases forLoop n (fun i s => do
        let s ← exampleStep A X d i s
        let r ← intMod (i + 1) batchSize
        if r = 0 then updateAll A s else pure s) s1 with
    | error e => rfl
    | ok s2 =>
      rw [ok_bind, ok_bind, result_eval_bind]
      cases intMod n batchSize with
      | error e => rfl
      | ok r =>
        rw [ok_bind, ok_bind]
        by_cases hr : r ≠ 0
        · rw [if_pos hr, if_pos hr]
          exact updateAllRun_result A s2
        · rw [if_neg hr, if_neg hr]
          rfl

/-- The statements of `train` give the result of `train`: the same layers on return,
a `throw` where `train` throws, the same error otherwise. -/
theorem trainRun_result (A : Arith α) (net : Net α) (X : List (List α))
    (d : List (List Int)) :
    ((trainRun A net X d).run net.layers).result
      = (train A net X d >>= fun s => pure ((), s.layers)) := by
  unfold trainRun train
  by_cases h : X.length ≠ d.length
  · rw [if_pos h, if_pos h]
    rfl
  · rw [if_neg h, if_neg h, result_bind, result_pure, ok_bind, result_eval_bind]
    cases lastTrainingIndex X.length with
    | error e => rfl
    | ok n =>
      rw [ok_bind, ok_bind]
      exact forProg_result Sim.layers
        (fun _ => batchUpdateRun A net.batchSize X d n) _
        (fun _ t => batchUpdateRun_result A net.batchSize X d n t)
        net.epochs.toNat ⟨net.layers, []⟩

end ProgramsTrain


section ThrowsClaims

variable {α : Type}

theorem fireRun_mismatch (A : Arith α) (l : MLPLayer α) (inputs : List α)
    (h : inputs.length ≠ l.numInputs) :
    (MLPLayer.fireRun A inputs).run l = .threw l := by
  unfold MLPLayer.fireRun
  rw [run_bind, run_get]
  simp only [if_pos h]
  rfl

/-- C12.  `fire` throws exactly when the length of `inputs` differs from
`numInputs`, be it shorter or longer; its statements leave by the `throw` exactly
then, with the layer in the state it had before the call, so `outputs`, `weights`,
`deltas` and `dWeights` are unchanged; and the statements have the result of
`MLPLayer.fire`. -/
theorem fire_throws_on_length_mismatch (A : Arith α) (l : MLPLayer α) (inputs : List α) :
    (l.fire A inputs = .error .thrown ↔ inputs.length ≠ l.numInputs) ∧
    (∀ s, (MLPLayer.fireRun A inputs).run l = .threw s ↔
      inputs.length ≠ l.numInputs ∧ s = l) ∧
    ((MLPLayer.fireRun A inputs).run l).result
      = (l.fire A inputs >>= fun l' => pure (l'.outputs, l')) := by
  refine ⟨fire_thrown_iff A l inputs, ?_, fireRun_result A l inputs⟩
  intro s
  constructor
  · intro hs
    have hres := fireRun_result A l inputs
    rw [hs] at hres
    have hthrown : l.fire A inputs = .error .thrown := by
      cases hf : l.fire A inputs with
      | error e =>
        rw [hf] at hres
        have he : Err.thrown = e := by
          simpa [Outcome.result, bind, Except.bind] using hres
        rw [he]
      | ok l' =>
        rw [hf] at hres
        cases hres
    have hlen := (fire_thrown_iff A l inputs).1 hthrown
    rw [fireRun_mismatch A l inputs hlen] at hs
    cases hs
    exact ⟨hlen, rfl⟩
  · rintro ⟨hlen, rfl⟩
    exact fireRun_mismatch A s inputs hlen

/-- C12, at `layer32`, a layer with three inputs: on a vector of two elements and on
a vector of four `fire` throws, and at the throw the layer is `layer32` as it was. -/
theorem fire_throws_on_length_mismatch_witness :
    layer32.fire (ratArith expTaylor) [0, 1] = .error .thrown ∧
    (MLPLayer.fireRun (ratArith expTaylor) [0, 1]).run layer32 = .threw layer32 ∧
    layer32.fire (ratArith expTaylor) [0, 1, 2, 3] = .error .thrown ∧
    (MLPLayer.fireRun (ratArith expTaylor) [0, 1, 2, 3]).run layer32 = .threw layer32 :=
  ⟨(fire_throws_on_length_mismatch (ratArith expTaylor) layer32 [0, 1]).1.2 (by decide),
    ((fire_throws_on_length_mismatch (ratArith expTaylor) layer32 [0, 1]).2.1 layer32).2
      ⟨by decide, rfl⟩,
    (fire_throws_on_length_mismatch (ratArith expTaylor) layer32 [0, 1, 2, 3]).1.2
      (by decide),
    ((fire_throws_on_length_mismatch (ratArith expTaylor) layer32 [0, 1, 2, 3]).2.1
      layer32).2 ⟨by decide, rfl⟩⟩

/-- C11.  When `X` and `d` differ in length `train` throws, and its statements leave
by the `throw` with every layer of the network in the state it had before the call:
no `weights`, `dWeights`, `outputs` or `deltas` is changed.  The statements have the
result of `train`. -/
theorem train_throws_on_size_mismatch (A : Arith α) (net : Net α) (X : List (List α))
    (d : List (List Int)) (h : X.length ≠ d.length) :
    train A net X d = .error .thrown ∧
    (trainRun A net X d).run net.layers = .threw net.layers ∧
    ((trainRun A net X d).run net.layers).result
      = (train A net X d >>= fun s => pure ((), s.layers)) := by
  refine ⟨?_, ?_, trainRun_result A net X d⟩
  · unfold train
    rw [if_pos h]
  · unfold trainRun
    rw [if_pos h]
    rfl

/-- C11, at `net211`, five examples and four targets. -/
theorem train_throws_on_size_mismatch_witness :
    train (ratArith expTaylor) net211 [[0, 0], [0, 1], [1, 0], [1, 1], [1, 1]]
        [[0], [1], [1], [0]] = .error .thrown ∧
      (trainRun (ratArith expTaylor) net211 [[0, 0], [0, 1], [1, 0], [1, 1], [1, 1]]
        [[0], [1], [1], [0]]).run net211.layers = .threw net211.layers :=
  ⟨(train_throws_on_size_mismatch (ratArith expTaylor) net211
      [[0, 0], [0, 1], [1, 0], [1, 1], [1, 1]] [[0], [1], [1], [0]] (by decide)).1,
    (train_throws_on_size_mismatch (ratArith expTaylor) net211
      [[0, 0], [0, 1], [1, 0], [1, 1], [1, 1]] [[0], [1], [1], [0]] (by decide)).2.1⟩

end ThrowsClaims


section HiddenThrowsState

variable {α : Type}

/-- The statements of `adjustAsHiddenLayer` leave by the `throw` with the layer in
the state it had before the call. -/
theorem adjustAsHiddenLayerRun_mismatch (A : Arith α) (l nextLayer : MLPLayer α)
    (inputs : List α) (h : l.numOutputs ≠ nextLayer.numInputs) :
    (MLPLayer.adjustAsHiddenLayerRun A nextLayer inputs).run l = .threw l := by
  unfold MLPLayer.adjustAsHiddenLayerRun
  rw [run_bind, run_get]
  simp only [if_pos h]
  rfl

end HiddenThrowsState

end MLP
